import Mathlib

/-!
# Parameter layout and decoding in `cafe_shell.c`

A shallow embedding of the parameter bookkeeping of `cafe/cafe_shell.c`:
the four decoders `set_birth_death_probabilities*`, the installers
`cafe_shell_set_lambda` / `cafe_shell_set_lambda_mu`, the rate-tree command
`__cafe_cmd_lambda_tree` and the command `cafe_cmd_lambda_mu`.

Conventions.
* A C `double` is a rational number (exact arithmetic); a C `int` is an
  integer (no wrap-around is modelled: the sizes involved are option counts).
* A C array is a list.  Every access that would leave the array makes the
  embedded function return `none`: the C program has no defined result there.
* `memory_new` lives outside `cafe_shell.c`; the value found in the cells of a
  block it returns is the parameter `fresh` of the functions that allocate.
  The file itself relies on zeroed blocks (`cafe_shell_read_freq_from_measures`
  increments `sizeFreq[size1]` right after `memory_new(10000, sizeof(int))`),
  so `fresh = 0` is the value of interest.
* Calls that only log, print or rebuild caches outside this file
  (`cafe_log`, `phylogeny_string`, `cafe_set_prior_rfsize_empirical`,
  `reset_birthdeath_cache`) are left out; the optimiser is a parameter.

The definitions come first: the program, then the vocabulary of the
statements and a few sample states.  The theorems follow.
-/

namespace Cafe

/-! ## Arrays -/

/-- Read `a[i]`. -/
def rd (a : List ℚ) (i : Int) : Option ℚ :=
  if 0 ≤ i then a[i.toNat]? else none

/-- Write `a[i] = v`. -/
def wr (a : List ℚ) (i : Int) (v : ℚ) : Option (List ℚ) :=
  if 0 ≤ i ∧ i < a.length then some (a.set i.toNat v) else none

/-- The `n` cells `&a[off] .. &a[off+n-1]`, as read by `memcpy`. -/
def slice (a : List ℚ) (off n : Int) : Option (List ℚ) :=
  if 0 ≤ off ∧ 0 ≤ n ∧ off + n ≤ a.length then
    some ((a.drop off.toNat).take n.toNat)
  else none

/-- Effect of `memcpy(&dst[doff], &src[soff], n*sizeof(double))` on `dst`. -/
def memcpy (dst : List ℚ) (doff : Int) (src : List ℚ) (soff n : Int) : Option (List ℚ) :=
  if 0 ≤ doff ∧ doff + n ≤ dst.length then
    (slice src soff n).map
      (fun s => dst.take doff.toNat ++ s ++ dst.drop (doff + n).toNat)
  else none

/-- Block of `count` doubles returned by `memory_new(count, sizeof(double))`;
every cell holds `fresh`. A negative count cannot be served. -/
def memory_new (fresh : ℚ) (count : Int) : Option (List ℚ) :=
  if 0 ≤ count then some (List.replicate count.toNat fresh) else none

/-! ## Decoders -/

/-- The fields of `struct probabilities` touched by the decoders: the scalar
pair and the per-cluster arrays (`none` is the NULL pointer). -/
structure probabilities where
  lambda : ℚ
  mu : ℚ
  param_lambdas : Option (List ℚ)
  param_mus : Option (List ℚ)
deriving DecidableEq, Repr

/-- The helper `free_probabilities` releases both arrays. -/
def free_probabilities (probs : probabilities) : probabilities :=
  { probs with param_lambdas := none, param_mus := none }

/-- Lambda/mu decoder used when there is no rate tree. -/
def set_birth_death_probabilities (fresh : ℚ) (probs : probabilities)
    (num_lambdas num_lambdas2 fix_cluster : Int) (parameters : List ℚ) :
    Option probabilities :=
  if num_lambdas < 1 then do
    let l ← rd parameters 0
    let m ← rd parameters num_lambdas2
    pure { probs with lambda := l, mu := m }
  else do
    let probs := free_probabilities { probs with lambda := -1, mu := -1 }
    let pl ← memory_new fresh num_lambdas
    let pl ←
      if fix_cluster = 0 then memcpy pl 0 parameters 0 num_lambdas
      else do
        let pl ← wr pl 0 0
        memcpy pl 1 parameters 0 (num_lambdas - fix_cluster)
    let pm ← memory_new fresh num_lambdas
    let pm ←
      if fix_cluster = 0 then
        memcpy pm 0 parameters (num_lambdas2 * num_lambdas) num_lambdas
      else do
        let pm ← wr pm 0 0
        memcpy pm 1 parameters (num_lambdas2 * (num_lambdas - fix_cluster))
          (num_lambdas - fix_cluster)
    pure { probs with param_lambdas := some pl, param_mus := some pm }

/-- Lambda/mu decoder used with a rate tree; `taxa_id` is the class label of
the node. -/
def set_birth_death_probabilities2 (fresh : ℚ) (probs : probabilities)
    (num_lambdas num_lambdas2 fix_cluster taxa_id eqbg : Int) (parameters : List ℚ) :
    Option probabilities :=
  if 0 < num_lambdas then do
    let probs := free_probabilities { probs with lambda := -1, mu := -1 }
    let pl ← memory_new fresh num_lambdas
    let pl ←
      if fix_cluster = 0 then
        memcpy pl 0 parameters (taxa_id * num_lambdas) num_lambdas
      else do
        let pl ← wr pl 0 0
        memcpy pl 1 parameters (taxa_id * (num_lambdas - 1)) (num_lambdas - 1)
    let pm ← memory_new fresh num_lambdas
    let pm ←
      if eqbg ≠ 0 then
        if taxa_id = 0 then
          memcpy pm 0 pl 0 (num_lambdas - fix_cluster)
        else
          if fix_cluster = 0 then
            memcpy pm 0 parameters
              (num_lambdas2 * num_lambdas + (taxa_id - eqbg) * num_lambdas) num_lambdas
          else do
            let pm ← wr pm 0 0
            memcpy pm 1 parameters
              (num_lambdas2 * (num_lambdas - 1) + (taxa_id - eqbg) * (num_lambdas - 1))
              (num_lambdas - 1)
      else
        if fix_cluster = 0 then
          memcpy pm 0 parameters
            (num_lambdas2 * num_lambdas + taxa_id * num_lambdas) num_lambdas
        else do
          let pm ← wr pm 0 0
          memcpy pm 1 parameters
            (num_lambdas2 * (num_lambdas - 1) + taxa_id * (num_lambdas - 1))
            (num_lambdas - 1)
    pure { probs with param_lambdas := some pl, param_mus := some pm }
  else
    if eqbg ≠ 0 then do
      let l ← rd parameters taxa_id
      if taxa_id = 0 then
        pure { probs with lambda := l, mu := l }
      else do
        let m ← rd parameters (num_lambdas2 + (taxa_id - eqbg))
        pure { probs with lambda := l, mu := m }
    else do
      let l ← rd parameters taxa_id
      let m ← rd parameters (num_lambdas2 + taxa_id)
      pure { probs with lambda := l, mu := m }

/-- Lambda-only decoder used when there is no rate tree. -/
def set_birth_death_probabilities3 (fresh : ℚ) (probs : probabilities)
    (num_lambdas num_lambdas2 fix_cluster : Int) (parameters : List ℚ) :
    Option probabilities :=
  if 0 < num_lambdas then do
    let probs := free_probabilities { probs with lambda := -1, mu := -1 }
    let pl ← memory_new fresh num_lambdas
    let pl ←
      if fix_cluster = 0 then memcpy pl 0 parameters 0 num_lambdas
      else do
        let pl ← wr pl 0 0
        memcpy pl 1 parameters 0 (num_lambdas - 1)
    pure { probs with param_lambdas := some pl }
  else do
    let l ← rd parameters 0
    pure { probs with lambda := l, mu := -1 }

/-- Lambda-only decoder used with a rate tree. -/
def set_birth_death_probabilities4 (fresh : ℚ) (probs : probabilities)
    (num_lambdas num_lambdas2 fix_cluster taxa_id eqbg : Int) (parameters : List ℚ) :
    Option probabilities :=
  if 0 < num_lambdas then do
    let probs := free_probabilities { probs with lambda := -1, mu := -1 }
    let pl ← memory_new fresh num_lambdas
    let pl ←
      if fix_cluster = 0 then
        memcpy pl 0 parameters (taxa_id * num_lambdas) num_lambdas
      else do
        let pl ← wr pl 0 0
        memcpy pl 1 parameters (taxa_id * (num_lambdas - 1)) (num_lambdas - 1)
    pure { probs with param_lambdas := some pl }
  else do
    let l ← rd parameters taxa_id
    pure { probs with lambda := l, mu := -1 }

/-! ## Program state -/

/-- The per-node data the installers touch: the birth/death assignment and the
shapes of the two per-cluster caches (`k_likelihoods` is a `k` by
`num_factors` block, `k_bd` a list of the given capacity). -/
structure CafeNode where
  birth_death_probabilities : probabilities
  k_likelihoods : Option (Int × Int)
  k_bd : Option Int
deriving DecidableEq, Repr

/-- The main tree `param->pcafe`: its node list and the counters used here. -/
structure CafeTree where
  nlist : List CafeNode
  k : Int
  branch_params_cnt : Int
  size_of_factor : Int
deriving DecidableEq, Repr

/-- A node of a rate tree. `name` is `none` for a node without a name;
otherwise it holds what `sscanf(name, "%d", ..)` reads from the name (`none`
when the name does not start with an integer). `taxaid` is the class label. -/
structure PhylogenyNode where
  name : Option (Option Int)
  taxaid : Int
deriving DecidableEq, Repr

/-- A rate tree: the node list built by `tree_build_node_list` and the position
of the root in it. -/
structure RateTree where
  nlist : List PhylogenyNode
  root : Nat
deriving DecidableEq, Repr

/-- The two installers a `param_set_func` pointer can hold. -/
inductive SetFunc where
  | set_lambda
  | set_lambda_mu
deriving DecidableEq, Repr

/-- The fields of `CafeParam` used by the parameter commands. `pfamily` holds
the number of loaded families; `lambda` and `mu` are offsets into
`parameters`. -/
structure CafeParam where
  pcafe : Option CafeTree
  pfamily : Option Int
  parameters : Option (List ℚ)
  num_params : Int
  num_lambdas : Int
  num_mus : Int
  parameterized_k_value : Int
  fixcluster0 : Int
  eqbg : Int
  k_weights : Option (List ℚ)
  p_z_membership : Option (List (List ℚ))
  lambda : Option Int
  mu : Option Int
  lambda_tree : Option RateTree
  mu_tree : Option RateTree
  posterior : Int
  checkconv : Int
  param_set_func : SetFunc
deriving DecidableEq, Repr

/-- The globals of `cafe_shell.c`. -/
structure Shell where
  cafe_param : CafeParam
  tmp_lambda_tree : Option RateTree
deriving DecidableEq, Repr

/-! ## Installers -/

/-- The loop `for (i = 0; i < K-1; i++) { k_weights[i] = parameters[base+i];
sumofweights += k_weights[i]; }`, run for `n` rounds from `i = 0`; the state is
the weight buffer and the running sum. -/
def k_weights_loop (stored : List ℚ) (base : Int) (n : Nat) (kw : List ℚ) :
    Option (List ℚ × ℚ) :=
  (List.range n).foldlM
    (fun (acc : List ℚ × ℚ) (i : Nat) => do
      let v ← rd stored (base + i)
      let kw ← wr acc.1 i v
      pure (kw, acc.2 + v))
    (kw, 0)

/-- The block `// set k_weights` of both installers for `K > 0`; `base` is the
offset of the weight region. -/
def set_k_weights (stored : List ℚ) (base K : Int) (kw : List ℚ) : Option (List ℚ) := do
  let (kw, sumofweights) ← k_weights_loop stored base (K - 1).toNat kw
  wr kw (K - 1) (1 - sumofweights)

/-- First assignment of the membership prior: a block of `nfam` rows of
`cols` cells whose first `K` cells are the weights. -/
def init_p_z_membership (fresh : ℚ) (nfam cols K : Int) (kw : List ℚ) :
    Option (List (List ℚ)) :=
  if nfam ≤ 0 then some []
  else do
    let row ← memory_new fresh cols
    let row ← memcpy row 0 kw 0 K
    pure (List.replicate nfam.toNat row)

/-- The statements `reset_k_likelihoods(pcnode, K, size_of_factor)` and
`pcnode->k_bd = arraylist_new(K)`. -/
def reset_k (pcnode : CafeNode) (K size_of_factor : Int) : CafeNode :=
  { pcnode with k_likelihoods := some (K, size_of_factor), k_bd := some K }

/-- The first statement of both installers: copy the `num_params` supplied
values over the stored ones when their first elements differ. -/
def store_parameters (stored parameters : List ℚ) (num_params : Int) : Option (List ℚ) := do
  let s0 ← rd stored 0
  let a0 ← rd parameters 0
  if s0 ≠ a0 then memcpy stored 0 parameters 0 num_params else pure stored

/-- The block `// set k_weights` together with the first assignment of the
membership prior; `base` is the offset of the weight region in `stored`. -/
def install_k_weights (fresh : ℚ) (param : CafeParam) (stored : List ℚ) (base : Int) :
    Option CafeParam :=
  let K := param.parameterized_k_value
  if 0 < K then do
    let kw ← param.k_weights
    let kw ← set_k_weights stored base K kw
    let pz ←
      match param.p_z_membership with
      | some pz => pure pz
      | none => do
        let nfam ← param.pfamily
        init_p_z_membership fresh nfam (param.num_lambdas * K) K kw
    pure { param with k_weights := some kw, p_z_membership := some pz }
  else pure param

/-- The node loops of `cafe_shell_set_lambda`. -/
def set_lambda_nodes (fresh : ℚ) (param : CafeParam) (pcafe : CafeTree)
    (parameters : List ℚ) : Option (List CafeNode) :=
  let K := param.parameterized_k_value
  let nlist := pcafe.nlist
  match param.lambda_tree with
  | none =>
    nlist.mapM (fun pcnode => do
      let probs ← set_birth_death_probabilities3 fresh pcnode.birth_death_probabilities
        K param.num_lambdas param.fixcluster0 parameters
      let pcnode := { pcnode with birth_death_probabilities := probs }
      pure (if 0 < K then reset_k pcnode K pcafe.size_of_factor else pcnode))
  | some tlambda =>
    (List.range nlist.length).mapM (fun i => do
      let pnode ← tlambda.nlist[i]?
      let pcnode ← nlist[i]?
      let pcnode := if 0 < K then reset_k pcnode K pcafe.size_of_factor else pcnode
      let probs ← set_birth_death_probabilities4 fresh pcnode.birth_death_probabilities
        K param.num_lambdas param.fixcluster0 pnode.taxaid param.eqbg parameters
      pure { pcnode with birth_death_probabilities := probs })

/-- The installer `cafe_shell_set_lambda(param, parameters)`. -/
def cafe_shell_set_lambda (fresh : ℚ) (param : CafeParam) (parameters : List ℚ) :
    Option CafeParam := do
  let stored ← param.parameters
  let stored ← store_parameters stored parameters param.num_params
  let param := { param with parameters := some stored, lambda := some 0 }
  let K := param.parameterized_k_value
  let param ← install_k_weights fresh param stored
    (param.num_lambdas * (K - param.fixcluster0))
  let pcafe ← param.pcafe
  let nodes ← set_lambda_nodes fresh param pcafe parameters
  pure { param with pcafe := some { pcafe with k := K, nlist := nodes } }

/-- The node loops of `cafe_shell_set_lambda_mu`. -/
def set_lambda_mu_nodes (fresh : ℚ) (param : CafeParam) (pcafe : CafeTree)
    (parameters : List ℚ) : Option (List CafeNode) :=
  let K := param.parameterized_k_value
  let nlist := pcafe.nlist
  match param.lambda_tree with
  | none =>
    nlist.mapM (fun pcnode => do
      let probs ← set_birth_death_probabilities fresh pcnode.birth_death_probabilities
        K param.num_lambdas param.fixcluster0 parameters
      let pcnode := { pcnode with birth_death_probabilities := probs }
      pure (if 0 < K then reset_k pcnode K pcafe.size_of_factor else pcnode))
  | some tlambda =>
    (List.range nlist.length).mapM (fun i => do
      let pnode ← tlambda.nlist[i]?
      let pcnode ← nlist[i]?
      let probs ← set_birth_death_probabilities2 fresh pcnode.birth_death_probabilities
        K param.num_lambdas param.fixcluster0 pnode.taxaid param.eqbg parameters
      pure (reset_k { pcnode with birth_death_probabilities := probs } K pcafe.size_of_factor))

/-- The installer `cafe_shell_set_lambda_mu(param, parameters)`, called on the
global state (`param` is `cafe_param`). -/
def cafe_shell_set_lambda_mu (fresh : ℚ) (param : CafeParam) (parameters : List ℚ) :
    Option CafeParam := do
  let stored ← param.parameters
  let stored ← store_parameters stored parameters param.num_params
  let K := param.parameterized_k_value
  let param := { param with
    parameters := some stored
    lambda := some 0
    mu := some (if 0 < K then param.num_lambdas * (K - param.fixcluster0)
                else param.num_lambdas) }
  let param ← install_k_weights fresh param stored
    (param.num_lambdas * (K - param.fixcluster0)
      + (param.num_mus - param.eqbg) * (K - param.fixcluster0))
  let pcafe ← param.pcafe
  let nodes ← set_lambda_mu_nodes fresh param pcafe parameters
  pure { param with pcafe := some { pcafe with k := K, nlist := nodes } }

/-! ## The rate-tree command -/

/-- The node callback `phylogeny_lambda_parse_func`; `cnt` is
`cafe_param->pcafe->branch_params_cnt`. -/
def phylogeny_lambda_parse_func (cnt : Int) (pnode : PhylogenyNode) : Int × PhylogenyNode :=
  match pnode.name with
  | some scanned =>
    let taxaid := match scanned with
      | some v => v
      | none => pnode.taxaid
    (cnt + 1, { pnode with taxaid := taxaid - 1 })
  | none => (cnt, { pnode with taxaid := pnode.taxaid - 1 })

/-- The call `phylogeny_load_from_string(.., phylogeny_lambda_parse_func, 0)`
followed by `tree_build_node_list`: the parser (outside this file) hands every
node it builds to the callback; `raw` is the tree as the parser built it. -/
def load_lambda_tree (cnt : Int) (raw : RateTree) : Int × RateTree :=
  let r := raw.nlist.foldl
    (fun (acc : Int × List PhylogenyNode) pnode =>
      let (c, pnode) := phylogeny_lambda_parse_func acc.1 pnode
      (c, acc.2 ++ [pnode]))
    (cnt, [])
  (r.1, { raw with nlist := r.2 })

/-- The loop that collects the distinct non-negative labels into the scratch
array `old_branchlength`; the result is the filled part `old_branchlength[0..m)`
(the scratch array is taken to be large enough). -/
def collect_lambda_idx (nlist : List PhylogenyNode) : List Int :=
  nlist.foldl
    (fun (seen : List Int) pnode =>
      let lambda_idx := pnode.taxaid
      if lambda_idx < 0 then seen
      else if seen.contains lambda_idx then seen
      else seen ++ [lambda_idx])
    []

/-- The command helper `__cafe_cmd_lambda_tree(parg)`: `idx` is the tree index
(1 unless two values were given) and `raw` the parsed tree string. Returns the
return code and the new globals. -/
def __cafe_cmd_lambda_tree (sh : Shell) (idx : Int) (raw : RateTree) : Option (Int × Shell) := do
  let pcafe ← sh.cafe_param.pcafe
  let (cnt, ptree) := load_lambda_tree 0 raw
  let pcafe := { pcafe with branch_params_cnt := cnt }
  let sh := { sh with cafe_param := { sh.cafe_param with pcafe := some pcafe } }
  if (ptree.nlist.length : Int) ≠ pcafe.nlist.length then
    pure (-1, sh)
  else if pcafe.branch_params_cnt ≠ (pcafe.nlist.length : Int) - 1 then
    pure (-1, sh)
  else if idx = 2 then
    pure (1, { sh with tmp_lambda_tree := some ptree })
  else
    let m : Int := (collect_lambda_idx ptree.nlist).length
    pure (0, { sh with cafe_param :=
      { sh.cafe_param with lambda_tree := some ptree, num_lambdas := m } })

/-! ## The command `lambdamu` -/

/-- One entry of the list built by `cafe_shell_build_argument`, with its
values already scanned: `-t` carries the tree index and the parsed tree,
`-l`, `-m`, `-p` the scanned doubles, `-k` the scanned integer. -/
inductive Argument where
  | s
  | checkconv
  | t (idx : Int) (tree : RateTree)
  | l (values : List ℚ)
  | m (values : List ℚ)
  | p (values : List ℚ)
  | k (value : Int)
  | f
  | eqbg
  | other
deriving DecidableEq, Repr

/-- The fields of the local `tmpparam` that the command uses. -/
structure TmpParam where
  lambda_tree : Option RateTree
  num_lambdas : Int
  num_mus : Int
  num_params : Int
  parameterized_k_value : Int
  fixcluster0 : Int
  eqbg : Int
  checkconv : Int
  posterior : Int
  lambda : Option (List ℚ)
  mu : Option (List ℚ)
  k_weights : Option (List ℚ)
deriving DecidableEq, Repr

/-- The state of the option loop. -/
structure Parsed where
  sh : Shell
  tmp : TmpParam
  bdone : Int
  bsearch : Int
deriving DecidableEq, Repr

/-- Either the command has returned, or it goes on. -/
inductive Step (α : Type) where
  | ret (code : Int) (sh : Shell)
  | next (a : α)
deriving DecidableEq, Repr

/-- One round of the option loop. -/
def lambda_mu_option (st : Parsed) (parg : Argument) : Option (Step Parsed) :=
  match parg with
  | .s => some (.next { st with bsearch := 1 })
  | .checkconv => some (.next { st with tmp := { st.tmp with checkconv := 1 } })
  | .t idx tree => do
    let (bdone, sh) ← __cafe_cmd_lambda_tree st.sh idx tree
    if bdone < 0 then pure (.ret (-1) sh)
    else
      let cp := sh.cafe_param
      let tmp := { st.tmp with
        lambda_tree := cp.lambda_tree
        num_lambdas := cp.num_lambdas
        num_mus := cp.num_lambdas }
      pure (.next { st with
        sh := { sh with cafe_param := { cp with num_mus := cp.num_lambdas } }
        tmp := tmp
        bdone := bdone })
  | .l values => some (.next { st with tmp := { st.tmp with
      lambda := some values, num_params := st.tmp.num_params + values.length } })
  | .m values => some (.next { st with tmp := { st.tmp with
      mu := some values, num_params := st.tmp.num_params + values.length } })
  | .p values => some (.next { st with tmp := { st.tmp with
      k_weights := some values, num_params := st.tmp.num_params + values.length } })
  | .k value => some (.next { st with tmp := { st.tmp with parameterized_k_value := value } })
  | .f => some (.next { st with tmp := { st.tmp with fixcluster0 := 1 } })
  | .eqbg => some (.next { st with tmp := { st.tmp with eqbg := 1 } })
  | .other => some (.next st)

/-- The option loop `for (i = 0; i < pargs->size; i++)`. -/
def lambda_mu_options : Parsed → List Argument → Option (Step Parsed)
  | st, [] => some (.next st)
  | st, parg :: rest =>
    match lambda_mu_option st parg with
    | none => none
    | some (.ret code sh) => some (.ret code sh)
    | some (.next st) => lambda_mu_options st rest

/-- Outcome of preparing the parameter vector: the command returned -1, or the
vector is ready for the search or the installer. -/
inductive Setup where
  | failed (cp : CafeParam)
  | ready (cp : CafeParam)
deriving DecidableEq, Repr

/-- A source pointer of `memcpy`: NULL has no cell to read. -/
def src (a : Option (List ℚ)) : List ℚ := a.getD []

/-- The arm `if (bsearch)` up to the call of the optimiser. -/
def search_setup (fresh : ℚ) (cp : CafeParam) (tmp : TmpParam) : Option Setup :=
  if tmp.lambda_tree.isSome then
    let cp := { cp with eqbg := tmp.eqbg }
    if 0 < tmp.parameterized_k_value then do
      let cp := { cp with
        parameterized_k_value := tmp.parameterized_k_value
        fixcluster0 := tmp.fixcluster0
        num_params := (tmp.num_lambdas * (tmp.parameterized_k_value - tmp.fixcluster0))
          + ((tmp.num_mus - tmp.eqbg) * (tmp.parameterized_k_value - tmp.fixcluster0))
          + (tmp.parameterized_k_value - 1) }
      let parameters ← memory_new fresh cp.num_params
      let k_weights ← memory_new fresh cp.parameterized_k_value
      pure (.ready { cp with parameters := some parameters, k_weights := some k_weights })
    else do
      let cp := { cp with num_params := tmp.num_lambdas + (tmp.num_mus - tmp.eqbg) }
      let parameters ← memory_new fresh cp.num_params
      pure (.ready { cp with parameters := some parameters })
  else
    let cp := { cp with num_lambdas := 1, num_mus := 1 }
    let tmp := { tmp with num_lambdas := 1, num_mus := 1 }
    if tmp.eqbg ≠ 0 then some (.failed cp)
    else if 0 < tmp.parameterized_k_value then do
      let cp := { cp with
        parameterized_k_value := tmp.parameterized_k_value
        fixcluster0 := tmp.fixcluster0
        num_params := (tmp.num_lambdas * (tmp.parameterized_k_value - tmp.fixcluster0))
          + (tmp.num_mus * (tmp.parameterized_k_value - tmp.fixcluster0))
          + (tmp.parameterized_k_value - 1) }
      let parameters ← memory_new fresh cp.num_params
      let k_weights ← memory_new fresh cp.parameterized_k_value
      pure (.ready { cp with parameters := some parameters, k_weights := some k_weights })
    else do
      let cp := { cp with num_params := tmp.num_lambdas + tmp.num_mus }
      let parameters ← memory_new fresh cp.num_params
      pure (.ready { cp with parameters := some parameters })

/-- The arm `else` of `if (bsearch)` up to the call of the installer. -/
def set_setup (fresh : ℚ) (cp : CafeParam) (tmp : TmpParam) : Option Setup :=
  if tmp.lambda_tree.isSome then
    let cp := { cp with eqbg := tmp.eqbg }
    if 0 < tmp.parameterized_k_value then
      let cp := { cp with
        parameterized_k_value := tmp.parameterized_k_value
        fixcluster0 := tmp.fixcluster0
        num_params := (tmp.num_lambdas * (tmp.parameterized_k_value - tmp.fixcluster0))
          + ((tmp.num_mus - tmp.eqbg) * (tmp.parameterized_k_value - tmp.fixcluster0))
          + (tmp.parameterized_k_value - 1) }
      if cp.num_params ≠ tmp.num_params then some (.failed cp)
      else do
        let parameters ← memory_new fresh cp.num_params
        let parameters ← memcpy parameters 0 (src tmp.lambda) 0
          (tmp.num_lambdas * (tmp.parameterized_k_value - tmp.fixcluster0))
        let parameters ← memcpy parameters
          (cp.num_lambdas * (cp.parameterized_k_value - tmp.fixcluster0)) (src tmp.mu) 0
          ((tmp.num_mus - tmp.eqbg) * (tmp.parameterized_k_value - tmp.fixcluster0))
        let parameters ← memcpy parameters
          ((cp.num_lambdas * (cp.parameterized_k_value - tmp.fixcluster0))
            + ((tmp.num_mus - tmp.eqbg) * (tmp.parameterized_k_value - tmp.fixcluster0)))
          (src tmp.k_weights) 0 (tmp.parameterized_k_value - 1)
        let k_weights ← memory_new fresh (cp.parameterized_k_value - 1)
        pure (.ready { cp with parameters := some parameters, k_weights := some k_weights })
    else
      let cp := { cp with num_params := tmp.num_lambdas + (tmp.num_mus - tmp.eqbg) }
      if cp.num_params ≠ tmp.num_params then some (.failed cp)
      else do
        let parameters ← memory_new fresh cp.num_params
        let parameters ← memcpy parameters 0 (src tmp.lambda) 0 tmp.num_lambdas
        let parameters ← memcpy parameters cp.num_lambdas (src tmp.mu) 0
          (tmp.num_mus - tmp.eqbg)
        pure (.ready { cp with parameters := some parameters })
  else
    let cp := { cp with num_lambdas := 1, num_mus := 1 }
    let tmp := { tmp with num_lambdas := 1, num_mus := 1 }
    if tmp.eqbg ≠ 0 then some (.failed cp)
    else if 0 < tmp.parameterized_k_value then
      let cp := { cp with
        parameterized_k_value := tmp.parameterized_k_value
        fixcluster0 := tmp.fixcluster0
        num_params := (tmp.num_lambdas * (tmp.parameterized_k_value - tmp.fixcluster0))
          + (tmp.num_mus * (tmp.parameterized_k_value - tmp.fixcluster0))
          + (tmp.parameterized_k_value - 1) }
      if cp.num_params ≠ tmp.num_params then some (.failed cp)
      else do
        let parameters ← memory_new fresh cp.num_params
        let parameters ← memcpy parameters 0 (src tmp.lambda) 0
          (tmp.num_lambdas * (tmp.parameterized_k_value - tmp.fixcluster0))
        let parameters ← memcpy parameters
          (cp.num_lambdas * (cp.parameterized_k_value - tmp.fixcluster0)) (src tmp.mu) 0
          (tmp.num_mus * (cp.parameterized_k_value - tmp.fixcluster0))
        let parameters ← memcpy parameters
          (cp.num_lambdas * (cp.parameterized_k_value - tmp.fixcluster0)
            + tmp.num_mus * (cp.parameterized_k_value - tmp.fixcluster0))
          (src tmp.k_weights) 0 (tmp.parameterized_k_value - 1)
        let k_weights ← memory_new fresh (cp.parameterized_k_value - 1)
        pure (.ready { cp with parameters := some parameters, k_weights := some k_weights })
    else
      let cp := { cp with num_params := tmp.num_lambdas + tmp.num_mus }
      if cp.num_params ≠ tmp.num_params then some (.failed cp)
      else do
        let parameters ← memory_new fresh cp.num_params
        let parameters ← memcpy parameters 0 (src tmp.lambda) 0 tmp.num_lambdas
        let parameters ← memcpy parameters tmp.num_lambdas (src tmp.mu) 0 tmp.num_mus
        pure (.ready { cp with parameters := some parameters })

/-- The call through `param->param_set_func`. -/
def param_set_func (fresh : ℚ) (param : CafeParam) (parameters : List ℚ) : Option CafeParam :=
  match param.param_set_func with
  | .set_lambda => cafe_shell_set_lambda fresh param parameters
  | .set_lambda_mu => cafe_shell_set_lambda_mu fresh param parameters

/-- The local `tmpparam` after `memset` and `posterior = 1`. -/
def tmp_param_init : TmpParam :=
  { lambda_tree := none, num_lambdas := 0, num_mus := 0, num_params := 0,
    parameterized_k_value := 0, fixcluster0 := 0, eqbg := 0, checkconv := 0,
    posterior := 1, lambda := none, mu := none, k_weights := none }

/-- The state in which the option loop of `cafe_cmd_lambda_mu` starts: the
pointers and trees are reset, the class counts are -1, the cluster count is 0,
the installer is `cafe_shell_set_lambda_mu`, and the local parameters are
cleared. -/
def lambda_mu_start (sh : Shell) : Parsed :=
  { sh := { sh with cafe_param := { sh.cafe_param with
      lambda := none, mu := none, lambda_tree := none, mu_tree := none,
      num_lambdas := -1, num_mus := -1, parameterized_k_value := 0,
      param_set_func := .set_lambda_mu } },
    tmp := tmp_param_init, bdone := 0, bsearch := 0 }

/-- The command `cafe_cmd_lambda_mu`, on the list of options built from
`argv`. `fminsearch` stands for `cafe_best_lambda_mu_by_fminsearch`, the
optimiser outside this file. Returns the return code and the new globals. -/
def cafe_cmd_lambda_mu (fresh : ℚ) (fminsearch : CafeParam → Option CafeParam)
    (sh : Shell) (pargs : List Argument) : Option (Int × Shell) :=
  if sh.cafe_param.pfamily.isNone then some (-1, sh)
  else if sh.cafe_param.pcafe.isNone then some (-1, sh)
  else
    match lambda_mu_options (lambda_mu_start sh) pargs with
    | none => none
    | some (.ret code sh) => some (code, sh)
    | some (.next st) =>
      if st.bdone ≠ 0 then some (0, st.sh)
      else
        let sh := st.sh
        let tmp := st.tmp
        let cp := { sh.cafe_param with posterior := tmp.posterior }
        if st.bsearch ≠ 0 then
          match search_setup fresh cp tmp with
          | none => none
          | some (.failed cp) => some (-1, { sh with cafe_param := cp })
          | some (.ready cp) => do
            let cp := if tmp.checkconv ≠ 0 then { cp with checkconv := 1 } else cp
            let cp ← fminsearch cp
            pure (0, { sh with cafe_param := cp })
        else
          match set_setup fresh cp tmp with
          | none => none
          | some (.failed cp) => some (-1, { sh with cafe_param := cp })
          | some (.ready cp) => do
            let parameters ← cp.parameters
            let cp ← param_set_func fresh cp parameters
            pure (0, { sh with cafe_param := cp })

/-! ## Layout, as the parameter regions are described -/

/-- Lambda region size, as the layout is described: `nL*(K-f)` with clusters,
`nL` without. -/
def region_lambda (nL K f : Int) : Int := if 1 ≤ K then nL * (K - f) else nL

/-- Mu region size: `(nM-e)*(K-f)` with clusters, `nM-e` without. -/
def region_mu (nM K f e : Int) : Int := if 1 ≤ K then (nM - e) * (K - f) else nM - e

/-- Weight region size: `K-1` with clusters, none without. -/
def region_weight (K : Int) : Int := if 1 ≤ K then K - 1 else 0

/-- The cells `a[off .. off+n)`. -/
def cells (a : List ℚ) (off n : Int) : List ℚ := (a.drop off.toNat).take n.toNat

/-! ## Sample states -/

/-- A three-node rate tree: two labelled leaves around an unnamed root. -/
def rate_tree_example : RateTree :=
  { nlist := [⟨some (some 1), 0⟩, ⟨none, 0⟩, ⟨some (some 2), 0⟩], root := 1 }

/-- A node with no assignment yet. -/
def cafe_node_example : CafeNode := ⟨⟨0, 0, none, none⟩, none, none⟩

/-- A state with a three-node tree and one family loaded, as left by the
first statements of `cafe_cmd_lambda_mu` and a `-t` option with two classes. -/
def cafe_param_example : CafeParam :=
  { pcafe := some { nlist := [cafe_node_example, cafe_node_example, cafe_node_example],
                    k := 0, branch_params_cnt := 0, size_of_factor := 1 },
    pfamily := some 1, parameters := none, num_params := 0, num_lambdas := 2, num_mus := 2,
    parameterized_k_value := 0, fixcluster0 := 0, eqbg := 0, k_weights := none,
    p_z_membership := none, lambda := none, mu := none, lambda_tree := none, mu_tree := none,
    posterior := 0, checkconv := 0, param_set_func := .set_lambda_mu }

/-- The local parameters after `-t` (two classes), `-k 2`, `-f`, `-eqbg`,
`-l 1/2 1/3`, `-m 1/4`, `-p 1/5`. -/
def tmp_param_example : TmpParam :=
  { lambda_tree := some rate_tree_example, num_lambdas := 2, num_mus := 2, num_params := 4,
    parameterized_k_value := 2, fixcluster0 := 1, eqbg := 1, checkconv := 0, posterior := 1,
    lambda := some [1/2, 1/3], mu := some [1/4], k_weights := some [1/5] }

/-- A state without rate tree, with one class, two clusters and a stored
vector of five parameters (two lambdas, two mus, one weight). -/
def cafe_param_clusters : CafeParam :=
  { pcafe := some { nlist := [cafe_node_example, cafe_node_example, cafe_node_example],
                    k := 0, branch_params_cnt := 0, size_of_factor := 1 },
    pfamily := some 1, parameters := some [1/100, 1/50, 1/25, 1/20, 3/10], num_params := 5,
    num_lambdas := 1, num_mus := 1, parameterized_k_value := 2, fixcluster0 := 0, eqbg := 0,
    k_weights := some [0, 0], p_z_membership := none, lambda := none, mu := none,
    lambda_tree := none, mu_tree := none, posterior := 0, checkconv := 0,
    param_set_func := .set_lambda_mu }

/-- A node given the global rate `v` in lambda-only scalar mode: lambda is
`v`, mu is the unset marker `-1`, the rest of the node is as before. -/
def assign_scalar (v : ℚ) (pcnode : CafeNode) : CafeNode :=
  { pcnode with birth_death_probabilities :=
      { pcnode.birth_death_probabilities with lambda := v, mu := -1 } }

/-- A lambda-only state without rate tree and without clusters: five nodes (a
four-leaf star-like tree), one stored parameter; the nodes hold an earlier
assignment. -/
def cafe_param_scalar : CafeParam :=
  { pcafe := some { nlist := List.replicate 5 ⟨⟨7/100, 3/100, none, none⟩, none, none⟩,
                    k := 0, branch_params_cnt := 0, size_of_factor := 1 },
    pfamily := some 1, parameters := some [7/100], num_params := 1,
    num_lambdas := 1, num_mus := -1, parameterized_k_value := 0, fixcluster0 := 0, eqbg := 0,
    k_weights := none, p_z_membership := none, lambda := none, mu := none,
    lambda_tree := none, mu_tree := none, posterior := 0, checkconv := 0,
    param_set_func := .set_lambda }

/-! ## Vocabulary of the command claims -/

/-- Number of values an option adds to the count of supplied parameters. -/
def Argument.supplied : Argument → Int
  | .l values => values.length
  | .m values => values.length
  | .p values => values.length
  | _ => 0

/-- Total number of values supplied with `-l`, `-m` and `-p`. -/
def supplied (pargs : List Argument) : Int := (pargs.map Argument.supplied).sum

/-- The parameter count the set arm requires for the collected mode: the four
formulas of the arm, by rate tree and cluster count. -/
def required_num_params (tmp : TmpParam) : Int :=
  if tmp.lambda_tree.isSome then
    if 0 < tmp.parameterized_k_value then
      (tmp.num_lambdas * (tmp.parameterized_k_value - tmp.fixcluster0))
        + ((tmp.num_mus - tmp.eqbg) * (tmp.parameterized_k_value - tmp.fixcluster0))
        + (tmp.parameterized_k_value - 1)
    else tmp.num_lambdas + (tmp.num_mus - tmp.eqbg)
  else
    if 0 < tmp.parameterized_k_value then
      (1 * (tmp.parameterized_k_value - tmp.fixcluster0))
        + (1 * (tmp.parameterized_k_value - tmp.fixcluster0))
        + (tmp.parameterized_k_value - 1)
    else 1 + 1

/-- The parameter vector, the weight buffer and the node list of the main tree
are the same in both states: nothing was copied and no decoder ran. -/
def same_parameters (sh sh' : Shell) : Prop :=
  sh'.cafe_param.parameters = sh.cafe_param.parameters ∧
  sh'.cafe_param.k_weights = sh.cafe_param.k_weights ∧
  sh'.cafe_param.pcafe.map CafeTree.nlist = sh.cafe_param.pcafe.map CafeTree.nlist

/-- The node carries a class label (it has a name). -/
def PhylogenyNode.labeled (pnode : PhylogenyNode) : Bool := pnode.name.isSome

/-- The globals with the sample state and no secondary rate tree. -/
def shell_example : Shell := { cafe_param := cafe_param_example, tmp_lambda_tree := none }

/-- A three-node rate tree whose root is named and whose last leaf is not. -/
def rate_tree_named_root : RateTree :=
  { nlist := [⟨some (some 1), 0⟩, ⟨some (some 1), 0⟩, ⟨none, 0⟩], root := 1 }

/-- A four-node rate tree (one node more than the sample main tree). -/
def rate_tree_four_nodes : RateTree :=
  { nlist := [⟨some (some 1), 0⟩, ⟨none, 0⟩, ⟨some (some 2), 0⟩, ⟨some (some 1), 0⟩],
    root := 1 }



/-! ## The error model

`__check_error_model_columnsums`, `cafe_shell_create_error_matrix_from_estimate`
and the two objectives `__loglikelihood_pairs_from_double_measure` /
`__loglikelihood_pairs_from_true_measure`.

Conventions of this part.
* An array is the map from its indices to its cells (`Int → ℚ`, and
  `Int → Int → ℚ` for the matrices); an assignment updates the map at one
  index.  The loops below index every array under the bounds it was allocated
  with once `model_parameter_number` is `D + 1` (symmetric) or `2 * D + 1`
  (asymmetric), which is how both estimators set it.
* A `for` loop is a left fold over its index range; a loop that can `break`
  carries a flag and does nothing once the flag is set.
* `abs` is the C library function `int abs(int)`: a `double` argument is first
  converted to `int`, which drops its fraction.
* `log` is not computed: an objective returns either the rejection value or
  the rational ingredients its score is computed from.
-/

/-- The loop `for (i = lo; i < hi; i++) s = body(i, s)`. -/
def for_loop {σ : Type} (lo hi : Int) (body : Int → σ → σ) (s : σ) : σ :=
  (List.range (hi - lo).toNat).foldl (fun (s : σ) (k : Nat) => body (lo + (k : Int)) s) s

/-- The assignment `a[i] = v`. -/
def set1 {α : Type} (a : Int → α) (i : Int) (v : α) : Int → α :=
  fun k => if k = i then v else a k

/-- The assignment `m[i][j] = v`. -/
def set2 {α : Type} (m : Int → Int → α) (i j : Int) (v : α) : Int → Int → α :=
  fun a b => if a = i ∧ b = j then v else m a b

/-- The conversion `(int)x` of a double: truncation toward zero. -/
def double_to_int (x : ℚ) : Int :=
  if 0 ≤ x then ⌊x⌋ else ⌈x⌉

/-- The C library function `int abs(int)`. -/
def c_abs (n : Int) : Int :=
  if n < 0 then -n else n

/-- The fields of `ErrorMeasure`. -/
structure ErrorMeasure where
  sizeDist : Int → ℚ
  maxFamilySize : Int
  pairs : Int → Int → Int
  estimates : Int → ℚ
  b_symmetric : Bool
  b_peakzero : Bool
  model_parameter_diff : Int
  model_parameter_number : Int

/-- The fields of `ErrorStruct` (the file name apart). -/
structure ErrorStruct where
  maxfamilysize : Int
  fromdiff : Int
  todiff : Int
  errormatrix : Int → Int → ℚ

/-- The inner loop `columnsum += errormatrix[i][j]` over the rows
`0 .. maxfamilysize` of column `j`. -/
def columnsum (maxfamilysize : Int) (errormatrix : Int → Int → ℚ) (j : Int) : ℚ :=
  for_loop 0 (maxfamilysize + 1) (fun i c => c + errormatrix i j) 0

/-- The rescaling loop of an interior column:
`errormatrix[i][j] = errormatrix[i][j] / columnsum` for every row. -/
def rescale_column (maxfamilysize : Int) (j : Int) (c : ℚ)
    (errormatrix : Int → Int → ℚ) : Int → Int → ℚ :=
  for_loop 0 (maxfamilysize + 1)
    (fun i m => set2 m i j (m i j / c)) errormatrix

/-- Body of the two boundary loops for column `j`: the column is summed and
`errormatrix[row][j] = errormatrix[row][j] + (1 - columnsum)`. -/
def absorb_step (maxfamilysize row : Int) (j : Int)
    (errormatrix : Int → Int → ℚ) : Int → Int → ℚ :=
  let c := columnsum maxfamilysize errormatrix j
  set2 errormatrix row j (errormatrix row j + (1 - c))

/-- Body of the interior loop for column `j`: the column is summed and, when
`abs(1 - columnsum) > 0.00000000000001`, divided by its sum. -/
def rescale_step (maxfamilysize : Int) (j : Int)
    (errormatrix : Int → Int → ℚ) : Int → Int → ℚ :=
  let c := columnsum maxfamilysize errormatrix j
  if ((c_abs (double_to_int (1 - c)) : Int) : ℚ) > 1 / 100000000000000 then
    rescale_column maxfamilysize j c errormatrix
  else errormatrix

/-- Column-sum correction.  The first `diff` columns put their shortfall into
row 0, the last `diff` columns into the last row, and each column in between
is divided by its sum when `abs(1 - columnsum) > 0.00000000000001`. -/
def __check_error_model_columnsums (errormodel : ErrorStruct) : ErrorStruct :=
  let diff := errormodel.todiff
  let maxfamilysize := errormodel.maxfamilysize
  let m1 := for_loop 0 diff (absorb_step maxfamilysize 0) errormodel.errormatrix
  let m2 := for_loop diff (maxfamilysize - diff + 1) (rescale_step maxfamilysize) m1
  let m3 := for_loop (maxfamilysize - diff + 1) (maxfamilysize + 1)
    (absorb_step maxfamilysize maxfamilysize) m2
  { errormodel with errormatrix := m3 }

/-- The block that builds `total_params` (returned with `total_param_num`):
the `2 * D + 1` band values followed by the marginal epsilon. -/
def total_params (fresh : ℚ) (errormeasure : ErrorMeasure) : Int × (Int → ℚ) :=
  let diff := errormeasure.model_parameter_diff
  let number := errormeasure.model_parameter_number
  let estimates := errormeasure.estimates
  let divisor : Int := (errormeasure.maxFamilySize + 1) - (diff * 2 + 1)
  if errormeasure.b_symmetric then
    let total_param_num := number + diff + 1
    let t0 : Int → ℚ := fun _ => fresh
    let t1 := set1 t0 diff (estimates 0)
    let r := for_loop 1 number
      (fun i (s : (Int → ℚ) × ℚ) =>
        (set1 s.1 (diff + i) (estimates i), s.2 + 2 * estimates i))
      (t1, estimates 0)
    let t2 := set1 r.1 (total_param_num - 1) ((1 - r.2) / (divisor : ℚ))
    let t3 := for_loop 0 diff
      (fun i t => set1 t i (t (c_abs (total_param_num - 1 - 1 - i)))) t2
    (total_param_num, t3)
  else
    let total_param_num := number + 1
    let t0 : Int → ℚ := fun _ => fresh
    let r := for_loop 0 number
      (fun i (s : (Int → ℚ) × ℚ) =>
        (set1 s.1 i (estimates i), s.2 + estimates i))
      (t0, 0)
    let t1 := set1 r.1 (total_param_num - 1) ((1 - r.2) / (divisor : ℚ))
    (total_param_num, t1)

/-- The three row loops that fill column `j`: epsilon above the band, the band
values `total_params[k]` with `k` counting from 0, epsilon below the band. -/
def fill_column (maxfamilysize fromdiff todiff total_param_num : Int)
    (total_params : Int → ℚ) (j : Int) (m : Int → Int → ℚ) : Int → Int → ℚ :=
  let m1 := for_loop 0 (fromdiff + j)
    (fun i m => if i ≤ maxfamilysize then set2 m i j (total_params (total_param_num - 1)) else m)
    m
  let r := for_loop (fromdiff + j) (todiff + j + 1)
    (fun i (s : (Int → Int → ℚ) × Int) =>
      (if 0 ≤ i ∧ i ≤ maxfamilysize then set2 s.1 i j (total_params s.2) else s.1, s.2 + 1))
    (m1, 0)
  for_loop (todiff + j + 1) (maxfamilysize + 1)
    (fun i m => if 0 ≤ i then set2 m i j (total_params (total_param_num - 1)) else m)
    r.1

/-- The loop over the columns that fills a block from `memory_new_2dim`. -/
def fill_matrix (fresh : ℚ) (errormeasure : ErrorMeasure) : Int → Int → ℚ :=
  let maxfamilysize := errormeasure.maxFamilySize
  let fromdiff := -errormeasure.model_parameter_diff
  let todiff := errormeasure.model_parameter_diff
  let t := total_params fresh errormeasure
  for_loop 0 (maxfamilysize + 1)
    (fun j m => fill_column maxfamilysize fromdiff todiff t.1 t.2 j m)
    (fun _ _ => fresh)

/-- Error matrix of an estimate: the matrix is filled column by column and
then handed to `__check_error_model_columnsums`. -/
def cafe_shell_create_error_matrix_from_estimate (fresh : ℚ)
    (errormeasure : ErrorMeasure) : ErrorStruct :=
  __check_error_model_columnsums
    { maxfamilysize := errormeasure.maxFamilySize,
      fromdiff := -errormeasure.model_parameter_diff,
      todiff := errormeasure.model_parameter_diff,
      errormatrix := fill_matrix fresh errormeasure }

/-- A double that may be infinite or NaN: the quotient of a division whose
divisor may be zero, and the final score of a minimizer run (the objectives
return `-log(0)` on rejection). -/
inductive Score where
  | nan : Score
  | neg_inf : Score
  | fin (x : ℚ) : Score
  | pos_inf : Score
deriving DecidableEq

/-- The macro `isnan`. -/
def Score.isnan : Score → Bool
  | Score.nan => true
  | _ => false

/-- The macro `isinf`. -/
def Score.isinf : Score → Bool
  | Score.neg_inf => true
  | Score.pos_inf => true
  | _ => false

/-- The comparison `a < b` of two doubles. -/
def Score.lt : Score → Score → Bool
  | Score.nan, _ => false
  | _, Score.nan => false
  | Score.pos_inf, _ => false
  | _, Score.neg_inf => false
  | Score.neg_inf, _ => true
  | Score.fin _, Score.pos_inf => true
  | Score.fin a, Score.fin b => decide (a < b)

/-- The division `x / (double)d` of a finite double by a converted `int`: a zero
divisor gives `+inf`, `-inf` or NaN by the sign of `x`. -/
def double_div (x : ℚ) (d : Int) : Score :=
  if d = 0 then
    if 0 < x then Score.pos_inf else if x < 0 then Score.neg_inf else Score.nan
  else Score.fin (x / (d : ℚ))

/-- The marginal error probability computed at the head of both objectives. -/
def marginal_error_probability_epsilon (errormeasure : ErrorMeasure)
    (parameters : Int → ℚ) : Score :=
  let divisor : Int :=
    (errormeasure.maxFamilySize + 1) - (errormeasure.model_parameter_diff * 2 + 1)
  if errormeasure.b_symmetric then
    let sum := for_loop 1 errormeasure.model_parameter_number
      (fun i sum => sum + 2 * parameters i) (parameters 0)
    double_div (1 - sum) divisor
  else
    let sum := for_loop 0 errormeasure.model_parameter_number
      (fun i sum => sum + parameters i) 0
    double_div (1 - sum) divisor

/-- The feasibility loop of both objectives; the result is the flag `skip`. -/
def feasibility_skip (errormeasure : ErrorMeasure) (parameters : Int → ℚ) : Bool :=
  let eps := marginal_error_probability_epsilon errormeasure parameters
  for_loop 0 errormeasure.model_parameter_number
    (fun i skip =>
      if skip then skip
      else if parameters i < 0 ∨ Score.lt eps (Score.fin 0) = true
          ∨ Score.lt (Score.fin (parameters i)) eps = true then true
      else false)
    false

/-- State of one peak-at-zero loop: the flag `skip`, whether the loop has left
through `break`, and `previous_param`. -/
structure PeakState where
  skip : Bool
  broke : Bool
  previous_param : ℚ

/-- One peak-at-zero loop: `i` runs over `lo .. hi - 1` and the cell compared
with `previous_param` is `parameters[cell i]`. -/
def peak_loop (parameters : Int → ℚ) (lo hi : Int) (cell : Int → Int)
    (skip : Bool) (previous_param : ℚ) : PeakState :=
  for_loop lo hi
    (fun i s =>
      if s.broke then s
      else if s.previous_param < parameters (cell i) then
        { s with skip := true, broke := true }
      else { s with previous_param := parameters (cell i) })
    { skip := skip, broke := false, previous_param := previous_param }

/-- The block `if (!skip && errormeasure->b_peakzero)` of both objectives, entered
with `skip = 0`; the result is the flag `skip` after it. -/
def peakzero_skip (errormeasure : ErrorMeasure) (parameters : Int → ℚ) : Bool :=
  let diff := errormeasure.model_parameter_diff
  if errormeasure.b_symmetric then
    (peak_loop parameters 1 errormeasure.model_parameter_number (fun i => i)
      false (parameters 0)).skip
  else
    let s1 := peak_loop parameters 1 (diff + 1) (fun i => diff - i)
      false (parameters diff)
    (peak_loop parameters 1 (diff + 1) (fun i => diff + i)
      s1.skip (parameters diff)).skip

/-- The flag `skip` at the test `if (!skip)` that guards the construction of
the error matrix. -/
def objective_skip (errormeasure : ErrorMeasure) (parameters : Int → ℚ) : Bool :=
  let skip := feasibility_skip errormeasure parameters
  if !skip && errormeasure.b_peakzero then peakzero_skip errormeasure parameters
  else skip

/-- What an objective returns.  `rejected` is the value `-log(0)`, reached
without building an error matrix.  Otherwise the value is
`-(Σ pairs[i][j] * log(discord_prob_model[i][j]) - log(1 - prob00))`, given here
by the matrix it was computed from, the discordance model and `prob00`.  When
the vector is not rejected and the divisor `(maxFamilySize + 1) - (2 * D + 1)`
of the matrix construction is zero, the entries outside the band are not
finite doubles; that case is `zero_divisor` and nothing is said of the value. -/
inductive Objective where
  | rejected : Objective
  | zero_divisor : Objective
  | scored (errormodel : ErrorStruct) (discord_prob_model : Int → Int → ℚ)
      (prob00 : ℚ) : Objective

/-- Whether the objective returned the rejection value. -/
def Objective.is_rejected : Objective → Bool
  | Objective.rejected => true
  | Objective.zero_divisor => false
  | Objective.scored _ _ _ => false

/-- Discordance model of the double-measure objective: the triple loop over
`i`, `j >= i` and `k` that accumulates into a block from `memory_new_2dim`. -/
def discord_double (fresh : ℚ) (errormeasure : ErrorMeasure)
    (errormatrix : Int → Int → ℚ) : Int → Int → ℚ :=
  let n := errormeasure.maxFamilySize + 1
  for_loop 0 n
    (fun i d => for_loop i n
      (fun j d => for_loop 0 n
        (fun k d =>
          let pi_i_k := errormatrix i k
          let pi_j_k := errormatrix j k
          if i = j then
            set2 d i j (d i j + errormeasure.sizeDist k * pi_i_k * pi_j_k)
          else
            set2 d i j (d i j + 2 * errormeasure.sizeDist k * pi_i_k * pi_j_k))
        d)
      d)
    (fun _ _ => fresh)

/-- Discordance model of the true-measure objective: the double loop
`discord_prob_model[i][j] = sizeDist[j] * errormatrix[i][j]`. -/
def discord_true (fresh : ℚ) (errormeasure : ErrorMeasure)
    (errormatrix : Int → Int → ℚ) : Int → Int → ℚ :=
  let n := errormeasure.maxFamilySize + 1
  for_loop 0 n
    (fun i d => for_loop 0 n
      (fun j d => set2 d i j (errormeasure.sizeDist j * errormatrix i j))
      d)
    (fun _ _ => fresh)

/-- Objective of the double-measure estimator. -/
def __loglikelihood_pairs_from_double_measure (fresh : ℚ)
    (parameters : Int → ℚ) (errormeasure : ErrorMeasure) : Objective :=
  if objective_skip errormeasure parameters then Objective.rejected
  else if (errormeasure.maxFamilySize + 1) - (errormeasure.model_parameter_diff * 2 + 1) = 0 then
    Objective.zero_divisor
  else
    let errormodel := cafe_shell_create_error_matrix_from_estimate fresh
      { errormeasure with estimates := parameters }
    let discord_prob_model := discord_double fresh errormeasure errormodel.errormatrix
    let prob00 := for_loop 0 (errormeasure.maxFamilySize + 1)
      (fun k p => p + errormeasure.sizeDist k * errormodel.errormatrix 0 k
        * errormodel.errormatrix 0 k) 0
    Objective.scored errormodel discord_prob_model prob00

/-- Objective of the true-measure estimator. -/
def __loglikelihood_pairs_from_true_measure (fresh : ℚ)
    (parameters : Int → ℚ) (errormeasure : ErrorMeasure) : Objective :=
  if objective_skip errormeasure parameters then Objective.rejected
  else if (errormeasure.maxFamilySize + 1) - (errormeasure.model_parameter_diff * 2 + 1) = 0 then
    Objective.zero_divisor
  else
    let errormodel := cafe_shell_create_error_matrix_from_estimate fresh
      { errormeasure with estimates := parameters }
    let discord_prob_model := discord_true fresh errormeasure errormodel.errormatrix
    let prob00 := errormodel.errormatrix 0 0 * errormeasure.sizeDist 0
    Objective.scored errormodel discord_prob_model prob00


/-! ## Vocabulary for the statements about the error model -/

/-- The sum `S` of the band: `p[0] + 2 * (p[1] + ... + p[D])` in symmetric
mode, `p[0] + ... + p[2 * D]` in asymmetric mode. -/
def band_total (errormeasure : ErrorMeasure) (p : Int → ℚ) : ℚ :=
  if errormeasure.b_symmetric then
    p 0 + 2 * ∑ i in Finset.Ico 1 (errormeasure.model_parameter_diff + 1), p i
  else ∑ i in Finset.Ico 0 (2 * errormeasure.model_parameter_diff + 1), p i

/-- The marginal epsilon `(1 - S) / ((maxFamilySize + 1) - (2 * D + 1))`. -/
def epsilon (errormeasure : ErrorMeasure) (p : Int → ℚ) : ℚ :=
  (1 - band_total errormeasure p)
    / ((((errormeasure.maxFamilySize + 1)
        - (2 * errormeasure.model_parameter_diff + 1) : Int)) : ℚ)

/-- The free parameter for the offset `d = i - j`: `estimates[|d|]` in
symmetric mode, `estimates[d + D]` in asymmetric mode. -/
def offset_parameter (errormeasure : ErrorMeasure) (d : Int) : ℚ :=
  if errormeasure.b_symmetric then errormeasure.estimates |d|
  else errormeasure.estimates (d + errormeasure.model_parameter_diff)

/-- The value the fill loops give entry `(i, j)`: the free parameter of the
offset inside the band, the marginal epsilon outside. -/
def band_entry (errormeasure : ErrorMeasure) (i j : Int) : ℚ :=
  if |i - j| ≤ errormeasure.model_parameter_diff then
    offset_parameter errormeasure (i - j)
  else epsilon errormeasure errormeasure.estimates

/-- The shortfall from 1 of column `j` of the filled matrix. -/
def shortfall (errormeasure : ErrorMeasure) (j : Int) : ℚ :=
  1 - ∑ i in Finset.Ico 0 (errormeasure.maxFamilySize + 1), band_entry errormeasure i j

/-- The estimators set `model_parameter_number` to `D + 1` (symmetric) or
`2 * D + 1` (asymmetric), with `D = max_diff`. -/
def ErrorMeasure.well_formed (errormeasure : ErrorMeasure) : Prop :=
  0 ≤ errormeasure.model_parameter_diff ∧
  errormeasure.model_parameter_number
    = (if errormeasure.b_symmetric then errormeasure.model_parameter_diff + 1
       else 2 * errormeasure.model_parameter_diff + 1)

instance (errormeasure : ErrorMeasure) : Decidable errormeasure.well_formed := by
  unfold ErrorMeasure.well_formed; infer_instance

/-- The feasibility condition of the objectives on a parameter vector: the
marginal epsilon is not negative, and every parameter is not negative and not
below epsilon. -/
def feasible (errormeasure : ErrorMeasure) (p : Int → ℚ) : Prop :=
  0 ≤ epsilon errormeasure p ∧
  ∀ i ∈ Finset.Ico 0 errormeasure.model_parameter_number,
    0 ≤ p i ∧ epsilon errormeasure p ≤ p i

instance (errormeasure : ErrorMeasure) (p : Int → ℚ) : Decidable (feasible errormeasure p) := by
  unfold feasible; infer_instance

/-- A symmetric sample: `D = 2`, sizes `0 .. 6`, parameters `2/5, 3/20, 1/10`
(so epsilon is `1/20`). -/
def error_measure_symmetric : ErrorMeasure :=
  { sizeDist := fun _ => 1 / 7
    maxFamilySize := 6
    pairs := fun _ _ => 0
    estimates := fun i =>
      if i = 0 then 2 / 5 else if i = 1 then 3 / 20 else if i = 2 then 1 / 10 else 0
    b_symmetric := true
    b_peakzero := true
    model_parameter_diff := 2
    model_parameter_number := 3 }

/-- An asymmetric sample: `D = 2`, sizes `0 .. 6`, parameters
`1/10, 3/20, 2/5, 1/5, 1/10` (so epsilon is `1/40`). -/
def error_measure_asymmetric : ErrorMeasure :=
  { sizeDist := fun _ => 1 / 7
    maxFamilySize := 6
    pairs := fun _ _ => 0
    estimates := fun i =>
      if i = 0 then 1 / 10 else if i = 1 then 3 / 20 else if i = 2 then 2 / 5
      else if i = 3 then 1 / 5 else if i = 4 then 1 / 10 else 0
    b_symmetric := false
    b_peakzero := true
    model_parameter_diff := 2
    model_parameter_number := 5 }

/-- An asymmetric sample whose band fills every column: `D = 1`, sizes
`0 .. 2`, parameters `1/10, 1/2, 1/10`; the divisor of epsilon is zero. -/
def error_measure_zero_divisor : ErrorMeasure :=
  { sizeDist := fun _ => 1 / 3
    maxFamilySize := 2
    pairs := fun _ _ => 0
    estimates := fun i =>
      if i = 0 then 1 / 10 else if i = 1 then 1 / 2 else if i = 2 then 1 / 10 else 0
    b_symmetric := false
    b_peakzero := true
    model_parameter_diff := 1
    model_parameter_number := 3 }

/-- A sample matrix for the column-sum correction: sizes `0 .. 2`, `diff = 1`;
the interior column 1 holds `1/4, 1/4, 0` and so sums to `1/2`. -/
def error_struct_half : ErrorStruct :=
  { maxfamilysize := 2
    fromdiff := -1
    todiff := 1
    errormatrix := fun i j =>
      if j = 1 then (if i = 0 then 1 / 4 else if i = 1 then 1 / 4 else 0)
      else if i = j then 1 else 0 }

/-- The identity matrix: every size is measured without error. -/
def identity_matrix : Int → Int → ℚ :=
  fun i j => if i = j then 1 else 0

/-- The vector is not non-increasing away from the zero offset: in symmetric
mode some `i` in `1 .. D` has `p[i] > p[i-1]`; in asymmetric mode some `i` in
`1 .. D` has `p[D-i] > p[D-i+1]` or `p[D+i] > p[D+i-1]`. -/
def shape_violation (errormeasure : ErrorMeasure) (p : Int → ℚ) : Prop :=
  if errormeasure.b_symmetric then
    ∃ i ∈ Finset.Ico 1 (errormeasure.model_parameter_diff + 1), p i > p (i - 1)
  else
    ∃ i ∈ Finset.Ico 1 (errormeasure.model_parameter_diff + 1),
      p (errormeasure.model_parameter_diff - i) > p (errormeasure.model_parameter_diff - i + 1)
      ∨ p (errormeasure.model_parameter_diff + i) > p (errormeasure.model_parameter_diff + i - 1)

instance (errormeasure : ErrorMeasure) (p : Int → ℚ) :
    Decidable (shape_violation errormeasure p) := by
  unfold shape_violation; infer_instance

/-- The marginal epsilon as the objectives hold it, a double:
`(1 - S) / ((maxFamilySize + 1) - (2 * D + 1))`, which is `+inf`, `-inf` or NaN
when the divisor is zero. -/
def double_epsilon (errormeasure : ErrorMeasure) (p : Int → ℚ) : Score :=
  double_div (1 - band_total errormeasure p)
    ((errormeasure.maxFamilySize + 1) - (2 * errormeasure.model_parameter_diff + 1))

/-- Some parameter is negative, or epsilon is negative, or epsilon exceeds
some parameter (comparisons of doubles: none holds of a NaN). -/
def infeasible (errormeasure : ErrorMeasure) (p : Int → ℚ) : Prop :=
  (∃ i ∈ Finset.Ico 0 errormeasure.model_parameter_number, p i < 0)
  ∨ Score.lt (double_epsilon errormeasure p) (Score.fin 0) = true
  ∨ (∃ i ∈ Finset.Ico 0 errormeasure.model_parameter_number,
      Score.lt (Score.fin (p i)) (double_epsilon errormeasure p) = true)

instance (errormeasure : ErrorMeasure) (p : Int → ℚ) :
    Decidable (infeasible errormeasure p) := by
  unfold infeasible; infer_instance


/-! ## The estimators

`cafe_shell_estimate_error_double_measure` and
`cafe_shell_estimate_error_true_measure`: the size distribution, the start
vector of a run and the multi-start loop.  The files are read and the
minimizer runs outside `cafe_shell.c`: the frequency table, the sorted draws of
every run and what the minimizer leaves in `pfm` are inputs.
-/

/-- The loop `sizeTotal += sizeFreq[i] + 1` over `0 .. maxFamilySize`. -/
def sizeTotal (maxFamilySize : Int) (sizeFreq : Int → Int) : Int :=
  for_loop 0 (maxFamilySize + 1) (fun i t => t + (sizeFreq i + 1)) 0

/-- The loop `sizeDist[i] = (sizeFreq[i] + 1) / (double)sizeTotal` on a block
from `memory_new`. -/
def sizeDist (fresh : ℚ) (maxFamilySize : Int) (sizeFreq : Int → Int) : Int → ℚ :=
  for_loop 0 (maxFamilySize + 1)
    (fun i a => set1 a i (((sizeFreq i + 1 : Int) : ℚ)
      / ((sizeTotal maxFamilySize sizeFreq : Int) : ℚ)))
    (fun _ => fresh)

/-- The start vector of a run, written into `parameters` from the draws
`sorted_params` (sorted in ascending order by `qsort`).  Symmetric: `i` runs
down from `n - 1` to 0 while `j` counts up (iteration `t` has `i = n - 1 - t`).
Asymmetric: the largest draw goes to the centre `D`, the following ones
alternately to `D - i` and `D + i`. -/
def start_vector (errormeasure : ErrorMeasure) (sorted_params : Int → ℚ)
    (parameters : Int → ℚ) : Int → ℚ :=
  let n := errormeasure.model_parameter_number
  let diff := errormeasure.model_parameter_diff
  if errormeasure.b_symmetric then
    (for_loop 0 n
      (fun t (s : (Int → ℚ) × Int) => (set1 s.1 s.2 (sorted_params (n - 1 - t)), s.2 + 1))
      (parameters, 0)).1
  else
    let p0 := set1 parameters diff (sorted_params (n - 1))
    (for_loop 1 (diff + 1)
      (fun i (s : (Int → ℚ) × Int) =>
        let p1 := set1 s.1 (diff - i) (sorted_params s.2)
        let p2 := set1 p1 (diff + i) (sorted_params (s.2 - 1))
        (p2, s.2 - 2))
      (p0, n - 1 - 1)).1

/-- The constant `DBL_MAX` of `float.h`. -/
def DBL_MAX : ℚ := (2 ^ 53 - 1) * 2 ^ 971

/-- What the loop reads from `pfm` after `fminsearch_min`: the iteration
count, the iteration budget, the final score `*pfm->fv` and the point
`fminsearch_get_minX(pfm)`. -/
structure FMinSearch where
  iters : Int
  maxiters : Int
  fv : Score
  minX : Int → ℚ

/-- The variables of the multi-start loop. -/
structure MultiStart where
  converged : Bool
  runs : Int
  minscore : Score
  parameters : Int → ℚ
  bestrun_parameters : Int → ℚ

/-- The test `!isnan(fv) && !isinf(fv) && abs(minscore - fv) < tolf` with
`tolf = 1e-9`.  `abs` is the integer `abs`: the difference is converted to
`int` first.  The conversion has no defined result when the difference is not
finite (`none`). -/
def convergence_test (minscore fv : Score) : Option Bool :=
  if fv.isnan then some false
  else if fv.isinf then some false
  else
    match minscore, fv with
    | Score.fin m, Score.fin f =>
      some (decide (((c_abs (double_to_int (m - f)) : Int) : ℚ) < 1 / 1000000000))
    | _, _ => none

/-- Effect of `memcpy(dst, src, n * sizeof(double))` on `dst`. -/
def memcpy_cells (dst src : Int → ℚ) (n : Int) : Int → ℚ :=
  fun i => if 0 ≤ i ∧ i < n then src i else dst i

/-- One execution of the body of the `do { ... } while` loop: the start vector
is built, the minimizer runs (its result is `pfm`), the point found is copied
to `parameters`, then convergence is tested and, for a run with
`iters < maxiters`, the best score is updated and `runs` incremented. -/
def multi_start_body (errormeasure : ErrorMeasure) (s : MultiStart)
    (sorted_params : Int → ℚ) (pfm : FMinSearch) : Option MultiStart :=
  let n := errormeasure.model_parameter_number
  let start := start_vector errormeasure sorted_params s.parameters
  let parameters := for_loop 0 n (fun i a => set1 a i (pfm.minX i)) start
  let converged : Option Bool :=
    if s.runs > 0 then
      (convergence_test s.minscore pfm.fv).map (fun c => if c then true else s.converged)
    else some s.converged
  converged.map (fun converged =>
    if pfm.iters < pfm.maxiters then
      if pfm.fv.lt s.minscore then
        { converged := converged, runs := s.runs + 1, minscore := pfm.fv,
          parameters := parameters,
          bestrun_parameters := memcpy_cells s.bestrun_parameters parameters n }
      else
        { converged := converged, runs := s.runs + 1, minscore := s.minscore,
          parameters := parameters, bestrun_parameters := s.bestrun_parameters }
    else
      { converged := converged, runs := s.runs, minscore := s.minscore,
        parameters := parameters, bestrun_parameters := s.bestrun_parameters })

/-- The loop condition `!converged && runs < max_runs` with `max_runs = 100`. -/
def multi_start_continues (s : MultiStart) : Bool :=
  !s.converged && decide (s.runs < 100)

/-- The variables before the loop: `minscore = DBL_MAX` and two blocks from
`memory_new`. -/
def multi_start_init (fresh : ℚ) : MultiStart :=
  { converged := false, runs := 0, minscore := Score.fin DBL_MAX,
    parameters := fun _ => fresh, bestrun_parameters := fun _ => fresh }

/-- What running the loop with a bound on the number of body executions gives:
the loop left after `executions` bodies in state `final`, or an undefined
conversion was met, or the bound was reached with the loop still running. -/
inductive LoopResult where
  | exited (executions : Nat) (final : MultiStart) : LoopResult
  | undefined : LoopResult
  | running : LoopResult

/-- The loop `do body while (!converged && runs < max_runs)`, for at most `fuel`
body executions; execution number `k` (from 0) gets the draws `(input k).1` and
the minimizer result `(input k).2`. -/
def multi_start_loop (errormeasure : ErrorMeasure)
    (input : Nat → (Int → ℚ) × FMinSearch) : Nat → Nat → MultiStart → LoopResult
  | 0, _, _ => LoopResult.running
  | fuel + 1, k, s =>
    match multi_start_body errormeasure s (input k).1 (input k).2 with
    | none => LoopResult.undefined
    | some s' =>
      if multi_start_continues s' then multi_start_loop errormeasure input fuel (k + 1) s'
      else LoopResult.exited (k + 1) s'

/-- The state after `k` body executions, the loop condition left aside. -/
def multi_start_trace (errormeasure : ErrorMeasure) (fresh : ℚ)
    (input : Nat → (Int → ℚ) × FMinSearch) : Nat → Option MultiStart
  | 0 => some (multi_start_init fresh)
  | k + 1 =>
    (multi_start_trace errormeasure fresh input k).bind
      (fun s => multi_start_body errormeasure s (input k).1 (input k).2)

/-- The `ErrorMeasure` both estimators set up before the loop. -/
def error_measure_new (sizeDist : Int → ℚ) (maxFamilySize : Int) (pairs : Int → Int → Int)
    (fresh : ℚ) (b_symmetric : Bool) (max_diff : Int) (b_peakzero : Bool) : ErrorMeasure :=
  { sizeDist := sizeDist
    maxFamilySize := maxFamilySize
    pairs := pairs
    estimates := fun _ => fresh
    b_symmetric := b_symmetric
    b_peakzero := b_peakzero
    model_parameter_diff := max_diff
    model_parameter_number := if b_symmetric then max_diff + 1 else 2 * max_diff + 1 }

/-- The double-measure estimator, from the frequency table and the pair counts
read from the two files: the result of the loop, with the `ErrorMeasure` whose
`estimates` are `bestrun_parameters` on exit. -/
def cafe_shell_estimate_error_double_measure (fresh : ℚ) (maxFamilySize : Int)
    (sizeFreq : Int → Int) (observed_pairs : Int → Int → Int)
    (b_symmetric : Bool) (max_diff : Int) (b_peakzero : Bool)
    (input : Nat → (Int → ℚ) × FMinSearch) (fuel : Nat) : LoopResult × ErrorMeasure :=
  let error := error_measure_new (sizeDist fresh maxFamilySize sizeFreq) maxFamilySize
    observed_pairs fresh b_symmetric max_diff b_peakzero
  let r := multi_start_loop error input fuel 0 (multi_start_init fresh)
  match r with
  | LoopResult.exited _ final => (r, { error with estimates := final.bestrun_parameters })
  | _ => (r, error)

/-- The true-measure estimator: the same steps, the minimizer being handed
`__loglikelihood_pairs_from_true_measure` instead. -/
def cafe_shell_estimate_error_true_measure (fresh : ℚ) (maxFamilySize : Int)
    (sizeFreq : Int → Int) (observed_pairs : Int → Int → Int)
    (b_symmetric : Bool) (max_diff : Int) (b_peakzero : Bool)
    (input : Nat → (Int → ℚ) × FMinSearch) (fuel : Nat) : LoopResult × ErrorMeasure :=
  let error := error_measure_new (sizeDist fresh maxFamilySize sizeFreq) maxFamilySize
    observed_pairs fresh b_symmetric max_diff b_peakzero
  let r := multi_start_loop error input fuel 0 (multi_start_init fresh)
  match r with
  | LoopResult.exited _ final => (r, { error with estimates := final.bestrun_parameters })
  | _ => (r, error)


/-! ## Vocabulary for the statements about the estimators -/

/-- A run is accepted when it ended before its iteration budget. -/
def FMinSearch.accepted (pfm : FMinSearch) : Bool :=
  decide (pfm.iters < pfm.maxiters)

/-- The number of accepted runs among the first `n` body executions. -/
def accepted_count (input : Nat → (Int → ℚ) × FMinSearch) (n : Nat) : Nat :=
  ((List.range n).filter (fun k => (input k).2.accepted)).length

/-- Whether the bounded loop is still running. -/
def LoopResult.is_running : LoopResult → Bool
  | LoopResult.running => true
  | _ => false

/-- The number of body executions and the flags on exit. -/
def LoopResult.summary : LoopResult → Option (Nat × Bool × Int)
  | LoopResult.exited n s => some (n, s.converged, s.runs)
  | _ => none

/-- A run that used up its budget of 1000 iterations, with score `x`. -/
def exhausted_run (x : ℚ) : FMinSearch :=
  { iters := 1000, maxiters := 1000, fv := Score.fin x, minX := fun _ => x }

/-- A run that stopped after 10 of 1000 iterations, with score `x`. -/
def accepted_run (x : ℚ) : FMinSearch :=
  { iters := 10, maxiters := 1000, fv := Score.fin x, minX := fun _ => x }

/-- Sorted draws for three parameters. -/
def draws_example : Int → ℚ :=
  fun i => if i = 0 then 1 / 10 else if i = 1 then 1 / 5 else if i = 2 then 3 / 10 else 0

/-- Every run uses up its iteration budget. -/
def input_exhausted : Nat → (Int → ℚ) × FMinSearch :=
  fun _ => (draws_example, exhausted_run 10)

/-- An accepted run with score 10, then runs that use up their budget with
score `21/2`. -/
def input_accepted_then_exhausted : Nat → (Int → ℚ) × FMinSearch :=
  fun k => (draws_example, if k = 0 then accepted_run 10 else exhausted_run (21 / 2))

/-- Accepted runs with the scores 12, 11, 11, 11, ... -/
def input_accepted : Nat → (Int → ℚ) × FMinSearch :=
  fun k => (draws_example, if k = 0 then accepted_run 12 else accepted_run 11)

/-- The draw that the start vector puts in cell `k`: the draws in descending
order (symmetric), or the odd places left of the centre and the even places
from the centre to the right (asymmetric). -/
def start_index (errormeasure : ErrorMeasure) (k : Int) : Int :=
  if errormeasure.b_symmetric then errormeasure.model_parameter_number - 1 - k
  else if k < errormeasure.model_parameter_diff then 2 * k + 1
  else 4 * errormeasure.model_parameter_diff - 2 * k

/-- The first `n` cells of an array, as a list. -/
def cells_of (a : Int → ℚ) (n : Int) : List ℚ :=
  (List.range n.toNat).map (fun (k : Nat) => a (k : Int))

/-- The draws are sorted in ascending order. -/
def ascending (sorted_params : Int → ℚ) (n : Int) : Prop :=
  ∀ i ∈ Finset.Ico 0 n, ∀ k ∈ Finset.Ico 0 n, i ≤ k → sorted_params i ≤ sorted_params k

instance (sorted_params : Int → ℚ) (n : Int) : Decidable (ascending sorted_params n) := by
  unfold ascending; infer_instance

/-- Five sorted draws for the asymmetric sample. -/
def draws_five : Int → ℚ :=
  fun i => if i = 0 then 1 / 50 else if i = 1 then 1 / 25 else if i = 2 then 1 / 10
    else if i = 3 then 3 / 25 else if i = 4 then 9 / 50 else 0


/-! ## Pair counts, cross-validation and the argument list -/

/-- The folding step at the end of `cafe_shell_read_error_double_measure`: for
every `i` and every `j < i`, `observed_pairs[j][i] += observed_pairs[i][j]`
and then `observed_pairs[i][j] = 0`. -/
def fold_observed_pairs (maxFamilySize : Int) (observed_pairs : Int → Int → Int) :
    Int → Int → Int :=
  for_loop 0 (maxFamilySize + 1)
    (fun i p => for_loop 0 i
      (fun j p => set2 (set2 p j i (p j i + p i j)) i j 0) p)
    observed_pairs

/-- The sums of the leaf loop of `_cafe_cross_validate_by_family`. -/
structure LeafSums where
  SSE : ℚ
  SAE : ℚ
  nodecnt : Int

/-- The leaf loop `for (j = 0; j < size; j = j + 2)` over a node list of `size`
nodes (iteration `t` has `j = 2 * t`); `truth j` and `reconstructed j` are the
`familysize` of node `j` in the truth tree and in the tree after the Viterbi
reconstruction. -/
def leaf_sums (size : Int) (truth reconstructed : Int → Int) : LeafSums :=
  for_loop 0 ((size + 1) / 2)
    (fun t s =>
      let j := 2 * t
      let error := truth j - reconstructed j
      { SSE := s.SSE + ((error ^ 2 : Int) : ℚ)
        SAE := s.SAE + ((c_abs error : Int) : ℚ)
        nodecnt := s.nodecnt + 1 })
    { SSE := 0, SAE := 0, nodecnt := 0 }

/-- The error measure returned by `_cafe_cross_validate_by_family` once both
files are read: `families` lists, for every query family, the true and the
reconstructed sizes by node.  The state of the loop is the pair `(MSE, MAE)`. -/
def _cafe_cross_validate_by_family (size : Int)
    (families : List ((Int → Int) × (Int → Int))) (errortype : String) : ℚ :=
  let acc := families.foldl
    (fun (acc : ℚ × ℚ) family =>
      let s := leaf_sums size family.1 family.2
      let MSE := acc.1 + s.SSE / (s.nodecnt : ℚ)
      let MSE := MSE + s.SAE / (s.nodecnt : ℚ)
      (MSE, acc.2))
    (0, 0)
  let MSE := acc.1 / (families.length : ℚ)
  let MAE := acc.2 / (families.length : ℚ)
  if errortype.toList.take 3 = ['M', 'S', 'E'] then MSE
  else if errortype.toList.take 3 = ['M', 'A', 'E'] then MAE
  else -1

/-- The test `argv[i][0] == '-' && !isdigit(argv[i][1])` on a token (a C
string: the character after its last one is NUL, which is not a digit). -/
def option_token (tok : String) : Bool :=
  match tok.toList with
  | '-' :: c :: _ => !c.isDigit
  | ['-'] => true
  | _ => false

/-- One `Argument` of the list: `argc`, `opt` and the pointer `argv`, held as
the index it points at in the argument vector (`none` is NULL). -/
structure pArgument where
  argc : Int
  opt : String
  argv : Option Nat
deriving DecidableEq, Repr

/-- The inner loop `for (j = i + 1; j < argc; j++)`, which breaks at the next
option: started at `j`, it returns the `j` it stops at. -/
def scan_values (argv : List String) : Nat → Nat → Nat
  | 0, j => j
  | fuel + 1, j =>
    match argv[j]? with
    | none => j
    | some tok => if option_token tok then j else scan_values argv fuel (j + 1)

/-- The outer loop `for (i = 1; i < argc; i++)` from index `i`, with the list
built so far; an option sets `i = j - 1` before the increment. -/
def build_argument_loop (argv : List String) : Nat → Nat → List pArgument → List pArgument
  | 0, _, pal => pal
  | fuel + 1, i, pal =>
    match argv[i]? with
    | none => pal
    | some tok =>
      if option_token tok then
        let j := scan_values argv argv.length (i + 1)
        let argc : Int := (j : Int) - ((i : Int) + 1)
        let parg : pArgument :=
          { argc := argc, opt := tok, argv := if argc ≠ 0 then some (i + 1) else none }
        build_argument_loop argv fuel j (pal ++ [parg])
      else build_argument_loop argv fuel (i + 1) pal

/-- The list returned by `cafe_shell_build_argument(argc, argv)`, with
`argc` the length of `argv`. -/
def cafe_shell_build_argument (argv : List String) : List pArgument :=
  build_argument_loop argv argv.length 1 []


/-! ## Vocabulary and samples for the remaining statements -/

/-- The number of leaves visited by the leaf loop over `size` nodes. -/
def leaf_count (size : Int) : Int := (size + 1) / 2

/-- The mean over the query families of the per-family mean squared leaf
error, as the measure "MSE" is described. -/
def mean_squared_leaf_error (size : Int) (families : List ((Int → Int) × (Int → Int))) : ℚ :=
  (families.map (fun family =>
      (∑ t in Finset.Ico 0 (leaf_count size),
          (((family.1 (2 * t) - family.2 (2 * t)) ^ 2 : Int) : ℚ))
        / (leaf_count size : ℚ))).sum
    / (families.length : ℚ)

/-- The mean over the query families of the per-family mean absolute leaf
error, as the measure "MAE" is described. -/
def mean_absolute_leaf_error (size : Int) (families : List ((Int → Int) × (Int → Int))) : ℚ :=
  (families.map (fun family =>
      (∑ t in Finset.Ico 0 (leaf_count size),
          ((|family.1 (2 * t) - family.2 (2 * t)| : Int) : ℚ))
        / (leaf_count size : ℚ))).sum
    / (families.length : ℚ)

/-- One query family on a three-node tree (leaves at the positions 0 and 2):
true sizes 3 and 5, reconstructed sizes 1 and 5. -/
def cv_families_example : List ((Int → Int) × (Int → Int)) :=
  [(fun j => if j = 0 then 3 else if j = 2 then 5 else 4,
    fun j => if j = 0 then 1 else if j = 2 then 5 else 4)]

/-- The class labels of the nodes of a rate tree. -/
def RateTree.labels (ptree : RateTree) : List Int :=
  ptree.nlist.map (fun pnode => pnode.taxaid)

/-- The number of distinct non-negative class labels of a rate tree. -/
def RateTree.distinct_labels (ptree : RateTree) : Nat :=
  ((ptree.labels.filter (fun x => decide (0 ≤ x))).toFinset).card

/-- The three-node rate tree whose unnamed root still holds the label -1. -/
def rate_tree_unset_root : RateTree :=
  { nlist := [⟨some (some 1), -1⟩, ⟨none, -1⟩, ⟨some (some 2), -1⟩], root := 1 }

/-- The state in which the installer runs after `__cafe_cmd_lambda_tree`
accepted a tree with `num_lambdas` classes in lambda-only mode without
clusters: a stored vector of `num_lambdas` cells. -/
def after_lambda_tree (r : Int × Shell) : CafeParam :=
  { r.2.cafe_param with
    parameters := some (List.replicate r.2.cafe_param.num_lambdas.toNat 0)
    num_params := r.2.cafe_param.num_lambdas
    param_set_func := .set_lambda }

/-- The size of the weight buffer a setup leaves in `cafe_param->k_weights`. -/
def Setup.k_weights_size : Setup → Option Nat
  | .ready cp => cp.k_weights.map List.length
  | .failed _ => none

/-- The options `-k 2 -l 1/100 1/50 -m 1/25 1/20 -p 3/10`: the set path
without rate tree, two clusters. -/
def set_path_two_clusters : List Argument :=
  [.k 2, .l [1 / 100, 1 / 50], .m [1 / 25, 1 / 20], .p [3 / 10]]

/-- The options `-s -k 2`: the search path without rate tree, two clusters. -/
def search_path_two_clusters : List Argument :=
  [.s, .k 2]

/-- The state of the option loop after the given options, when the loop went
through. -/
def options_state (sh : Shell) (pargs : List Argument) : Option Parsed :=
  match lambda_mu_options (lambda_mu_start sh) pargs with
  | some (.next st) => some st
  | _ => none

/-- The number of tokens from the head of `rest` up to the next option (or the
end of the list). -/
def values_before_next_option (rest : List String) : Nat :=
  (rest.takeWhile (fun tok => !option_token tok)).length

/-- The list as `cafe_shell_build_argument` is described, for the tokens
`tokens` that start at position `pos` of the argument vector: one entry, in
order, for every token that is an option; its `argc` is the number of tokens
between it and the next option (or the end) and its `argv` the position of
the first of them (NULL when there is none). -/
def described_from (pos : Nat) : List String → List pArgument
  | [] => []
  | tok :: rest =>
    if option_token tok then
      { argc := (values_before_next_option rest : Int)
        opt := tok
        argv := if values_before_next_option rest ≠ 0 then some (pos + 1) else none }
        :: described_from (pos + 1) rest
    else described_from (pos + 1) rest

/-- The description applied to `argv[1 ..]`. -/
def described_arguments (argv : List String) : List pArgument :=
  described_from 1 (argv.drop 1)

/-! ## Arrays and the flat vector -/

theorem rd_of_lt (a : List ℚ) (i : Int) (h0 : 0 ≤ i) (h : i < a.length) :
    ∃ v, rd a i = some v := by
  have : i.toNat < a.length := by omega
  refine ⟨a[i.toNat], ?_⟩
  simp [rd, h0, List.getElem?_eq_getElem this]

theorem rd_append_left (a b : List ℚ) (i : Int) (h : i < a.length) :
    rd (a ++ b) i = rd a i := by
  unfold rd
  split
  · rw [List.getElem?_append_left (by omega)]
  · rfl

theorem rd_append_right (a b : List ℚ) (i : Int) (h : (a.length : Int) ≤ i) :
    rd (a ++ b) i = rd b (i - a.length) := by
  unfold rd
  have h1 : (0 : Int) ≤ i := by omega
  have h2 : (0 : Int) ≤ i - a.length := by omega
  simp only [h1, h2, if_true]
  rw [List.getElem?_append_right (by omega)]
  congr 1
  omega

theorem rd_cons_succ (x : ℚ) (r : List ℚ) (k : Int) (hk : 1 ≤ k) :
    rd (x :: r) k = rd r (k - 1) := by
  have := rd_append_right [x] r k (by simpa using hk)
  simpa using this

theorem rd_take_drop (a : List ℚ) (off n k : Int) (h0 : 0 ≤ off) (hk0 : 0 ≤ k) (hk : k < n) :
    rd ((a.drop off.toNat).take n.toNat) k = rd a (off + k) := by
  unfold rd
  have h1 : (0 : Int) ≤ off + k := by omega
  simp only [hk0, h1, if_true]
  rw [List.getElem?_take_of_lt (by omega), List.getElem?_drop]
  congr 1
  omega

theorem slice_eq (a : List ℚ) (off n : Int) (h0 : 0 ≤ off) (hn : 0 ≤ n)
    (h : off + n ≤ a.length) :
    slice a off n = some ((a.drop off.toNat).take n.toNat) := by
  simp [slice, h0, hn, h]

theorem memcpy_fresh (fresh : ℚ) (a : List ℚ) (off n : Int) (hn : 0 ≤ n) :
    memcpy (List.replicate n.toNat fresh) 0 a off n = slice a off n := by
  unfold memcpy
  have : (0 : Int) ≤ 0 ∧ 0 + n ≤ ((List.replicate n.toNat fresh).length : Int) := by
    rw [List.length_replicate]; omega
  rw [if_pos this]
  cases slice a off n <;> simp

theorem memcpy_fresh_tail (fresh : ℚ) (a : List ℚ) (off n : Int) (hn : 1 ≤ n) :
    (wr (List.replicate n.toNat fresh) 0 0).bind (fun pl => memcpy pl 1 a off (n - 1))
      = (slice a off (n - 1)).map (fun s => 0 :: s) := by
  obtain ⟨m, hm⟩ : ∃ m : Nat, n.toNat = m + 1 := ⟨n.toNat - 1, by omega⟩
  have hw : wr (List.replicate n.toNat fresh) 0 0 = some (0 :: List.replicate m fresh) := by
    simp [wr, hm, List.replicate_succ]
  rw [hw, Option.some_bind]
  unfold memcpy
  have : (0 : Int) ≤ 1 ∧ 1 + (n - 1) ≤ ((0 :: List.replicate m fresh).length : Int) := by
    rw [List.length_cons, List.length_replicate]; omega
  rw [if_pos this]
  have h3 : (1 + (n - 1)).toNat = m + 1 := by omega
  cases slice a off (n - 1) <;> simp [h3, hm]

theorem memory_new_eq (fresh : ℚ) (n : Int) (hn : 0 ≤ n) :
    memory_new fresh n = some (List.replicate n.toNat fresh) := by
  simp [memory_new, hn]

theorem memcpy_into (pre rest s : List ℚ) (doff n : Int) (hd : doff = pre.length)
    (hn : n = s.length) (hle : s.length ≤ rest.length) :
    memcpy (pre ++ rest) doff s 0 n = some (pre ++ s ++ rest.drop s.length) := by
  subst hd hn
  have h1 : (0 : Int) ≤ (pre.length : Int) ∧
      (pre.length : Int) + s.length ≤ ((pre ++ rest).length : Int) := by
    rw [List.length_append]; push_cast; omega
  have h2 : slice s 0 s.length = some s := by
    rw [slice_eq s 0 s.length (le_refl _) (by omega) (by omega)]
    simp
  have h3 : ((pre.length : Int) + s.length).toNat = pre.length + s.length := by omega
  simp [memcpy, h1, h2, h3, hle]

theorem build_flat (fresh : ℚ) (lam mu w : List ℚ) (T a b c o1 o2 : Int)
    (hT : T = lam.length + mu.length + w.length) (ha : a = lam.length)
    (hb : b = mu.length) (hc : c = w.length) (ho1 : o1 = lam.length)
    (ho2 : o2 = lam.length + mu.length) :
    ∃ R P1 P2, memory_new fresh T = some R ∧ memcpy R 0 lam 0 a = some P1 ∧
      memcpy P1 o1 mu 0 b = some P2 ∧ memcpy P2 o2 w 0 c = some (lam ++ mu ++ w) := by
  have hTn : T.toNat = lam.length + mu.length + w.length := by omega
  refine ⟨List.replicate T.toNat fresh, lam ++ List.replicate (mu.length + w.length) fresh,
    lam ++ mu ++ List.replicate w.length fresh, memory_new_eq fresh T (by omega), ?_, ?_, ?_⟩
  · have := memcpy_into [] (List.replicate T.toNat fresh) lam 0 a (by simp) ha
      (by rw [List.length_replicate]; omega)
    simp only [List.nil_append] at this
    rw [this, hTn, List.drop_replicate]
    congr 3
    omega
  · have := memcpy_into lam (List.replicate (mu.length + w.length) fresh) mu o1 b ho1 hb
      (by rw [List.length_replicate]; omega)
    rw [this, List.drop_replicate]
    congr 3
    omega
  · have := memcpy_into (lam ++ mu) (List.replicate w.length fresh) w o2 c
      (by rw [ho2, List.length_append]; push_cast; rfl) hc
      (by rw [List.length_replicate])
    rw [this, List.drop_replicate]
    simp

theorem build_flat2 (fresh : ℚ) (lam mu : List ℚ) (T a b o1 : Int)
    (hT : T = lam.length + mu.length) (ha : a = lam.length)
    (hb : b = mu.length) (ho1 : o1 = lam.length) :
    ∃ R P1, memory_new fresh T = some R ∧ memcpy R 0 lam 0 a = some P1 ∧
      memcpy P1 o1 mu 0 b = some (lam ++ mu) := by
  have hTn : T.toNat = lam.length + mu.length := by omega
  refine ⟨List.replicate T.toNat fresh, lam ++ List.replicate mu.length fresh,
    memory_new_eq fresh T (by omega), ?_, ?_⟩
  · have := memcpy_into [] (List.replicate T.toNat fresh) lam 0 a (by simp) ha
      (by rw [List.length_replicate]; omega)
    simp only [List.nil_append] at this
    rw [this, hTn, List.drop_replicate]
    congr 3
    omega
  · have := memcpy_into lam (List.replicate mu.length fresh) mu o1 b ho1 hb
      (by rw [List.length_replicate])
    rw [this, List.drop_replicate]
    simp

theorem build_flat2_bind {β : Type} (fresh : ℚ) (lam mu : List ℚ) (T a b o1 : Int)
    (k : List ℚ → Option β)
    (hT : T = lam.length + mu.length) (ha : a = lam.length)
    (hb : b = mu.length) (ho1 : o1 = lam.length) :
    ((memory_new fresh T).bind fun p => (memcpy p 0 lam 0 a).bind fun p =>
      (memcpy p o1 mu 0 b).bind k) = k (lam ++ mu) := by
  obtain ⟨R, P1, h0, h1, h2⟩ := build_flat2 fresh lam mu T a b o1 hT ha hb ho1
  simp [h0, h1, h2]

theorem build_flat_bind {β : Type} (fresh : ℚ) (lam mu w : List ℚ) (T a b c o1 o2 : Int)
    (k : List ℚ → Option β)
    (hT : T = lam.length + mu.length + w.length) (ha : a = lam.length)
    (hb : b = mu.length) (hc : c = w.length) (ho1 : o1 = lam.length)
    (ho2 : o2 = lam.length + mu.length) :
    ((memory_new fresh T).bind fun p => (memcpy p 0 lam 0 a).bind fun p =>
      (memcpy p o1 mu 0 b).bind fun p => (memcpy p o2 w 0 c).bind k)
      = k (lam ++ mu ++ w) := by
  obtain ⟨R, P1, P2, h0, h1, h2, h3⟩ :=
    build_flat fresh lam mu w T a b c o1 o2 hT ha hb hc ho1 ho2
  simp [h0, h1, h2, h3]

theorem set_setup_ready (fresh : ℚ) (cp : CafeParam) (tmp : TmpParam) (nL K f e : Int)
    (lam mu w : List ℚ)
    (hK : K = 0 ∨ 1 ≤ K)
    (htmpK : tmp.parameterized_k_value = K) (htmpf : tmp.fixcluster0 = f)
    (htmpe : tmp.eqbg = e)
    (htree : tmp.lambda_tree.isSome = true →
      tmp.num_lambdas = nL ∧ tmp.num_mus = nL ∧ cp.num_lambdas = nL)
    (hnotree : tmp.lambda_tree.isSome = false → nL = 1 ∧ e = 0)
    (hlam : src tmp.lambda = lam) (hmu : src tmp.mu = mu) (hw : src tmp.k_weights = w)
    (hl : (lam.length : Int) = region_lambda nL K f)
    (hm : (mu.length : Int) = region_mu nL K f e)
    (hwl : (w.length : Int) = region_weight K)
    (hsum : tmp.num_params = lam.length + mu.length + w.length) :
    ∃ cpt, set_setup fresh cp tmp = some (.ready cpt) ∧
      cpt.parameters = some (lam ++ mu ++ w) ∧
      cpt.num_params = lam.length + mu.length + w.length ∧
      cpt.num_lambdas = nL ∧
      cpt.parameterized_k_value = (if 1 ≤ K then K else cp.parameterized_k_value) ∧
      cpt.fixcluster0 = (if 1 ≤ K then f else cp.fixcluster0) ∧
      cpt.eqbg = (if tmp.lambda_tree.isSome then e else cp.eqbg) := by
  rcases hK with hK0 | hK1
  · -- no clusters
    subst hK0
    simp only [region_lambda, region_mu, region_weight, show ¬ ((1 : Int) ≤ 0) by decide,
      if_false] at hl hm hwl
    have hw0 : w = [] := List.length_eq_zero.mp (by exact_mod_cast hwl)
    subst hw0
    cases ht : tmp.lambda_tree.isSome
    · obtain ⟨hnL1, he0⟩ := hnotree ht
      subst hnL1 he0
      simp [set_setup, ht, htmpK, htmpe, hsum, hl, hm, hlam, hmu]
      rw [build_flat2_bind fresh lam mu _ _ _ _ _ (by omega) (by omega) (by omega) (by omega)]
      simp
    · obtain ⟨h1, h2, h3⟩ := htree ht
      simp [set_setup, ht, htmpK, htmpe, hsum, hl, hm, hlam, hmu, h1, h2, h3]
      rw [build_flat2_bind fresh lam mu _ _ _ _ _ (by omega) (by omega) (by omega) (by omega)]
      simp
  · have hK0 : 0 < K := by omega
    simp only [region_lambda, region_mu, region_weight, hK1, if_true] at hl hm hwl
    cases ht : tmp.lambda_tree.isSome
    · obtain ⟨hnL1, he0⟩ := hnotree ht
      subst hnL1 he0
      simp [set_setup, ht, htmpK, htmpe, htmpf, hsum, hl, hm, hwl, hlam, hmu, hw, hK0, hK1]
      rw [build_flat_bind fresh lam mu w _ _ _ _ _ _ _ (by omega) (by omega) (by omega)
        (by omega) (by omega) (by omega)]
      simp [memory_new, show (1 : Int) ≤ K from hK1]
    · obtain ⟨h1, h2, h3⟩ := htree ht
      simp [set_setup, ht, htmpK, htmpe, htmpf, hsum, hl, hm, hwl, hlam, hmu, hw, hK0, hK1,
        h1, h2, h3]
      rw [build_flat_bind fresh lam mu w _ _ _ _ _ _ _ (by omega) (by omega) (by omega)
        (by omega) (by omega) (by omega)]
      simp [memory_new, show (1 : Int) ≤ K from hK1]

theorem search_setup_ready (fresh : ℚ) (cp : CafeParam) (tmp : TmpParam) (nL K f e : Int)
    (hK : K = 0 ∨ 1 ≤ K) (hf : f = 0 ∨ f = 1) (he : e = 0 ∨ e = 1) (hnL : 1 ≤ nL)
    (htmpK : tmp.parameterized_k_value = K) (htmpf : tmp.fixcluster0 = f)
    (htmpe : tmp.eqbg = e)
    (htree : tmp.lambda_tree.isSome = true →
      tmp.num_lambdas = nL ∧ tmp.num_mus = nL ∧ cp.num_lambdas = nL)
    (hnotree : tmp.lambda_tree.isSome = false → nL = 1 ∧ e = 0) :
    ∃ cps, search_setup fresh cp tmp = some (.ready cps) ∧
      cps.num_params = region_lambda nL K f + region_mu nL K f e + region_weight K := by
  have hreg : 0 ≤ region_lambda nL K f + region_mu nL K f e + region_weight K := by
    rcases hK with h | h <;> rcases hf with rfl | rfl <;> rcases he with rfl | rfl <;>
      simp [region_lambda, region_mu, region_weight, h] <;> nlinarith
  rcases hK with hK0 | hK1
  · subst hK0
    simp only [region_lambda, region_mu, region_weight, show ¬ ((1 : Int) ≤ 0) by decide,
      if_false] at hreg ⊢
    cases ht : tmp.lambda_tree.isSome
    · obtain ⟨hnL1, he0⟩ := hnotree ht
      subst hnL1 he0
      simp [search_setup, ht, htmpK, htmpe, memory_new]
    · obtain ⟨h1, h2, h3⟩ := htree ht
      have : 0 ≤ nL + (nL - e) := by omega
      simp [search_setup, ht, htmpK, htmpe, h1, h2, memory_new, this]
  · have hK0 : 0 < K := by omega
    have hK2 : 0 ≤ K := by omega
    simp only [region_lambda, region_mu, region_weight, hK1, if_true] at hreg ⊢
    cases ht : tmp.lambda_tree.isSome
    · obtain ⟨hnL1, he0⟩ := hnotree ht
      subst hnL1 he0
      have : 0 ≤ K - f + (K - f) + (K - 1) := by simpa using hreg
      simp [search_setup, ht, htmpK, htmpe, htmpf, memory_new, hK0, hK2, this]
    · obtain ⟨h1, h2, h3⟩ := htree ht
      simp [search_setup, ht, htmpK, htmpe, htmpf, h1, h2, memory_new, hK0, hK2, hreg]

/-- C1. In every accepted mode the total `num_params` computed by the search
arm and by the set arm of `cafe_cmd_lambda_mu` is the sum of the three region
sizes, and the set arm fills the vector with exactly the supplied lambda, mu
and weight values, one region after the other. The mode is read off the local
parameters `tmp` as the option loop leaves them: with a rate tree the class
counts are those of the tree (`nL = nM`, also stored in `cp.num_lambdas`),
without one the command itself sets `nL = nM = 1` and refuses `eqbg`. -/
theorem C1_num_params_is_sum_of_regions (fresh : ℚ) (cp : CafeParam) (tmp : TmpParam)
    (nL K f e : Int)
    (hK : K = 0 ∨ 1 ≤ K) (hf : f = 0 ∨ f = 1) (he : e = 0 ∨ e = 1) (hnL : 1 ≤ nL)
    (htmpK : tmp.parameterized_k_value = K) (htmpf : tmp.fixcluster0 = f)
    (htmpe : tmp.eqbg = e)
    (htree : tmp.lambda_tree.isSome = true →
      tmp.num_lambdas = nL ∧ tmp.num_mus = nL ∧ cp.num_lambdas = nL)
    (hnotree : tmp.lambda_tree.isSome = false → nL = 1 ∧ e = 0) :
    (∃ cps, search_setup fresh cp tmp = some (.ready cps) ∧
      cps.num_params = region_lambda nL K f + region_mu nL K f e + region_weight K) ∧
    (∀ lam mu w : List ℚ,
      src tmp.lambda = lam → src tmp.mu = mu → src tmp.k_weights = w →
      (lam.length : Int) = region_lambda nL K f →
      (mu.length : Int) = region_mu nL K f e →
      (w.length : Int) = region_weight K →
      tmp.num_params = lam.length + mu.length + w.length →
      ∃ cpt, set_setup fresh cp tmp = some (.ready cpt) ∧
        cpt.num_params = region_lambda nL K f + region_mu nL K f e + region_weight K ∧
        cpt.parameters = some (lam ++ mu ++ w)) := by
  refine ⟨search_setup_ready fresh cp tmp nL K f e hK hf he hnL htmpK htmpf htmpe htree hnotree,
    ?_⟩
  intro lam mu w hlam hmu hw hl hm hwl hsum
  obtain ⟨cpt, h1, h2, h3, -⟩ := set_setup_ready fresh cp tmp nL K f e lam mu w hK htmpK htmpf
    htmpe htree hnotree hlam hmu hw hl hm hwl hsum
  exact ⟨cpt, h1, by rw [h3, hl, hm, hwl], h2⟩

/-- Witness for C1: rate tree with two classes, two clusters, first cluster
fixed, equal background; the regions have sizes 2, 1 and 1. -/
theorem C1_num_params_is_sum_of_regions_witness :
    (∃ cps, search_setup 0 cafe_param_example tmp_param_example = some (.ready cps) ∧
      cps.num_params = region_lambda 2 2 1 + region_mu 2 2 1 1 + region_weight 2) ∧
    (∃ cpt, set_setup 0 cafe_param_example tmp_param_example = some (.ready cpt) ∧
      cpt.num_params = region_lambda 2 2 1 + region_mu 2 2 1 1 + region_weight 2 ∧
      cpt.parameters = some ([1/2, 1/3] ++ [1/4] ++ [1/5])) :=
  have h := C1_num_params_is_sum_of_regions 0 cafe_param_example tmp_param_example 2 2 1 1
    (by decide) (by decide) (by decide) (by decide) rfl rfl rfl
    (fun _ => ⟨rfl, rfl, rfl⟩) (fun h => by simp [tmp_param_example] at h)
  ⟨h.1, h.2 [1/2, 1/3] [1/4] [1/5] rfl rfl rfl (by decide) (by decide) (by decide)
    (by decide)⟩

theorem dec_all {β : Type} (fresh : ℚ) (a : List ℚ) (off n : Int) (k : List ℚ → Option β)
    (hn : 0 ≤ n) (h0 : 0 ≤ off) (h : off + n ≤ a.length) :
    ((memory_new fresh n).bind fun pl => (memcpy pl 0 a off n).bind k)
      = k ((a.drop off.toNat).take n.toNat) := by
  rw [memory_new_eq fresh n hn, Option.some_bind, memcpy_fresh fresh a off n hn,
    slice_eq a off n h0 hn h, Option.some_bind]

theorem dec_tail {β : Type} (fresh : ℚ) (a : List ℚ) (off n : Int) (k : List ℚ → Option β)
    (hn : 1 ≤ n) (h0 : 0 ≤ off) (h : off + (n - 1) ≤ a.length) :
    ((memory_new fresh n).bind fun pl => (wr pl 0 0).bind fun pl =>
      (memcpy pl 1 a off (n - 1)).bind k)
      = k (0 :: (a.drop off.toNat).take (n - 1).toNat) := by
  have := memcpy_fresh_tail fresh a off n hn
  rw [slice_eq a off (n - 1) h0 (by omega) h] at this
  rw [memory_new_eq fresh n (by omega), Option.some_bind]
  cases hw : wr (List.replicate n.toNat fresh) 0 0 with
  | none => rw [hw] at this; simp at this
  | some pl =>
    rw [hw, Option.some_bind] at this
    rw [Option.some_bind, this]
    simp

theorem rd_flat_lam (lam mu w : List ℚ) (i : Int) (h : i < lam.length) :
    rd (lam ++ mu ++ w) i = rd lam i := by
  rw [rd_append_left _ _ _ (by rw [List.length_append]; push_cast; omega),
    rd_append_left _ _ _ h]

theorem rd_flat_mu (lam mu w : List ℚ) (i j : Int) (hj : j = lam.length + i) (h0 : 0 ≤ i)
    (h : i < mu.length) : rd (lam ++ mu ++ w) j = rd mu i := by
  subst hj
  rw [rd_append_left _ _ _ (by rw [List.length_append]; push_cast; omega),
    rd_append_right _ _ _ (by omega)]
  congr 1
  omega

theorem dec_copy {β : Type} (fresh : ℚ) (pl : List ℚ) (n m : Int) (k : List ℚ → Option β)
    (hm : 0 ≤ m) (hmn : m ≤ n) (h : m ≤ pl.length) :
    ((memory_new fresh n).bind fun pm => (memcpy pm 0 pl 0 m).bind k)
      = k (pl.take m.toNat ++ List.replicate (n.toNat - m.toNat) fresh) := by
  rw [memory_new_eq fresh n (by omega), Option.some_bind]
  have h1 : (0 : Int) ≤ 0 ∧ 0 + m ≤ ((List.replicate n.toNat fresh).length : Int) := by
    rw [List.length_replicate]; omega
  have h2 : slice pl 0 m = some (pl.take m.toNat) := by
    rw [slice_eq pl 0 m (le_refl _) hm (by omega)]; simp
  simp [memcpy, h1, h2, hmn]

theorem rd_tail (a : List ℚ) (off n k : Int) (h0 : 0 ≤ off) (hk1 : 1 ≤ k) (hk : k < n + 1) :
    rd (0 :: (a.drop off.toNat).take n.toNat) k = rd a (off + (k - 1)) := by
  rw [rd_cons_succ _ _ _ hk1, rd_take_drop a off n (k - 1) h0 (by omega) (by omega)]

theorem rd_head (r : List ℚ) : rd ((0 : ℚ) :: r) 0 = some 0 := by
  simp [rd]


theorem decode2_f0_e0 (fresh : ℚ) (probs : probabilities) (K nL L : Int)
    (flat : List ℚ) (hK : 1 ≤ K) (hL0 : 0 ≤ L) (hLn : L < nL)
    (hlen : nL * K + nL * K ≤ flat.length) :
    set_birth_death_probabilities2 fresh probs K nL 0 L 0 flat
      = some ⟨-1, -1, some (cells flat (L * K) K), some (cells flat (nL * K + L * K) K)⟩ := by
  have hK0 : 0 < K := by omega
  have h1 : 0 ≤ L * K := mul_nonneg hL0 (by omega)
  have h2 : L * K + K ≤ nL * K := by nlinarith
  have h5 : 0 ≤ nL * K := by nlinarith
  simp [set_birth_death_probabilities2, hK0, free_probabilities, cells]
  rw [dec_all fresh _ _ _ _ (by omega) h1 (by linarith)]
  rw [dec_all fresh _ _ _ _ (by omega) (by linarith) (by linarith)]

theorem decode2_f0_e1_L0 (fresh : ℚ) (probs : probabilities) (K nL : Int)
    (flat : List ℚ) (hK : 1 ≤ K) (hLn : 0 < nL)
    (hlen : nL * K + (nL - 1) * K ≤ flat.length) :
    set_birth_death_probabilities2 fresh probs K nL 0 0 1 flat
      = some ⟨-1, -1, some (cells flat 0 K), some (cells flat 0 K)⟩ := by
  have hK0 : 0 < K := by omega
  have h2 : K ≤ nL * K := by nlinarith
  have h6 : 0 ≤ (nL - 1) * K := mul_nonneg (by omega) (by omega)
  have hc : ((cells flat 0 K).length : Int) = K := by
    simp only [cells, List.length_take, List.length_drop]; omega
  simp [set_birth_death_probabilities2, hK0, free_probabilities]
  rw [dec_all fresh _ _ _ _ (by omega) (le_refl _) (by linarith)]
  rw [dec_copy fresh _ _ _ _ (by omega) (le_refl _) (by rw [← cells, hc])]
  rw [← cells, List.take_of_length_le (by omega)]
  simp

theorem decode2_f0_e1 (fresh : ℚ) (probs : probabilities) (K nL L : Int)
    (flat : List ℚ) (hK : 1 ≤ K) (hL1 : 1 ≤ L) (hLn : L < nL)
    (hlen : nL * K + (nL - 1) * K ≤ flat.length) :
    set_birth_death_probabilities2 fresh probs K nL 0 L 1 flat
      = some ⟨-1, -1, some (cells flat (L * K) K),
          some (cells flat (nL * K + (L - 1) * K) K)⟩ := by
  have hK0 : 0 < K := by omega
  have hL : L ≠ 0 := by omega
  have h1 : 0 ≤ L * K := mul_nonneg (by omega) (by omega)
  have h2 : L * K + K ≤ nL * K := by nlinarith
  have h3 : 0 ≤ (L - 1) * K := mul_nonneg (by omega) (by omega)
  have h4 : (L - 1) * K + K ≤ (nL - 1) * K := by nlinarith
  have h5 : 0 ≤ nL * K := by nlinarith
  simp [set_birth_death_probabilities2, hK0, free_probabilities, cells, hL]
  rw [dec_all fresh _ _ _ _ (by omega) h1 (by linarith)]
  rw [dec_all fresh _ _ _ _ (by omega) (by linarith) (by linarith)]

theorem decode2_f1_e0 (fresh : ℚ) (probs : probabilities) (K nL L : Int)
    (flat : List ℚ) (hK : 1 ≤ K) (hL0 : 0 ≤ L) (hLn : L < nL)
    (hlen : nL * (K - 1) + nL * (K - 1) ≤ flat.length) :
    set_birth_death_probabilities2 fresh probs K nL 1 L 0 flat
      = some ⟨-1, -1, some (0 :: cells flat (L * (K - 1)) (K - 1)),
          some (0 :: cells flat (nL * (K - 1) + L * (K - 1)) (K - 1))⟩ := by
  have hK0 : 0 < K := by omega
  have h1 : 0 ≤ L * (K - 1) := mul_nonneg hL0 (by omega)
  have h2 : L * (K - 1) + (K - 1) ≤ nL * (K - 1) := by nlinarith
  have h5 : 0 ≤ nL * (K - 1) := by nlinarith
  simp [set_birth_death_probabilities2, hK0, free_probabilities, cells]
  rw [dec_tail fresh _ _ _ _ hK h1 (by linarith)]
  rw [dec_tail fresh _ _ _ _ hK (by linarith) (by linarith)]
  simp

theorem decode2_f1_e1_L0 (fresh : ℚ) (probs : probabilities) (K nL : Int)
    (flat : List ℚ) (hK : 1 ≤ K) (hLn : 0 < nL)
    (hlen : nL * (K - 1) + (nL - 1) * (K - 1) ≤ flat.length) :
    set_birth_death_probabilities2 fresh probs K nL 1 0 1 flat
      = some ⟨-1, -1, some (0 :: cells flat 0 (K - 1)),
          some ((0 :: cells flat 0 (K - 1)).take (K - 1).toNat ++ [fresh])⟩ := by
  have hK0 : 0 < K := by omega
  have h2 : K - 1 ≤ nL * (K - 1) := by nlinarith
  have h6 : 0 ≤ (nL - 1) * (K - 1) := mul_nonneg (by omega) (by omega)
  have hc : ((cells flat 0 (K - 1)).length : Int) = K - 1 := by
    simp only [cells, List.length_take, List.length_drop]; omega
  have hr : K.toNat - (K - 1).toNat = 1 := by omega
  simp [set_birth_death_probabilities2, hK0, free_probabilities]
  rw [dec_tail fresh _ _ _ _ hK (le_refl _) (by linarith)]
  rw [dec_copy fresh _ _ _ _ (by omega) (by omega)
    (by rw [← cells, List.length_cons]; push_cast; omega)]
  rw [hr, ← cells]
  simp

theorem decode2_f1_e1 (fresh : ℚ) (probs : probabilities) (K nL L : Int)
    (flat : List ℚ) (hK : 1 ≤ K) (hL1 : 1 ≤ L) (hLn : L < nL)
    (hlen : nL * (K - 1) + (nL - 1) * (K - 1) ≤ flat.length) :
    set_birth_death_probabilities2 fresh probs K nL 1 L 1 flat
      = some ⟨-1, -1, some (0 :: cells flat (L * (K - 1)) (K - 1)),
          some (0 :: cells flat (nL * (K - 1) + (L - 1) * (K - 1)) (K - 1))⟩ := by
  have hK0 : 0 < K := by omega
  have hL : L ≠ 0 := by omega
  have h1 : 0 ≤ L * (K - 1) := mul_nonneg (by omega) (by omega)
  have h2 : L * (K - 1) + (K - 1) ≤ nL * (K - 1) := by nlinarith
  have h3 : 0 ≤ (L - 1) * (K - 1) := mul_nonneg (by omega) (by omega)
  have h4 : (L - 1) * (K - 1) + (K - 1) ≤ (nL - 1) * (K - 1) := by nlinarith
  have h5 : 0 ≤ nL * (K - 1) := by nlinarith
  simp [set_birth_death_probabilities2, hK0, free_probabilities, cells, hL]
  rw [dec_tail fresh _ _ _ _ hK h1 (by linarith)]
  rw [dec_tail fresh _ _ _ _ hK (by linarith) (by linarith)]
  simp

theorem decode1_f0 (fresh : ℚ) (probs : probabilities) (K nL : Int)
    (flat : List ℚ) (hK : 1 ≤ K) (hLn : 0 < nL)
    (hlen : nL * K + K ≤ flat.length) :
    set_birth_death_probabilities fresh probs K nL 0 flat
      = some ⟨-1, -1, some (cells flat 0 K), some (cells flat (nL * K) K)⟩ := by
  have hK0 : ¬ K < 1 := by omega
  have h5 : 0 ≤ nL * K := by nlinarith
  have h2 : K ≤ nL * K := by nlinarith
  simp [set_birth_death_probabilities, hK0, free_probabilities, cells]
  rw [dec_all fresh _ _ _ _ (by omega) (le_refl _) (by linarith)]
  rw [dec_all fresh _ _ _ _ (by omega) (by linarith) (by linarith)]
  simp

theorem decode1_f1 (fresh : ℚ) (probs : probabilities) (K nL : Int)
    (flat : List ℚ) (hK : 1 ≤ K) (hLn : 0 < nL)
    (hlen : nL * (K - 1) + (K - 1) ≤ flat.length) :
    set_birth_death_probabilities fresh probs K nL 1 flat
      = some ⟨-1, -1, some (0 :: cells flat 0 (K - 1)),
          some (0 :: cells flat (nL * (K - 1)) (K - 1))⟩ := by
  have hK0 : ¬ K < 1 := by omega
  have h5 : 0 ≤ nL * (K - 1) := by nlinarith
  have h2 : K - 1 ≤ nL * (K - 1) := by nlinarith
  simp [set_birth_death_probabilities, hK0, free_probabilities, cells]
  rw [dec_tail fresh _ _ _ _ hK (le_refl _) (by linarith)]
  rw [dec_tail fresh _ _ _ _ hK (by linarith) (by linarith)]
  simp

theorem decode3_f0 (fresh : ℚ) (probs : probabilities) (K nL : Int)
    (flat : List ℚ) (hK : 1 ≤ K) (hlen : K ≤ flat.length) :
    set_birth_death_probabilities3 fresh probs K nL 0 flat
      = some ⟨-1, -1, some (cells flat 0 K), none⟩ := by
  have hK0 : 0 < K := by omega
  simp [set_birth_death_probabilities3, hK0, free_probabilities, cells]
  rw [dec_all fresh _ _ _ _ (by omega) (le_refl _) (by linarith)]
  simp

theorem decode3_f1 (fresh : ℚ) (probs : probabilities) (K nL : Int)
    (flat : List ℚ) (hK : 1 ≤ K) (hlen : K - 1 ≤ flat.length) :
    set_birth_death_probabilities3 fresh probs K nL 1 flat
      = some ⟨-1, -1, some (0 :: cells flat 0 (K - 1)), none⟩ := by
  have hK0 : 0 < K := by omega
  simp [set_birth_death_probabilities3, hK0, free_probabilities, cells]
  rw [dec_tail fresh _ _ _ _ hK (le_refl _) (by linarith)]
  simp

theorem decode4_f0 (fresh : ℚ) (probs : probabilities) (K nL L e : Int)
    (flat : List ℚ) (hK : 1 ≤ K) (hL0 : 0 ≤ L) (hlen : L * K + K ≤ flat.length) :
    set_birth_death_probabilities4 fresh probs K nL 0 L e flat
      = some ⟨-1, -1, some (cells flat (L * K) K), none⟩ := by
  have hK0 : 0 < K := by omega
  have h1 : 0 ≤ L * K := mul_nonneg hL0 (by omega)
  simp [set_birth_death_probabilities4, hK0, free_probabilities, cells]
  rw [dec_all fresh _ _ _ _ (by omega) h1 (by linarith)]

theorem decode4_f1 (fresh : ℚ) (probs : probabilities) (K nL L e : Int)
    (flat : List ℚ) (hK : 1 ≤ K) (hL0 : 0 ≤ L)
    (hlen : L * (K - 1) + (K - 1) ≤ flat.length) :
    set_birth_death_probabilities4 fresh probs K nL 1 L e flat
      = some ⟨-1, -1, some (0 :: cells flat (L * (K - 1)) (K - 1)), none⟩ := by
  have hK0 : 0 < K := by omega
  have h1 : 0 ≤ L * (K - 1) := mul_nonneg hL0 (by omega)
  simp [set_birth_death_probabilities4, hK0, free_probabilities, cells]
  rw [dec_tail fresh _ _ _ _ hK h1 (by linarith)]
  simp

theorem rd_cells (a : List ℚ) (off n k : Int) (h0 : 0 ≤ off) (hk0 : 0 ≤ k) (hk : k < n) :
    rd (cells a off n) k = rd a (off + k) :=
  rd_take_drop a off n k h0 hk0 hk

theorem rd_cells_tail (a : List ℚ) (off n k : Int) (h0 : 0 ≤ off) (hk1 : 1 ≤ k)
    (hk : k < n + 1) :
    rd (0 :: cells a off n) k = rd a (off + (k - 1)) :=
  rd_tail a off n k h0 hk1 hk

theorem decode2_scalar (fresh : ℚ) (probs : probabilities) (K nL f L e : Int)
    (flat : List ℚ) (hK : K ≤ 0) (he : e = 0 ∨ e = 1) (hL0 : 0 ≤ L) (hLn : L < nL)
    (hlen : nL + (nL - e) ≤ flat.length) :
    ∃ l m, rd flat L = some l ∧
      set_birth_death_probabilities2 fresh probs K nL f L e flat
        = some { probs with lambda := l, mu := m } ∧
      (e ≤ L → rd flat (nL + (L - e)) = some m) := by
  have hK0 : ¬ 0 < K := by omega
  obtain ⟨l, hl⟩ := rd_of_lt flat L hL0 (by omega)
  rcases he with rfl | rfl
  · obtain ⟨m, hm⟩ := rd_of_lt flat (nL + L) (by omega) (by omega)
    refine ⟨l, m, hl, ?_, fun _ => by simpa using hm⟩
    simp [set_birth_death_probabilities2, hK0, hl, hm]
  · by_cases hL : L = 0
    · subst hL
      refine ⟨l, l, hl, ?_, fun h => by omega⟩
      simp [set_birth_death_probabilities2, hK0, hl]
    · obtain ⟨m, hm⟩ := rd_of_lt flat (nL + (L - 1)) (by omega) (by omega)
      refine ⟨l, m, hl, ?_, fun _ => hm⟩
      simp [set_birth_death_probabilities2, hK0, hl, hm, hL]

theorem decode1_scalar (fresh : ℚ) (probs : probabilities) (K nL f : Int)
    (flat : List ℚ) (hK : K ≤ 0) (hLn : 0 < nL) (hlen : nL + 1 ≤ flat.length) :
    ∃ l m, rd flat 0 = some l ∧ rd flat nL = some m ∧
      set_birth_death_probabilities fresh probs K nL f flat
        = some { probs with lambda := l, mu := m } := by
  have hK0 : K < 1 := by omega
  obtain ⟨l, hl⟩ := rd_of_lt flat 0 (le_refl _) (by omega)
  obtain ⟨m, hm⟩ := rd_of_lt flat nL (by omega) (by omega)
  refine ⟨l, m, hl, hm, ?_⟩
  simp [set_birth_death_probabilities, hK0, hl, hm]

/-- Cluster mode of the decoder used with a rate tree: stored cluster `k` of
class `L` comes from flat index `L*(K-f)+(k-f)` (lambda) and, unless the class
is the tied background, `nL*(K-f)+(L-e)*(K-f)+(k-f)` (mu). -/
theorem decode2_clusters (fresh : ℚ) (probs : probabilities) (K nL f L e : Int)
    (flat : List ℚ) (hK : 1 ≤ K) (hf : f = 0 ∨ f = 1) (he : e = 0 ∨ e = 1)
    (hL0 : 0 ≤ L) (hLn : L < nL)
    (hlen : nL * (K - f) + (nL - e) * (K - f) ≤ flat.length) :
    ∃ pl pm, set_birth_death_probabilities2 fresh probs K nL f L e flat
        = some ⟨-1, -1, some pl, some pm⟩ ∧
      (∀ k, f ≤ k → k < K → rd pl k = rd flat (L * (K - f) + (k - f))) ∧
      (e ≤ L → ∀ k, f ≤ k → k < K →
        rd pm k = rd flat (nL * (K - f) + (L - e) * (K - f) + (k - f))) := by
  have hD : 0 ≤ K - f := by omega
  have h1 : 0 ≤ L * (K - f) := mul_nonneg hL0 hD
  have h5 : 0 ≤ nL * (K - f) := mul_nonneg (by omega) hD
  have h3 : e ≤ L → 0 ≤ (L - e) * (K - f) := fun h => mul_nonneg (by omega) hD
  rcases hf with rfl | rfl
  · simp only [sub_zero] at *
    rcases he with rfl | rfl
    · simp only [sub_zero] at *
      refine ⟨_, _, decode2_f0_e0 fresh probs K nL L flat hK hL0 hLn hlen, ?_, ?_⟩
      · intro k hk0 hk
        exact rd_cells flat _ _ k h1 hk0 hk
      · intro _ k hk0 hk
        exact rd_cells flat _ _ k (by linarith) hk0 hk
    · by_cases hL : L = 0
      · subst hL
        refine ⟨_, _, decode2_f0_e1_L0 fresh probs K nL flat hK hLn hlen, ?_, ?_⟩
        · intro k hk0 hk
          rw [rd_cells flat _ _ k (le_refl _) hk0 hk]
          simp
        · intro h; omega
      · have hL1 : 1 ≤ L := by omega
        refine ⟨_, _, decode2_f0_e1 fresh probs K nL L flat hK hL1 hLn hlen, ?_, ?_⟩
        · intro k hk0 hk
          exact rd_cells flat _ _ k h1 hk0 hk
        · intro h k hk0 hk
          exact rd_cells flat _ _ k (by have := h3 h; linarith) hk0 hk
  · rcases he with rfl | rfl
    · simp only [sub_zero] at *
      refine ⟨_, _, decode2_f1_e0 fresh probs K nL L flat hK hL0 hLn hlen, ?_, ?_⟩
      · intro k hk0 hk
        exact rd_cells_tail flat _ _ k h1 hk0 (by omega)
      · intro _ k hk0 hk
        exact rd_cells_tail flat _ _ k (by linarith) hk0 (by omega)
    · by_cases hL : L = 0
      · subst hL
        refine ⟨_, _, decode2_f1_e1_L0 fresh probs K nL flat hK hLn hlen, ?_, ?_⟩
        · intro k hk0 hk
          rw [rd_cells_tail flat _ _ k (le_refl _) hk0 (by omega)]
          simp
        · intro h; omega
      · have hL1 : 1 ≤ L := by omega
        refine ⟨_, _, decode2_f1_e1 fresh probs K nL L flat hK hL1 hLn hlen, ?_, ?_⟩
        · intro k hk0 hk
          exact rd_cells_tail flat _ _ k h1 hk0 (by omega)
        · intro h k hk0 hk
          exact rd_cells_tail flat _ _ k (by have := h3 h; linarith) hk0 (by omega)

/-- Cluster mode of the decoder used without a rate tree. -/
theorem decode1_clusters (fresh : ℚ) (probs : probabilities) (K nL f : Int)
    (flat : List ℚ) (hK : 1 ≤ K) (hf : f = 0 ∨ f = 1) (hLn : 0 < nL)
    (hlen : nL * (K - f) + (K - f) ≤ flat.length) :
    ∃ pl pm, set_birth_death_probabilities fresh probs K nL f flat
        = some ⟨-1, -1, some pl, some pm⟩ ∧
      (∀ k, f ≤ k → k < K → rd pl k = rd flat (k - f)) ∧
      (∀ k, f ≤ k → k < K → rd pm k = rd flat (nL * (K - f) + (k - f))) := by
  have hD : 0 ≤ K - f := by omega
  have h5 : 0 ≤ nL * (K - f) := mul_nonneg (by omega) hD
  rcases hf with rfl | rfl
  · simp only [sub_zero] at *
    refine ⟨_, _, decode1_f0 fresh probs K nL flat hK hLn hlen, ?_, ?_⟩
    · intro k hk0 hk
      rw [rd_cells flat _ _ k (le_refl _) hk0 hk]
      simp
    · intro k hk0 hk
      exact rd_cells flat _ _ k h5 hk0 hk
  · refine ⟨_, _, decode1_f1 fresh probs K nL flat hK hLn hlen, ?_, ?_⟩
    · intro k hk0 hk
      rw [rd_cells_tail flat _ _ k (le_refl _) hk0 (by omega)]
      simp
    · intro k hk0 hk
      exact rd_cells_tail flat _ _ k h5 hk0 (by omega)

/-- C2. Round trip: the vector built by the set arm of `cafe_cmd_lambda_mu`
from supplied lambda, mu and weight arrays of exactly the region sizes is
decoded by `set_birth_death_probabilities2` (rate tree, label `L`) or
`set_birth_death_probabilities` (no rate tree) to the supplied values: with
clusters, stored cluster `k` of class `L` gets `lam[L*(K-f)+(k-f)]` and, for
`L >= e`, `mu[(L-e)*(K-f)+(k-f)]`; without clusters it gets `lam[L]` and, for
`L >= e`, `mu[L-e]`. The decoders are called with the mode fields of the state
the set arm leaves, as `cafe_shell_set_lambda_mu` calls them; `cp` is the state
before the arm, with the cluster count reset to 0 by the first statements of
the command. -/
theorem C2_set_then_decode_round_trip (fresh : ℚ) (cp : CafeParam) (tmp : TmpParam)
    (nL K f e : Int) (lam mu w : List ℚ) (probs : probabilities) (L : Int)
    (hK : K = 0 ∨ 1 ≤ K) (hf : f = 0 ∨ f = 1) (he : e = 0 ∨ e = 1)
    (htmpK : tmp.parameterized_k_value = K) (htmpf : tmp.fixcluster0 = f)
    (htmpe : tmp.eqbg = e)
    (htree : tmp.lambda_tree.isSome = true →
      tmp.num_lambdas = nL ∧ tmp.num_mus = nL ∧ cp.num_lambdas = nL)
    (hnotree : tmp.lambda_tree.isSome = false → nL = 1 ∧ e = 0)
    (hcpK : cp.parameterized_k_value = 0)
    (hlam : src tmp.lambda = lam) (hmu : src tmp.mu = mu) (hw : src tmp.k_weights = w)
    (hl : (lam.length : Int) = region_lambda nL K f)
    (hm : (mu.length : Int) = region_mu nL K f e)
    (hwl : (w.length : Int) = region_weight K)
    (hsum : tmp.num_params = lam.length + mu.length + w.length)
    (hL0 : 0 ≤ L) (hLn : L < nL) :
    ∃ cpt flat out,
      set_setup fresh cp tmp = some (.ready cpt) ∧ cpt.parameters = some flat ∧
      (if tmp.lambda_tree.isSome then
        set_birth_death_probabilities2 fresh probs cpt.parameterized_k_value cpt.num_lambdas
          cpt.fixcluster0 L cpt.eqbg flat
      else
        set_birth_death_probabilities fresh probs cpt.parameterized_k_value cpt.num_lambdas
          cpt.fixcluster0 flat) = some out ∧
      (1 ≤ K → ∃ pl pm, out.param_lambdas = some pl ∧ out.param_mus = some pm ∧
        ∀ k, f ≤ k → k < K →
          (∃ v, rd lam (L * (K - f) + (k - f)) = some v ∧ rd pl k = some v) ∧
          (e ≤ L → ∃ v, rd mu ((L - e) * (K - f) + (k - f)) = some v ∧ rd pm k = some v)) ∧
      (K = 0 → rd lam L = some out.lambda ∧ (e ≤ L → rd mu (L - e) = some out.mu)) := by
  obtain ⟨cpt, hset, hpar, -, hcnL, hcK, hcf, hce⟩ := set_setup_ready fresh cp tmp nL K f e
    lam mu w hK htmpK htmpf htmpe htree hnotree hlam hmu hw hl hm hwl hsum
  have hflat : ((lam ++ mu ++ w).length : Int) = lam.length + mu.length + w.length := by
    simp only [List.length_append]; push_cast; ring
  have hwpos : (0 : Int) ≤ w.length := by omega
  refine ⟨cpt, lam ++ mu ++ w, ?_⟩
  rw [hcnL]
  rcases hK with hK0 | hK1
  · -- no clusters
    subst hK0
    simp only [region_lambda, region_mu, region_weight, show ¬ ((1 : Int) ≤ 0) by decide,
      if_false] at hl hm hwl
    have hcK0 : cpt.parameterized_k_value = 0 := by rw [hcK, if_neg (by decide), hcpK]
    rw [hcK0]
    cases ht : tmp.lambda_tree.isSome
    · obtain ⟨hnL1, he0⟩ := hnotree ht
      subst hnL1 he0
      have hL : L = 0 := by omega
      subst hL
      obtain ⟨l, m, h1, h2, h3⟩ := decode1_scalar fresh probs 0 1 cpt.fixcluster0
        (lam ++ mu ++ w) (le_refl _) (by decide) (by rw [hflat]; omega)
      rw [rd_flat_lam lam mu w 0 (by omega)] at h1
      rw [rd_flat_mu lam mu w 0 1 (by omega) (le_refl _) (by omega)] at h2
      rw [if_neg Bool.false_ne_true]
      exact ⟨_, hset, hpar, h3, fun h => by omega, fun _ => ⟨h1, fun _ => by simpa using h2⟩⟩
    · have hce1 : cpt.eqbg = e := by rw [hce, ht, if_pos rfl]
      obtain ⟨l, m, h1, h2, h3⟩ := decode2_scalar fresh probs 0 nL cpt.fixcluster0 L e
        (lam ++ mu ++ w) (le_refl _) he hL0 hLn (by rw [hflat]; omega)
      rw [rd_flat_lam lam mu w L (by omega)] at h1
      rw [if_pos rfl, hce1]
      refine ⟨_, hset, hpar, h2, fun h => by omega, fun _ => ⟨h1, fun hle => ?_⟩⟩
      have := h3 hle
      rwa [rd_flat_mu lam mu w (L - e) _ (by omega) (by omega) (by omega)] at this
  · -- clusters
    simp only [region_lambda, region_mu, region_weight, hK1, if_true] at hl hm hwl
    have hcK1 : cpt.parameterized_k_value = K := by rw [hcK, if_pos hK1]
    have hcf1 : cpt.fixcluster0 = f := by rw [hcf, if_pos hK1]
    rw [hcK1, hcf1]
    have hD : 0 ≤ K - f := by omega
    have hLD : 0 ≤ L * (K - f) := mul_nonneg hL0 hD
    have hLD2 : L * (K - f) + (K - f) ≤ nL * (K - f) := by nlinarith
    cases ht : tmp.lambda_tree.isSome
    · obtain ⟨hnL1, he0⟩ := hnotree ht
      subst hnL1 he0
      have hL : L = 0 := by omega
      subst hL
      simp only [one_mul, sub_zero, zero_mul, zero_add] at hl hm ⊢
      obtain ⟨pl, pm, h1, h2, h3⟩ := decode1_clusters fresh probs K 1 f (lam ++ mu ++ w) hK1 hf
        (by decide) (by rw [hflat]; omega)
      rw [if_neg Bool.false_ne_true]
      refine ⟨_, hset, hpar, h1, fun _ => ⟨pl, pm, rfl, rfl, fun k hkf hk => ⟨?_, fun _ => ?_⟩⟩,
        fun h => by omega⟩
      · obtain ⟨v, hv⟩ := rd_of_lt lam (k - f) (by omega) (by omega)
        refine ⟨v, hv, ?_⟩
        rw [h2 k hkf hk, rd_flat_lam lam mu w (k - f) (by omega), hv]
      · obtain ⟨v, hv⟩ := rd_of_lt mu (k - f) (by omega) (by omega)
        refine ⟨v, hv, ?_⟩
        rw [h3 k hkf hk, rd_flat_mu lam mu w (k - f) _ (by rw [hl]; ring) (by omega) (by omega),
          hv]
    · have hce1 : cpt.eqbg = e := by rw [hce, ht, if_pos rfl]
      obtain ⟨pl, pm, h1, h2, h3⟩ := decode2_clusters fresh probs K nL f L e (lam ++ mu ++ w)
        hK1 hf he hL0 hLn (by rw [hflat]; omega)
      rw [if_pos rfl, hce1]
      refine ⟨_, hset, hpar, h1, fun _ => ⟨pl, pm, rfl, rfl, fun k hkf hk => ⟨?_, fun hle => ?_⟩⟩,
        fun h => by omega⟩
      · obtain ⟨v, hv⟩ := rd_of_lt lam (L * (K - f) + (k - f)) (by omega) (by omega)
        refine ⟨v, hv, ?_⟩
        rw [h2 k hkf hk, rd_flat_lam lam mu w _ (by omega), hv]
      · have hLe : 0 ≤ (L - e) * (K - f) := mul_nonneg (by omega) hD
        have hLe2 : (L - e) * (K - f) + (K - f) ≤ (nL - e) * (K - f) := by nlinarith
        obtain ⟨v, hv⟩ := rd_of_lt mu ((L - e) * (K - f) + (k - f)) (by omega) (by omega)
        refine ⟨v, hv, ?_⟩
        rw [h3 hle k hkf hk, rd_flat_mu lam mu w ((L - e) * (K - f) + (k - f)) _
          (by rw [hl]; ring) (by omega) (by omega), hv]

/-- Witness for C2: class 1 of a two-class rate tree, two clusters with the
first one fixed, equal background. -/
theorem C2_set_then_decode_round_trip_witness :
    ∃ cpt flat out,
      set_setup 0 cafe_param_example tmp_param_example = some (.ready cpt) ∧
      cpt.parameters = some flat ∧
      (if tmp_param_example.lambda_tree.isSome then
        set_birth_death_probabilities2 0 ⟨0, 0, none, none⟩ cpt.parameterized_k_value
          cpt.num_lambdas cpt.fixcluster0 1 cpt.eqbg flat
      else
        set_birth_death_probabilities 0 ⟨0, 0, none, none⟩ cpt.parameterized_k_value
          cpt.num_lambdas cpt.fixcluster0 flat) = some out ∧
      ((1 : Int) ≤ 2 → ∃ pl pm, out.param_lambdas = some pl ∧ out.param_mus = some pm ∧
        ∀ k : Int, 1 ≤ k → k < 2 →
          (∃ v, rd [1/2, 1/3] (1 * (2 - 1) + (k - 1)) = some v ∧ rd pl k = some v) ∧
          ((1 : Int) ≤ 1 → ∃ v, rd [1/4] ((1 - 1) * (2 - 1) + (k - 1)) = some v ∧
            rd pm k = some v)) ∧
      ((2 : Int) = 0 → rd [1/2, 1/3] 1 = some out.lambda ∧
        ((1 : Int) ≤ 1 → rd [1/4] (1 - 1) = some out.mu)) :=
  C2_set_then_decode_round_trip 0 cafe_param_example tmp_param_example 2 2 1 1
    [1/2, 1/3] [1/4] [1/5] ⟨0, 0, none, none⟩ 1
    (by decide) (by decide) (by decide) rfl rfl rfl
    (fun _ => ⟨rfl, rfl, rfl⟩) (fun h => by simp [tmp_param_example] at h) rfl
    rfl rfl rfl (by decide) (by decide) (by decide) (by decide) (by decide) (by decide)

/-! ## Equal background and the fixed first cluster -/

/-- C3. With `eqbg` set, label 0, two clusters and `fixcluster0 = 1`, the decoder
copies only `K - 1` cells from `param_lambdas` to `param_mus`: on the vector
`[1/2, 1/3, 1/4, 1/5]` the lambdas are `[0, 1/2]` but the mus are `[0, fresh]`,
the last cell being the untouched cell of the new block, so `param_mus[1]` is
not `param_lambdas[1]`. -/
theorem C3_eqbg_mu_copy_is_one_short (fresh : ℚ) :
    set_birth_death_probabilities2 fresh ⟨0, 0, none, none⟩ 2 2 1 0 1 [1/2, 1/3, 1/4, 1/5]
      = some ⟨-1, -1, some [0, 1/2], some [0, fresh]⟩ := by
  rw [decode2_f1_e1_L0 fresh _ 2 2 _ (by decide) (by decide) (by decide)]
  simp [cells]

theorem rd_take_head (r : List ℚ) (n : Nat) (hn : 1 ≤ n) :
    rd (((0 : ℚ) :: r).take n) 0 = some 0 := by
  obtain ⟨m, rfl⟩ : ∃ m, n = m + 1 := ⟨n - 1, by omega⟩
  simp [rd]

/-- C4. With `K >= 1` clusters and `fixcluster0 = 1`, each of the four decoders
gives cluster 0 the rate 0 whatever the parameter vector holds, and reads the
lambda of cluster `k >= 1` of class `L` from flat index `L*(K-1)+(k-1)` (class
0 in the two decoders without a rate tree). Each decoder is given a vector
that holds the cells it reads: the lambda block and the mu block at
`nL*(K-1)` without a rate tree, the lambda and mu regions with one, the
lambda block of the class for the two lambda-only decoders. The blocks
returned by `memory_new` are zero-filled (`fresh = 0`): the mu of cluster 0 for
the tied background with a single cluster is the untouched cell of the new
block. -/
theorem C4_fixcluster0_cluster0_is_zero (fresh : ℚ) (probs : probabilities)
    (K nL L e : Int) (flat : List ℚ) (hfresh : fresh = 0) (hK : 1 ≤ K)
    (he : e = 0 ∨ e = 1) (hL0 : 0 ≤ L) (hLn : L < nL) :
    (nL * (K - 1) + (K - 1) ≤ flat.length →
      ∃ pl pm, set_birth_death_probabilities fresh probs K nL 1 flat
        = some ⟨-1, -1, some pl, some pm⟩ ∧
      rd pl 0 = some 0 ∧ rd pm 0 = some 0 ∧
      ∀ k, 1 ≤ k → k < K → rd pl k = rd flat (0 * (K - 1) + (k - 1))) ∧
    (nL * (K - 1) + (nL - e) * (K - 1) ≤ flat.length →
      ∃ pl pm, set_birth_death_probabilities2 fresh probs K nL 1 L e flat
        = some ⟨-1, -1, some pl, some pm⟩ ∧
      rd pl 0 = some 0 ∧ rd pm 0 = some 0 ∧
      ∀ k, 1 ≤ k → k < K → rd pl k = rd flat (L * (K - 1) + (k - 1))) ∧
    (K - 1 ≤ flat.length →
      ∃ pl, set_birth_death_probabilities3 fresh probs K nL 1 flat
        = some ⟨-1, -1, some pl, none⟩ ∧
      rd pl 0 = some 0 ∧
      ∀ k, 1 ≤ k → k < K → rd pl k = rd flat (0 * (K - 1) + (k - 1))) ∧
    (L * (K - 1) + (K - 1) ≤ flat.length →
      ∃ pl, set_birth_death_probabilities4 fresh probs K nL 1 L e flat
        = some ⟨-1, -1, some pl, none⟩ ∧
      rd pl 0 = some 0 ∧
      ∀ k, 1 ≤ k → k < K → rd pl k = rd flat (L * (K - 1) + (k - 1))) := by
  have hD : 0 ≤ K - 1 := by omega
  have hnL : 0 < nL := by omega
  have h1 : 0 ≤ L * (K - 1) := mul_nonneg hL0 hD
  have h2 : L * (K - 1) + (K - 1) ≤ nL * (K - 1) := by nlinarith
  have h5 : 0 ≤ nL * (K - 1) := mul_nonneg (by omega) hD
  refine ⟨fun hlen => ?_, fun hlen => ?_, fun hlen => ?_, fun hlen => ?_⟩
  · refine ⟨_, _, decode1_f1 fresh probs K nL flat hK hnL hlen, rd_head _, rd_head _,
      fun k hk1 hk => ?_⟩
    rw [rd_cells_tail flat 0 (K - 1) k (le_refl _) hk1 (by omega)]
    simp
  · rcases he with rfl | rfl
    · exact ⟨_, _, decode2_f1_e0 fresh probs K nL L flat hK hL0 hLn
          (by rw [sub_zero] at hlen; exact hlen), rd_head _,
        rd_head _, fun k hk1 hk => rd_cells_tail flat _ _ k h1 hk1 (by omega)⟩
    · by_cases hL : L = 0
      · subst hL
        refine ⟨_, _, decode2_f1_e1_L0 fresh probs K nL flat hK hnL hlen, rd_head _,
          ?_, fun k hk1 hk => ?_⟩
        swap
        · rw [rd_cells_tail flat 0 (K - 1) k (le_refl _) hk1 (by omega)]
          simp
        by_cases hK1 : K = 1
        · subst hK1 hfresh
          simp [rd]
        · rw [rd_append_left _ _ _ (by
            simp only [cells, List.length_take, List.length_cons, List.length_drop]
            omega)]
          exact rd_take_head _ _ (by omega)
      · exact ⟨_, _, decode2_f1_e1 fresh probs K nL L flat hK (by omega) hLn hlen,
          rd_head _, rd_head _, fun k hk1 hk => rd_cells_tail flat _ _ k h1 hk1 (by omega)⟩
  · refine ⟨_, decode3_f1 fresh probs K nL flat hK hlen, rd_head _,
      fun k hk1 hk => ?_⟩
    rw [rd_cells_tail flat 0 (K - 1) k (le_refl _) hk1 (by omega)]
    simp
  · exact ⟨_, decode4_f1 fresh probs K nL L e flat hK hL0 hlen, rd_head _,
      fun k hk1 hk => rd_cells_tail flat _ _ k h1 hk1 (by omega)⟩

/-- Witness for C4 with two clusters, each decoder on a vector of its own
layout: lambda, mu and weight without a rate tree; two lambdas, one mu (equal
background) and a weight with a rate tree of two classes; one lambda and a
weight; two lambdas and a weight. -/
theorem C4_fixcluster0_cluster0_is_zero_witness :
    (∃ pl pm, set_birth_death_probabilities 0 ⟨0, 0, none, none⟩ 2 1 1 [1/2, 1/3, 1/4]
        = some ⟨-1, -1, some pl, some pm⟩ ∧
      rd pl 0 = some 0 ∧ rd pm 0 = some 0 ∧
      ∀ k : Int, 1 ≤ k → k < 2 → rd pl k = rd [1/2, 1/3, 1/4] (0 * (2 - 1) + (k - 1))) ∧
    (∃ pl pm, set_birth_death_probabilities2 0 ⟨0, 0, none, none⟩ 2 2 1 1 1
        [1/2, 1/3, 1/4, 1/5] = some ⟨-1, -1, some pl, some pm⟩ ∧
      rd pl 0 = some 0 ∧ rd pm 0 = some 0 ∧
      ∀ k : Int, 1 ≤ k → k < 2 → rd pl k = rd [1/2, 1/3, 1/4, 1/5] (1 * (2 - 1) + (k - 1))) ∧
    (∃ pl, set_birth_death_probabilities3 0 ⟨0, 0, none, none⟩ 2 1 1 [1/2, 1/4]
        = some ⟨-1, -1, some pl, none⟩ ∧
      rd pl 0 = some 0 ∧
      ∀ k : Int, 1 ≤ k → k < 2 → rd pl k = rd [1/2, 1/4] (0 * (2 - 1) + (k - 1))) ∧
    (∃ pl, set_birth_death_probabilities4 0 ⟨0, 0, none, none⟩ 2 2 1 1 0 [1/2, 1/3, 1/4]
        = some ⟨-1, -1, some pl, none⟩ ∧
      rd pl 0 = some 0 ∧
      ∀ k : Int, 1 ≤ k → k < 2 → rd pl k = rd [1/2, 1/3, 1/4] (1 * (2 - 1) + (k - 1))) :=
  ⟨(C4_fixcluster0_cluster0_is_zero 0 ⟨0, 0, none, none⟩ 2 1 0 0 [1/2, 1/3, 1/4] rfl
      (by decide) (by decide) (by decide) (by decide)).1 (by decide),
    (C4_fixcluster0_cluster0_is_zero 0 ⟨0, 0, none, none⟩ 2 2 1 1 [1/2, 1/3, 1/4, 1/5] rfl
      (by decide) (by decide) (by decide) (by decide)).2.1 (by decide),
    (C4_fixcluster0_cluster0_is_zero 0 ⟨0, 0, none, none⟩ 2 1 0 0 [1/2, 1/4] rfl
      (by decide) (by decide) (by decide) (by decide)).2.2.1 (by decide),
    (C4_fixcluster0_cluster0_is_zero 0 ⟨0, 0, none, none⟩ 2 2 1 0 [1/2, 1/3, 1/4] rfl
      (by decide) (by decide) (by decide) (by decide)).2.2.2 (by decide)⟩

/-! ## Mixture weights -/

theorem rd_nat (a : List ℚ) (i : Nat) : rd a (i : Int) = a[i]? := by
  simp [rd]

theorem wr_some (a b : List ℚ) (i : Int) (v : ℚ) (h : wr a i v = some b) :
    0 ≤ i ∧ i < a.length ∧ b = a.set i.toNat v := by
  unfold wr at h
  split at h
  · rename_i hc
    exact ⟨hc.1, hc.2, (Option.some.inj h).symm⟩
  · cases h

theorem take_set_self (l : List ℚ) (n : Nat) (a : ℚ) : (l.set n a).take n = l.take n := by
  apply List.ext_getElem?
  intro i
  rw [List.getElem?_take, List.getElem?_take]
  split
  · rw [List.getElem?_set_ne (by omega)]
  · rfl

theorem k_weights_loop_succ (stored : List ℚ) (base : Int) (n : Nat) (kw : List ℚ) :
    k_weights_loop stored base (n + 1) kw
      = (k_weights_loop stored base n kw).bind (fun acc =>
          (rd stored (base + n)).bind (fun v =>
            (wr acc.1 n v).bind (fun kw => some (kw, acc.2 + v)))) := by
  simp only [k_weights_loop, List.range_succ, List.foldlM_append, List.foldlM_cons,
    List.foldlM_nil, Option.bind_eq_bind, Option.pure_def, Option.bind_some]

/-- What the weight loop leaves behind when it runs through: the first `n`
cells are the stored values at `base ..`, the others are untouched, and the
running sum is the sum of the first `n` cells. -/
theorem k_weights_loop_some (stored : List ℚ) (base : Int) (n : Nat) :
    ∀ (kw kw1 : List ℚ) (s : ℚ), k_weights_loop stored base n kw = some (kw1, s) →
      kw1.length = kw.length ∧ n ≤ kw.length ∧
      (∀ i : Nat, i < n → ∃ v, kw1[i]? = some v ∧ rd stored (base + i) = some v) ∧
      (∀ i : Nat, n ≤ i → kw1[i]? = kw[i]?) ∧
      s = (kw1.take n).sum := by
  induction n with
  | zero =>
    intro kw kw1 s h
    simp [k_weights_loop] at h
    obtain ⟨rfl, rfl⟩ := h
    simp
  | succ n ih =>
    intro kw kw2 s2 h
    rw [k_weights_loop_succ] at h
    cases hloop : k_weights_loop stored base n kw with
    | none => rw [hloop] at h; simp at h
    | some acc =>
      obtain ⟨kw1, s1⟩ := acc
      rw [hloop, Option.some_bind] at h
      obtain ⟨hlen, hn, hpre, hpost, hsum⟩ := ih kw kw1 s1 hloop
      cases hv : rd stored (base + n) with
      | none => rw [hv] at h; simp at h
      | some v =>
        rw [hv, Option.some_bind] at h
        cases hw : wr kw1 n v with
        | none => rw [hw] at h; simp at h
        | some kw' =>
          rw [hw, Option.some_bind] at h
          obtain ⟨rfl, rfl⟩ := Prod.mk.inj (Option.some.inj h)
          obtain ⟨-, hlt, rfl⟩ := wr_some _ _ _ _ hw
          have hlt' : n < kw1.length := by omega
          simp only [Int.toNat_ofNat]
          refine ⟨by rw [List.length_set, hlen], by omega, ?_, ?_, ?_⟩
          · intro i hi
            by_cases hin : i = n
            · subst hin
              exact ⟨v, by simp [hlt'], by simpa using hv⟩
            · obtain ⟨u, hu1, hu2⟩ := hpre i (by omega)
              exact ⟨u, by rw [List.getElem?_set_ne (by omega)]; exact hu1, hu2⟩
          · intro i hi
            rw [List.getElem?_set_ne (by omega)]
            exact hpost i (by omega)
          · rw [List.take_succ, List.sum_append, take_set_self]
            simp [hlt', hsum]

/-- What the block `// set k_weights` leaves behind when it runs through. -/
theorem set_k_weights_some (stored : List ℚ) (base K : Int) (kw kw2 : List ℚ) (hK : 1 ≤ K)
    (h : set_k_weights stored base K kw = some kw2) :
    kw2.length = kw.length ∧ K ≤ kw.length ∧
    (∀ i : Int, 0 ≤ i → i < K - 1 → ∃ v, rd kw2 i = some v ∧ rd stored (base + i) = some v) ∧
    rd kw2 (K - 1) = some (1 - (kw2.take (K - 1).toNat).sum) ∧
    (kw2.take K.toNat).sum = 1 := by
  unfold set_k_weights at h
  cases hloop : k_weights_loop stored base (K - 1).toNat kw with
  | none => rw [hloop] at h; simp at h
  | some acc =>
    obtain ⟨kw1, s⟩ := acc
    rw [hloop] at h
    simp only [Option.bind_eq_bind, Option.some_bind] at h
    obtain ⟨hlen, hn, hpre, -, hsum⟩ := k_weights_loop_some stored base _ kw kw1 s hloop
    obtain ⟨h0, hlt, rfl⟩ := wr_some _ _ _ _ h
    have hKn : K.toNat = (K - 1).toNat + 1 := by omega
    have hlt' : (K - 1).toNat < kw1.length := by omega
    refine ⟨by rw [List.length_set, hlen], by omega, ?_, ?_, ?_⟩
    · intro i hi0 hi
      obtain ⟨v, hv1, hv2⟩ := hpre i.toNat (by omega)
      refine ⟨v, ?_, ?_⟩
      · simp only [rd, hi0, if_true]
        rw [List.getElem?_set_ne (by omega)]
        exact hv1
      · rw [← hv2]
        congr 2
        omega
    · simp only [rd, h0, if_true, take_set_self]
      generalize (K - 1).toNat = n at hlt' hsum
      simp [List.getElem?_set, hlt', hsum]
    · rw [hKn, List.take_succ, List.sum_append, take_set_self]
      generalize (K - 1).toNat = n at hlt' hsum
      simp [List.getElem?_set, hlt', hsum]

theorem install_k_weights_some (fresh : ℚ) (q q1 : CafeParam) (stored : List ℚ) (base : Int)
    (h : install_k_weights fresh q stored base = some q1)
    (hK : 1 ≤ q.parameterized_k_value) :
    ∃ kw0 kw pz, q.k_weights = some kw0 ∧
      set_k_weights stored base q.parameterized_k_value kw0 = some kw ∧
      q1 = { q with k_weights := some kw, p_z_membership := some pz } := by
  have hK0 : 0 < q.parameterized_k_value := by omega
  simp only [install_k_weights, hK0, if_true, Option.bind_eq_bind, Option.bind_eq_some,
    Option.pure_def, Option.some.injEq] at h
  obtain ⟨kw0, hkw0, kw, hkw, h⟩ := h
  cases hpz : q.p_z_membership with
  | some pz =>
    rw [hpz] at h
    simp only [Option.some_bind, Option.some.injEq] at h
    exact ⟨kw0, kw, pz, hkw0, hkw, h.symm⟩
  | none =>
    rw [hpz] at h
    simp only [Option.bind_eq_some, Option.some.injEq] at h
    obtain ⟨nfam, -, pz, -, h⟩ := h
    exact ⟨kw0, kw, pz, hkw0, hkw, h.symm⟩

theorem install_k_weights_none (fresh : ℚ) (q : CafeParam) (stored : List ℚ) (base : Int)
    (hK : q.parameterized_k_value ≤ 0) :
    install_k_weights fresh q stored base = some q := by
  have hK0 : ¬ 0 < q.parameterized_k_value := by omega
  simp [install_k_weights, hK0]

/-- The steps of a run of `cafe_shell_set_lambda` that comes back. -/
theorem cafe_shell_set_lambda_some (fresh : ℚ) (param param' : CafeParam) (p : List ℚ)
    (h : cafe_shell_set_lambda fresh param p = some param') :
    ∃ stored0 stored q1 pcafe nodes,
      param.parameters = some stored0 ∧
      store_parameters stored0 p param.num_params = some stored ∧
      install_k_weights fresh { param with parameters := some stored, lambda := some 0 } stored
        (param.num_lambdas * (param.parameterized_k_value - param.fixcluster0)) = some q1 ∧
      q1.pcafe = some pcafe ∧
      set_lambda_nodes fresh q1 pcafe p = some nodes ∧
      param' = { q1 with pcafe := some { pcafe with
        k := param.parameterized_k_value, nlist := nodes } } := by
  simp only [cafe_shell_set_lambda, Option.bind_eq_bind, Option.bind_eq_some,
    Option.pure_def, Option.some.injEq] at h
  obtain ⟨stored0, h0, stored, h1, q1, h2, pcafe, h3, nodes, h4, h5⟩ := h
  exact ⟨stored0, stored, q1, pcafe, nodes, h0, h1, h2, h3, h4, h5.symm⟩

/-- The steps of a run of `cafe_shell_set_lambda_mu` that comes back. -/
theorem cafe_shell_set_lambda_mu_some (fresh : ℚ) (param param' : CafeParam) (p : List ℚ)
    (h : cafe_shell_set_lambda_mu fresh param p = some param') :
    ∃ stored0 stored q1 pcafe nodes,
      param.parameters = some stored0 ∧
      store_parameters stored0 p param.num_params = some stored ∧
      install_k_weights fresh { param with
          parameters := some stored
          lambda := some 0
          mu := some (if 0 < param.parameterized_k_value then
              param.num_lambdas * (param.parameterized_k_value - param.fixcluster0)
            else param.num_lambdas) } stored
        (param.num_lambdas * (param.parameterized_k_value - param.fixcluster0)
          + (param.num_mus - param.eqbg) * (param.parameterized_k_value - param.fixcluster0))
        = some q1 ∧
      q1.pcafe = some pcafe ∧
      set_lambda_mu_nodes fresh q1 pcafe p = some nodes ∧
      param' = { q1 with pcafe := some { pcafe with
        k := param.parameterized_k_value, nlist := nodes } } := by
  simp only [cafe_shell_set_lambda_mu, Option.bind_eq_bind, Option.bind_eq_some,
    Option.pure_def, Option.some.injEq] at h
  obtain ⟨stored0, h0, stored, h1, q1, h2, pcafe, h3, nodes, h4, h5⟩ := h
  exact ⟨stored0, stored, q1, pcafe, nodes, h0, h1, h2, h3, h4, h5.symm⟩

/-- C5. With `K >= 1`, after `cafe_shell_set_lambda` (weight region at
`nL*(K-f)`) or `cafe_shell_set_lambda_mu` (weight region at
`nL*(K-f)+(nM-e)*(K-f)`), the first `K-1` weights are the stored parameters of
the weight region, the last weight is one minus their sum, and the `K` weights
sum to one. -/
theorem C5_k_weights_sum_to_one (fresh : ℚ) (param param' : CafeParam) (p : List ℚ)
    (hK : 1 ≤ param.parameterized_k_value) :
    (cafe_shell_set_lambda fresh param p = some param' →
      ∃ stored kw, param'.parameters = some stored ∧ param'.k_weights = some kw ∧
        (∀ i : Int, 0 ≤ i → i < param.parameterized_k_value - 1 →
          ∃ v, rd kw i = some v ∧
            rd stored (param.num_lambdas * (param.parameterized_k_value - param.fixcluster0)
              + i) = some v) ∧
        rd kw (param.parameterized_k_value - 1)
          = some (1 - (kw.take (param.parameterized_k_value - 1).toNat).sum) ∧
        (kw.take param.parameterized_k_value.toNat).sum = 1) ∧
    (cafe_shell_set_lambda_mu fresh param p = some param' →
      ∃ stored kw, param'.parameters = some stored ∧ param'.k_weights = some kw ∧
        (∀ i : Int, 0 ≤ i → i < param.parameterized_k_value - 1 →
          ∃ v, rd kw i = some v ∧
            rd stored (param.num_lambdas * (param.parameterized_k_value - param.fixcluster0)
              + (param.num_mus - param.eqbg)
                * (param.parameterized_k_value - param.fixcluster0)
              + i) = some v) ∧
        rd kw (param.parameterized_k_value - 1)
          = some (1 - (kw.take (param.parameterized_k_value - 1).toNat).sum) ∧
        (kw.take param.parameterized_k_value.toNat).sum = 1) := by
  constructor
  · intro h
    obtain ⟨stored0, stored, q1, pcafe, nodes, -, -, h2, -, -, rfl⟩ :=
      cafe_shell_set_lambda_some fresh param param' p h
    obtain ⟨kw0, kw, pz, -, hkw, rfl⟩ := install_k_weights_some fresh _ q1 stored _ h2 hK
    obtain ⟨-, -, h3, h4, h5⟩ := set_k_weights_some stored _ _ kw0 kw hK hkw
    exact ⟨stored, kw, rfl, rfl, h3, h4, h5⟩
  · intro h
    obtain ⟨stored0, stored, q1, pcafe, nodes, -, -, h2, -, -, rfl⟩ :=
      cafe_shell_set_lambda_mu_some fresh param param' p h
    obtain ⟨kw0, kw, pz, -, hkw, rfl⟩ := install_k_weights_some fresh _ q1 stored _ h2 hK
    obtain ⟨-, -, h3, h4, h5⟩ := set_k_weights_some stored _ _ kw0 kw hK hkw
    exact ⟨stored, kw, rfl, rfl, h3, h4, h5⟩

/-- Witness for C5: both installers come back on a two-cluster state and leave
weights that sum to one. -/
theorem C5_k_weights_sum_to_one_witness :
    ∃ param', cafe_shell_set_lambda_mu 0 cafe_param_clusters [1/10, 1/5, 3/10, 2/5, 1/4]
        = some param' ∧
      ∃ stored kw, param'.parameters = some stored ∧ param'.k_weights = some kw ∧
        (∀ i : Int, 0 ≤ i → i < cafe_param_clusters.parameterized_k_value - 1 →
          ∃ v, rd kw i = some v ∧
            rd stored (cafe_param_clusters.num_lambdas
                * (cafe_param_clusters.parameterized_k_value - cafe_param_clusters.fixcluster0)
              + (cafe_param_clusters.num_mus - cafe_param_clusters.eqbg)
                * (cafe_param_clusters.parameterized_k_value - cafe_param_clusters.fixcluster0)
              + i) = some v) ∧
        rd kw (cafe_param_clusters.parameterized_k_value - 1)
          = some (1 - (kw.take (cafe_param_clusters.parameterized_k_value - 1).toNat).sum) ∧
        (kw.take cafe_param_clusters.parameterized_k_value.toNat).sum = 1 := by
  obtain ⟨param', h⟩ : ∃ param',
      cafe_shell_set_lambda_mu 0 cafe_param_clusters [1/10, 1/5, 3/10, 2/5, 1/4] = some param' :=
    Option.isSome_iff_exists.mp (by decide!)
  exact ⟨param', h, (C5_k_weights_sum_to_one 0 cafe_param_clusters param' _ (by decide)).2 h⟩

/-! ## Replacing the stored vector -/

/-- The first statement of the installers leaves the supplied vector in store
when the first elements differ, or when the supplied vector is the stored one. -/
theorem store_parameters_some (stored0 p stored : List ℚ) (n : Int)
    (h : store_parameters stored0 p n = some stored)
    (hlen0 : (stored0.length : Int) = n) (hlenp : (p.length : Int) = n)
    (hne : rd stored0 0 ≠ rd p 0 ∨ stored0 = p) : stored = p := by
  simp only [store_parameters, Option.bind_eq_bind, Option.bind_eq_some] at h
  obtain ⟨s0, hs0, a0, ha0, h⟩ := h
  by_cases hc : s0 = a0
  · subst hc
    simp only [ne_eq, not_true_eq_false, if_false, Option.pure_def, Option.some.injEq] at h
    rcases hne with hne | hne
    · exact absurd (hs0.trans ha0.symm) hne
    · rw [← h, hne]
  · simp only [ne_eq, hc, not_false_eq_true, if_true] at h
    have hm := memcpy_into [] stored0 p 0 n (by simp) hlenp.symm (by omega)
    simp only [List.nil_append] at hm
    rw [hm] at h
    rw [← Option.some.inj h, List.drop_of_length_le (by omega), List.append_nil]

/-- C6 (amended). When the first element of the supplied vector differs from
the first stored element (or the supplied vector is the stored one), both
installers leave the supplied vector `p` in `param->parameters`, and with
clusters the weights they leave are those computed from `p`. -/
theorem C6_stored_vector_replaced_when_first_differs (fresh : ℚ)
    (param param' : CafeParam) (p stored0 : List ℚ)
    (hst : param.parameters = some stored0)
    (hlen0 : (stored0.length : Int) = param.num_params)
    (hlenp : (p.length : Int) = param.num_params)
    (hne : rd stored0 0 ≠ rd p 0 ∨ stored0 = p) :
    (cafe_shell_set_lambda fresh param p = some param' →
      param'.parameters = some p ∧
      (1 ≤ param.parameterized_k_value → ∃ kw0 kw, param.k_weights = some kw0 ∧
        set_k_weights p
          (param.num_lambdas * (param.parameterized_k_value - param.fixcluster0))
          param.parameterized_k_value kw0 = some kw ∧
        param'.k_weights = some kw)) ∧
    (cafe_shell_set_lambda_mu fresh param p = some param' →
      param'.parameters = some p ∧
      (1 ≤ param.parameterized_k_value → ∃ kw0 kw, param.k_weights = some kw0 ∧
        set_k_weights p
          (param.num_lambdas * (param.parameterized_k_value - param.fixcluster0)
            + (param.num_mus - param.eqbg)
              * (param.parameterized_k_value - param.fixcluster0))
          param.parameterized_k_value kw0 = some kw ∧
        param'.k_weights = some kw)) := by
  constructor
  · intro h
    obtain ⟨s0, stored, q1, pcafe, nodes, h0, h1, h2, -, -, rfl⟩ :=
      cafe_shell_set_lambda_some fresh param param' p h
    rw [hst] at h0
    obtain rfl := Option.some.inj h0
    obtain rfl := store_parameters_some _ p stored _ h1 hlen0 hlenp hne
    by_cases hK : 1 ≤ param.parameterized_k_value
    · obtain ⟨kw0, kw, pz, hkw0, hkw, rfl⟩ := install_k_weights_some fresh _ q1 _ _ h2 hK
      exact ⟨rfl, fun _ => ⟨kw0, kw, hkw0, hkw, rfl⟩⟩
    · rw [install_k_weights_none fresh _ _ _ (by simp only []; omega)] at h2
      obtain rfl := Option.some.inj h2
      exact ⟨rfl, fun h => absurd h hK⟩
  · intro h
    obtain ⟨s0, stored, q1, pcafe, nodes, h0, h1, h2, -, -, rfl⟩ :=
      cafe_shell_set_lambda_mu_some fresh param param' p h
    rw [hst] at h0
    obtain rfl := Option.some.inj h0
    obtain rfl := store_parameters_some _ p stored _ h1 hlen0 hlenp hne
    by_cases hK : 1 ≤ param.parameterized_k_value
    · obtain ⟨kw0, kw, pz, hkw0, hkw, rfl⟩ := install_k_weights_some fresh _ q1 _ _ h2 hK
      exact ⟨rfl, fun _ => ⟨kw0, kw, hkw0, hkw, rfl⟩⟩
    · rw [install_k_weights_none fresh _ _ _ (by simp only []; omega)] at h2
      obtain rfl := Option.some.inj h2
      exact ⟨rfl, fun h => absurd h hK⟩

/-- Witness for C6: a supplied vector with another first element replaces the
stored one. -/
theorem C6_stored_vector_replaced_when_first_differs_witness :
    ∃ param', cafe_shell_set_lambda_mu 0 cafe_param_clusters [1/10, 1/5, 3/10, 2/5, 1/4]
        = some param' ∧
      param'.parameters = some [1/10, 1/5, 3/10, 2/5, 1/4] ∧
      (1 ≤ cafe_param_clusters.parameterized_k_value → ∃ kw0 kw,
        cafe_param_clusters.k_weights = some kw0 ∧
        set_k_weights [1/10, 1/5, 3/10, 2/5, 1/4]
          (cafe_param_clusters.num_lambdas
              * (cafe_param_clusters.parameterized_k_value - cafe_param_clusters.fixcluster0)
            + (cafe_param_clusters.num_mus - cafe_param_clusters.eqbg)
              * (cafe_param_clusters.parameterized_k_value - cafe_param_clusters.fixcluster0))
          cafe_param_clusters.parameterized_k_value kw0 = some kw ∧
        param'.k_weights = some kw) := by
  obtain ⟨param', h⟩ : ∃ param',
      cafe_shell_set_lambda_mu 0 cafe_param_clusters [1/10, 1/5, 3/10, 2/5, 1/4] = some param' :=
    Option.isSome_iff_exists.mp (by decide!)
  exact ⟨param', h, (C6_stored_vector_replaced_when_first_differs 0 cafe_param_clusters param'
    [1/10, 1/5, 3/10, 2/5, 1/4] [1/100, 1/50, 1/25, 1/20, 3/10] rfl (by decide) (by decide)
    (Or.inl (by decide!))).2 h⟩

/-- C6, counterexample. The stored vector is `[1/100, 1/50, 1/25, 1/20, 3/10]`
and the supplied one `[1/100, 1/5, 3/10, 2/5, 1/4]` has the same first element:
`cafe_shell_set_lambda_mu` copies nothing, the stored vector is not the supplied
one, and the weights are `[3/10, 7/10]`, those of the old vector, not the
`[1/4, 3/4]` of the supplied one. -/
theorem C6_counterexample :
    (cafe_shell_set_lambda_mu 0 cafe_param_clusters [1/100, 1/5, 3/10, 2/5, 1/4]).map
        (fun param' => (param'.parameters, param'.k_weights))
      = some (some [1/100, 1/50, 1/25, 1/20, 3/10], some [3/10, 7/10]) ∧
    ([1/100, 1/50, 1/25, 1/20, 3/10] : List ℚ) ≠ [1/100, 1/5, 3/10, 2/5, 1/4] := by
  constructor <;> decide!

/-! ## One global rate -/

theorem mapM_some {α β : Type} (g : α → β) (l : List α) :
    l.mapM (fun x => (some (g x) : Option β)) = some (l.map g) := by
  induction l with
  | nil => rfl
  | cons a l ih => rw [List.mapM_cons, ih]; rfl

theorem store_parameters_total (stored0 p : List ℚ) (n : Int) (hn : 1 ≤ n)
    (hlen0 : (stored0.length : Int) = n) (hlenp : (p.length : Int) = n) :
    ∃ stored, store_parameters stored0 p n = some stored ∧ (stored.length : Int) = n := by
  obtain ⟨s0, hs0⟩ := rd_of_lt stored0 0 (le_refl _) (by omega)
  obtain ⟨a0, ha0⟩ := rd_of_lt p 0 (le_refl _) (by omega)
  by_cases hc : s0 = a0
  · exact ⟨stored0, by simp [store_parameters, hs0, ha0, hc], hlen0⟩
  · have hm := memcpy_into [] stored0 p 0 n (by simp) hlenp.symm (by omega)
    simp only [List.nil_append] at hm
    rw [List.drop_of_length_le (by omega), List.append_nil] at hm
    exact ⟨p, by simp [store_parameters, hs0, ha0, hc, hm], hlenp⟩

theorem set_lambda_nodes_scalar (fresh : ℚ) (param : CafeParam) (pcafe : CafeTree)
    (p : List ℚ) (v : ℚ) (hnt : param.lambda_tree = none)
    (hK : param.parameterized_k_value = 0) (hv : rd p 0 = some v) :
    set_lambda_nodes fresh param pcafe p = some (pcafe.nlist.map (assign_scalar v)) := by
  simp only [set_lambda_nodes, hnt, hK, set_birth_death_probabilities3, lt_self_iff_false,
    if_false, hv, Option.bind_eq_bind, Option.some_bind, Option.pure_def]
  exact mapM_some (assign_scalar v) pcafe.nlist

/-- A run of `cafe_shell_set_lambda` without rate tree and without clusters. -/
theorem cafe_shell_set_lambda_scalar (fresh : ℚ) (param : CafeParam) (tree : CafeTree)
    (stored0 p : List ℚ) (v : ℚ)
    (hst : param.parameters = some stored0) (hpc : param.pcafe = some tree)
    (hnt : param.lambda_tree = none) (hK : param.parameterized_k_value = 0)
    (hn : 1 ≤ param.num_params) (hlen0 : (stored0.length : Int) = param.num_params)
    (hlenp : (p.length : Int) = param.num_params) (hv : rd p 0 = some v) :
    ∃ stored, (stored.length : Int) = param.num_params ∧
      cafe_shell_set_lambda fresh param p = some { param with
        parameters := some stored
        lambda := some 0
        pcafe := some { tree with k := 0, nlist := tree.nlist.map (assign_scalar v) } } := by
  obtain ⟨stored, h1, h2⟩ := store_parameters_total stored0 p _ hn hlen0 hlenp
  refine ⟨stored, h2, ?_⟩
  simp only [cafe_shell_set_lambda, hst, Option.bind_eq_bind, Option.some_bind, h1]
  rw [install_k_weights_none fresh _ _ _ (by simp only []; omega)]
  simp only [Option.some_bind, hpc]
  rw [set_lambda_nodes_scalar fresh _ _ p v (by simpa using hnt) (by simpa using hK) hv]
  simp only [Option.some_bind, Option.pure_def, hK, hpc]

theorem assign_scalar_twice (u v : ℚ) (l : List CafeNode) :
    (l.map (assign_scalar v)).map (assign_scalar u) = l.map (assign_scalar u) := by
  rw [List.map_map]
  rfl

/-- C7. Without rate tree and without clusters, `cafe_shell_set_lambda` gives
every node of the tree lambda `p[0]` and mu `-1`, whatever the nodes held
before, and leaves the rest of each node alone; installing a second vector `q`
afterwards leaves every node with lambda `q[0]`, exactly as if `q` had been
installed first. -/
theorem C7_scalar_lambda_install_replaces (fresh : ℚ) (param : CafeParam) (tree : CafeTree)
    (stored0 p q : List ℚ) (v u : ℚ)
    (hst : param.parameters = some stored0) (hpc : param.pcafe = some tree)
    (hnt : param.lambda_tree = none) (hK : param.parameterized_k_value = 0)
    (hn : 1 ≤ param.num_params) (hlen0 : (stored0.length : Int) = param.num_params)
    (hlenp : (p.length : Int) = param.num_params) (hv : rd p 0 = some v)
    (hlenq : (q.length : Int) = param.num_params) (hu : rd q 0 = some u) :
    ∃ param' param'' tree' tree'',
      cafe_shell_set_lambda fresh param p = some param' ∧ param'.pcafe = some tree' ∧
      tree'.nlist = tree.nlist.map (assign_scalar v) ∧
      (∀ pcnode ∈ tree'.nlist, pcnode.birth_death_probabilities.lambda = v ∧
        pcnode.birth_death_probabilities.mu = -1) ∧
      cafe_shell_set_lambda fresh param' q = some param'' ∧ param''.pcafe = some tree'' ∧
      tree''.nlist = tree.nlist.map (assign_scalar u) ∧
      (∀ pcnode ∈ tree''.nlist, pcnode.birth_death_probabilities.lambda = u ∧
        pcnode.birth_death_probabilities.mu = -1) := by
  obtain ⟨stored, hs, h1⟩ := cafe_shell_set_lambda_scalar fresh param tree stored0 p v hst hpc
    hnt hK hn hlen0 hlenp hv
  obtain ⟨stored', -, h2⟩ := cafe_shell_set_lambda_scalar fresh _ _ stored q u
    (show ({ param with
        parameters := some stored
        lambda := some 0
        pcafe := some { tree with k := 0, nlist := tree.nlist.map (assign_scalar v) } }
      : CafeParam).parameters = some stored from rfl) rfl hnt hK hn hs hlenq hu
  have hmem : ∀ (w : ℚ) (pcnode : CafeNode), pcnode ∈ tree.nlist.map (assign_scalar w) →
      pcnode.birth_death_probabilities.lambda = w ∧
        pcnode.birth_death_probabilities.mu = -1 := by
    intro w pcnode hmem
    obtain ⟨n0, -, rfl⟩ := List.mem_map.mp hmem
    exact ⟨rfl, rfl⟩
  refine ⟨_, _, _, _, h1, rfl, rfl, hmem v, h2, rfl, ?_, ?_⟩
  · exact assign_scalar_twice u v tree.nlist
  · intro pcnode hp
    rw [show ({ tree with k := 0, nlist := tree.nlist.map (assign_scalar v) } : CafeTree).nlist
      = tree.nlist.map (assign_scalar v) from rfl, assign_scalar_twice] at hp
    exact hmem u pcnode hp

/-- Witness for C7: `[1/100]` and then `[1/50]` on a five-node tree whose nodes
held another assignment. -/
theorem C7_scalar_lambda_install_replaces_witness :
    ∃ param' param'' tree' tree'',
      cafe_shell_set_lambda 0 cafe_param_scalar [1/100] = some param' ∧
      param'.pcafe = some tree' ∧
      tree'.nlist = (List.replicate 5 ⟨⟨7/100, 3/100, none, none⟩, none, none⟩).map
        (assign_scalar (1/100)) ∧
      (∀ pcnode ∈ tree'.nlist, pcnode.birth_death_probabilities.lambda = 1/100 ∧
        pcnode.birth_death_probabilities.mu = -1) ∧
      cafe_shell_set_lambda 0 param' [1/50] = some param'' ∧ param''.pcafe = some tree'' ∧
      tree''.nlist = (List.replicate 5 ⟨⟨7/100, 3/100, none, none⟩, none, none⟩).map
        (assign_scalar (1/50)) ∧
      (∀ pcnode ∈ tree''.nlist, pcnode.birth_death_probabilities.lambda = 1/50 ∧
        pcnode.birth_death_probabilities.mu = -1) :=
  C7_scalar_lambda_install_replaces 0 cafe_param_scalar
    { nlist := List.replicate 5 ⟨⟨7/100, 3/100, none, none⟩, none, none⟩,
      k := 0, branch_params_cnt := 0, size_of_factor := 1 }
    [7/100] [1/100] [1/50] (1/100) (1/50) rfl rfl rfl rfl (by decide) (by decide) (by decide)
    rfl (by decide) rfl

/-! ## The rate-tree command -/

theorem parse_func_eq (cnt : Int) (pnode : PhylogenyNode) :
    phylogeny_lambda_parse_func cnt pnode
      = (cnt + (if pnode.labeled then 1 else 0), (phylogeny_lambda_parse_func 0 pnode).2) := by
  unfold phylogeny_lambda_parse_func PhylogenyNode.labeled
  cases pnode.name <;> simp

theorem load_fold_eq (l : List PhylogenyNode) :
    ∀ (cnt : Int) (acc : List PhylogenyNode),
      l.foldl
        (fun (acc : Int × List PhylogenyNode) pnode =>
          ((phylogeny_lambda_parse_func acc.1 pnode).1,
            acc.2 ++ [(phylogeny_lambda_parse_func acc.1 pnode).2]))
        (cnt, acc)
      = (cnt + (l.countP PhylogenyNode.labeled : Nat),
          acc ++ l.map (fun pnode => (phylogeny_lambda_parse_func 0 pnode).2)) := by
  induction l with
  | nil => intro cnt acc; simp
  | cons a l ih =>
    intro cnt acc
    rw [List.foldl_cons, parse_func_eq cnt a, ih]
    by_cases ha : a.labeled = true
    · simp [ha, List.countP_cons_of_pos]
      ring
    · simp [ha]

/-- The parser leaves a tree with as many nodes as it built, and the counter
advanced by the number of named nodes. -/
theorem load_lambda_tree_eq (cnt : Int) (raw : RateTree) :
    load_lambda_tree cnt raw
      = (cnt + (raw.nlist.countP PhylogenyNode.labeled : Nat),
          { raw with nlist :=
            raw.nlist.map (fun pnode => (phylogeny_lambda_parse_func 0 pnode).2) }) := by
  unfold load_lambda_tree
  have := load_fold_eq raw.nlist cnt []
  simp only [List.nil_append] at this
  simp only [this]

/-- The result of `__cafe_cmd_lambda_tree` when a main tree is loaded. -/
theorem lambda_tree_eq (sh : Shell) (idx : Int) (raw : RateTree) (tree : CafeTree)
    (hpc : sh.cafe_param.pcafe = some tree) :
    __cafe_cmd_lambda_tree sh idx raw =
      some (
        if ((load_lambda_tree 0 raw).2.nlist.length : Int) ≠ tree.nlist.length then
          (-1, { sh with cafe_param := { sh.cafe_param with
            pcafe := some { tree with branch_params_cnt := (load_lambda_tree 0 raw).1 } } })
        else if (load_lambda_tree 0 raw).1 ≠ (tree.nlist.length : Int) - 1 then
          (-1, { sh with cafe_param := { sh.cafe_param with
            pcafe := some { tree with branch_params_cnt := (load_lambda_tree 0 raw).1 } } })
        else if idx = 2 then
          (1, { cafe_param := { sh.cafe_param with
                  pcafe := some { tree with branch_params_cnt := (load_lambda_tree 0 raw).1 } },
                tmp_lambda_tree := some (load_lambda_tree 0 raw).2 })
        else
          (0, { sh with cafe_param := { sh.cafe_param with
            pcafe := some { tree with branch_params_cnt := (load_lambda_tree 0 raw).1 },
            lambda_tree := some (load_lambda_tree 0 raw).2,
            num_lambdas := ((collect_lambda_idx (load_lambda_tree 0 raw).2.nlist).length : Int) } })) := by
  simp only [__cafe_cmd_lambda_tree, hpc, Option.bind_eq_bind, Option.some_bind, Option.pure_def]
  split_ifs <;> rfl

/-- The three ways `__cafe_cmd_lambda_tree` comes back when a main tree is
loaded. -/
theorem lambda_tree_cases (sh : Shell) (idx : Int) (raw : RateTree) (tree : CafeTree)
    (hpc : sh.cafe_param.pcafe = some tree) :
    ∃ code sh', __cafe_cmd_lambda_tree sh idx raw = some (code, sh') ∧
      same_parameters sh sh' ∧
      (code = -1 ↔ (raw.nlist.length ≠ tree.nlist.length ∨
        ((raw.nlist.countP PhylogenyNode.labeled : Nat) : Int) ≠ (tree.nlist.length : Int) - 1)) ∧
      (code = -1 → sh'.cafe_param.lambda_tree = sh.cafe_param.lambda_tree ∧
        sh'.tmp_lambda_tree = sh.tmp_lambda_tree ∧
        sh'.cafe_param.num_lambdas = sh.cafe_param.num_lambdas) ∧
      (code ≠ -1 → (idx = 2 → code = 1 ∧ sh'.tmp_lambda_tree = some (load_lambda_tree 0 raw).2) ∧
        (idx ≠ 2 → code = 0 ∧
          sh'.cafe_param.lambda_tree = some (load_lambda_tree 0 raw).2)) := by
  have hl : (load_lambda_tree 0 raw).2.nlist.length = raw.nlist.length := by
    rw [load_lambda_tree_eq]; simp
  have hc : (load_lambda_tree 0 raw).1 = ((raw.nlist.countP PhylogenyNode.labeled : Nat) : Int) := by
    rw [load_lambda_tree_eq]; simp
  rw [lambda_tree_eq sh idx raw tree hpc]
  by_cases h1 : raw.nlist.length = tree.nlist.length
  · have c1 : ¬ ((load_lambda_tree 0 raw).2.nlist.length : Int) ≠ tree.nlist.length := by
      rw [hl, h1]; simp
    rw [if_neg c1]
    by_cases h2 : ((raw.nlist.countP PhylogenyNode.labeled : Nat) : Int)
        = (tree.nlist.length : Int) - 1
    · have c2 : ¬ (load_lambda_tree 0 raw).1 ≠ (tree.nlist.length : Int) - 1 := by
        rw [hc, h2]; simp
      rw [if_neg c2]
      by_cases h3 : idx = 2
      · rw [if_pos h3]
        refine ⟨_, _, rfl, ?_, ?_, ?_, ?_⟩
        · simp [same_parameters, hpc]
        · simp [h1, h2]
        · intro h; omega
        · intro _; exact ⟨fun _ => ⟨rfl, rfl⟩, fun h => absurd h3 h⟩
      · rw [if_neg h3]
        refine ⟨_, _, rfl, ?_, ?_, ?_, ?_⟩
        · simp [same_parameters, hpc]
        · simp [h1, h2]
        · intro h; omega
        · intro _; exact ⟨fun h => absurd h h3, fun _ => ⟨rfl, rfl⟩⟩
    · have c2 : (load_lambda_tree 0 raw).1 ≠ (tree.nlist.length : Int) - 1 := by
        rw [hc]; exact h2
      rw [if_pos c2]
      refine ⟨_, _, rfl, ?_, ?_, ?_, ?_⟩
      · simp [same_parameters, hpc]
      · simp [h2]
      · intro _; exact ⟨rfl, rfl, rfl⟩
      · intro h; exact absurd rfl h
  · have c1 : ((load_lambda_tree 0 raw).2.nlist.length : Int) ≠ tree.nlist.length := by
      rw [hl]; exact_mod_cast h1
    rw [if_pos c1]
    refine ⟨_, _, rfl, ?_, ?_, ?_, ?_⟩
    · simp [same_parameters, hpc]
    · simp [h1]
    · intro _; exact ⟨rfl, rfl, rfl⟩
    · intro h; exact absurd rfl h

/-! ## The option loop of `lambdamu` -/

theorem same_parameters_refl (sh : Shell) : same_parameters sh sh := ⟨rfl, rfl, rfl⟩

theorem same_parameters_trans (a b c : Shell) (h1 : same_parameters a b)
    (h2 : same_parameters b c) : same_parameters a c :=
  ⟨h2.1.trans h1.1, h2.2.1.trans h1.2.1, h2.2.2.trans h1.2.2⟩

theorem same_parameters_tree (a b : Shell) (tree : CafeTree) (h : same_parameters a b)
    (hpc : a.cafe_param.pcafe = some tree) :
    ∃ tree', b.cafe_param.pcafe = some tree' ∧ tree'.nlist = tree.nlist := by
  have h3 := h.2.2
  rw [hpc] at h3
  cases hb : b.cafe_param.pcafe with
  | none => rw [hb] at h3; simp at h3
  | some t =>
    rw [hb] at h3
    simp only [Option.map_some', Option.some.injEq] at h3
    exact ⟨t, rfl, h3⟩

/-- One round of the option loop either returns -1 (a rate tree was refused) or
goes on; it never touches the parameter vector, and it adds the number of
values of a `-l`, `-m` or `-p` option to the count of supplied parameters. -/
theorem lambda_mu_option_inv (st : Parsed) (parg : Argument) (tree : CafeTree)
    (hpc : st.sh.cafe_param.pcafe = some tree) :
    (∃ sh', lambda_mu_option st parg = some (.ret (-1) sh') ∧ same_parameters st.sh sh') ∨
    (∃ st', lambda_mu_option st parg = some (.next st') ∧ same_parameters st.sh st'.sh ∧
      st'.tmp.num_params = st.tmp.num_params + parg.supplied) := by
  cases parg with
  | t idx raw =>
    obtain ⟨code, sh', h, hsame, hcode, -, hinst⟩ := lambda_tree_cases st.sh idx raw tree hpc
    by_cases hc : code = -1
    · subst hc
      left
      exact ⟨sh', by simp [lambda_mu_option, h], hsame⟩
    · right
      have hpos : ¬ code < 0 := by
        by_cases h2 : idx = 2
        · have := ((hinst hc).1 h2).1; omega
        · have := ((hinst hc).2 h2).1; omega
      refine ⟨_, by simp [lambda_mu_option, h, hpos]; rfl, ?_, ?_⟩
      · exact ⟨hsame.1, hsame.2.1, hsame.2.2⟩
      · simp [Argument.supplied]
  | l values =>
    right; exact ⟨_, rfl, same_parameters_refl _, rfl⟩
  | m values =>
    right; exact ⟨_, rfl, same_parameters_refl _, rfl⟩
  | p values =>
    right; exact ⟨_, rfl, same_parameters_refl _, rfl⟩
  | s => right; exact ⟨_, rfl, same_parameters_refl _, by simp [Argument.supplied]⟩
  | checkconv => right; exact ⟨_, rfl, same_parameters_refl _, by simp [Argument.supplied]⟩
  | k value => right; exact ⟨_, rfl, same_parameters_refl _, by simp [Argument.supplied]⟩
  | f => right; exact ⟨_, rfl, same_parameters_refl _, by simp [Argument.supplied]⟩
  | eqbg => right; exact ⟨_, rfl, same_parameters_refl _, by simp [Argument.supplied]⟩
  | other => right; exact ⟨_, rfl, same_parameters_refl _, by simp [Argument.supplied]⟩

/-- The option loop either returns -1 or runs through; it never touches the
parameter vector, and the count of supplied parameters it collects is the
total number of values given with `-l`, `-m` and `-p`. -/
theorem lambda_mu_options_inv (pargs : List Argument) :
    ∀ (st : Parsed) (tree : CafeTree), st.sh.cafe_param.pcafe = some tree →
      (∃ sh', lambda_mu_options st pargs = some (.ret (-1) sh') ∧
        same_parameters st.sh sh') ∨
      (∃ st', lambda_mu_options st pargs = some (.next st') ∧ same_parameters st.sh st'.sh ∧
        st'.tmp.num_params = st.tmp.num_params + supplied pargs) := by
  induction pargs with
  | nil =>
    intro st tree _
    right
    exact ⟨st, rfl, same_parameters_refl _, by simp [supplied]⟩
  | cons parg rest ih =>
    intro st tree hpc
    rcases lambda_mu_option_inv st parg tree hpc with ⟨sh', h, hs⟩ | ⟨st1, h, hs, hn⟩
    · left
      exact ⟨sh', by simp [lambda_mu_options, h], hs⟩
    · obtain ⟨tree1, hpc1, -⟩ := same_parameters_tree _ _ tree hs hpc
      rcases ih st1 tree1 hpc1 with ⟨sh', h2, hs2⟩ | ⟨st2, h2, hs2, hn2⟩
      · left
        exact ⟨sh', by simp [lambda_mu_options, h, h2], same_parameters_trans _ _ _ hs hs2⟩
      · right
        refine ⟨st2, by simp [lambda_mu_options, h, h2], same_parameters_trans _ _ _ hs hs2, ?_⟩
        rw [hn2, hn]
        simp only [supplied, List.map_cons, List.sum_cons]
        ring

theorem lambda_mu_options_append (pre rest : List Argument) :
    ∀ st : Parsed, lambda_mu_options st (pre ++ rest) =
      match lambda_mu_options st pre with
      | some (.next st') => lambda_mu_options st' rest
      | other => other := by
  induction pre with
  | nil => intro st; rfl
  | cons parg pre ih =>
    intro st
    simp only [List.cons_append, lambda_mu_options]
    cases h : lambda_mu_option st parg with
    | none => rfl
    | some r =>
      cases r with
      | ret code sh => rfl
      | next st1 => exact ih st1

theorem same_parameters_start (sh : Shell) : same_parameters sh (lambda_mu_start sh).sh :=
  ⟨rfl, rfl, rfl⟩

/-- C9. A rate tree whose node count differs from the main tree's makes
`__cafe_cmd_lambda_tree` return -1 with `lambda_tree`, `tmp_lambda_tree` and
`num_lambdas` as they were, and `cafe_cmd_lambda_mu`, given such a tree with
`-t` among its options, returns -1 with the parameter vector, the weight
buffer and the nodes of the main tree as they were. -/
theorem C9_topology_mismatch_returns_before_copy (fresh : ℚ)
    (fminsearch : CafeParam → Option CafeParam) (sh : Shell) (tree : CafeTree)
    (idx : Int) (raw : RateTree) (pre post : List Argument)
    (hfam : sh.cafe_param.pfamily.isSome = true)
    (hpc : sh.cafe_param.pcafe = some tree)
    (hmis : raw.nlist.length ≠ tree.nlist.length) :
    (∃ sh1, __cafe_cmd_lambda_tree sh idx raw = some (-1, sh1) ∧
      sh1.cafe_param.lambda_tree = sh.cafe_param.lambda_tree ∧
      sh1.tmp_lambda_tree = sh.tmp_lambda_tree ∧
      sh1.cafe_param.num_lambdas = sh.cafe_param.num_lambdas ∧
      same_parameters sh sh1) ∧
    (∃ sh', cafe_cmd_lambda_mu fresh fminsearch sh (pre ++ Argument.t idx raw :: post)
        = some (-1, sh') ∧
      same_parameters sh sh') := by
  constructor
  · obtain ⟨code, sh1, h, hs, hcode, hkeep, -⟩ := lambda_tree_cases sh idx raw tree hpc
    have hc : code = -1 := hcode.mpr (Or.inl hmis)
    subst hc
    obtain ⟨h1, h2, h3⟩ := hkeep rfl
    exact ⟨sh1, h, h1, h2, h3, hs⟩
  · have hfam' : sh.cafe_param.pfamily.isNone = false := by
      cases hp : sh.cafe_param.pfamily with
      | none => rw [hp] at hfam; simp at hfam
      | some n => rfl
    have hpc' : sh.cafe_param.pcafe.isNone = false := by rw [hpc]; rfl
    have hstart : (lambda_mu_start sh).sh.cafe_param.pcafe = some tree := hpc
    simp only [cafe_cmd_lambda_mu, hfam', hpc', Bool.false_eq_true, if_false]
    rw [lambda_mu_options_append]
    rcases lambda_mu_options_inv pre (lambda_mu_start sh) tree hstart with
      ⟨sh', h, hs⟩ | ⟨st1, h, hs, -⟩
    · rw [h]
      exact ⟨sh', rfl, same_parameters_trans _ _ _ (same_parameters_start sh) hs⟩
    · rw [h]
      obtain ⟨tree1, hpc1, hn1⟩ := same_parameters_tree _ _ tree hs hstart
      obtain ⟨code, sh1, h1, hs1, hcode, -, -⟩ := lambda_tree_cases st1.sh idx raw tree1 hpc1
      have hc : code = -1 := hcode.mpr (Or.inl (by rw [hn1]; exact hmis))
      subst hc
      refine ⟨sh1, ?_, same_parameters_trans _ _ _ (same_parameters_start sh)
        (same_parameters_trans _ _ _ hs hs1)⟩
      simp [lambda_mu_options, lambda_mu_option, h1]

/-- Witness for C9: a four-node rate tree against the three-node sample tree,
after a `-l` option. -/
theorem C9_topology_mismatch_returns_before_copy_witness :
    (∃ sh1, __cafe_cmd_lambda_tree shell_example 1 rate_tree_four_nodes = some (-1, sh1) ∧
      sh1.cafe_param.lambda_tree = shell_example.cafe_param.lambda_tree ∧
      sh1.tmp_lambda_tree = shell_example.tmp_lambda_tree ∧
      sh1.cafe_param.num_lambdas = shell_example.cafe_param.num_lambdas ∧
      same_parameters shell_example sh1) ∧
    (∃ sh', cafe_cmd_lambda_mu 0 some shell_example
        ([Argument.l [1/2]] ++ Argument.t 1 rate_tree_four_nodes :: [Argument.m [1/3]])
        = some (-1, sh') ∧
      same_parameters shell_example sh') :=
  C9_topology_mismatch_returns_before_copy 0 some shell_example
    { nlist := [cafe_node_example, cafe_node_example, cafe_node_example],
      k := 0, branch_params_cnt := 0, size_of_factor := 1 }
    1 rate_tree_four_nodes [Argument.l [1/2]] [Argument.m [1/3]] rfl rfl (by decide)

/-! ## The count check of the set arm -/

/-- When the count of supplied values is not the required count, the set arm
returns -1 before it allocates or copies anything. -/
theorem set_setup_failed (fresh : ℚ) (cp : CafeParam) (tmp : TmpParam)
    (h : tmp.num_params ≠ required_num_params tmp) :
    ∃ cp', set_setup fresh cp tmp = some (.failed cp') ∧
      cp'.parameters = cp.parameters ∧ cp'.k_weights = cp.k_weights ∧
      cp'.pcafe = cp.pcafe := by
  unfold required_num_params at h
  unfold set_setup
  by_cases ht : tmp.lambda_tree.isSome = true
  · rw [if_pos ht] at h ⊢
    by_cases hK : 0 < tmp.parameterized_k_value
    · rw [if_pos hK] at h
      simp only [hK, if_true]
      rw [if_pos (fun hh => h hh.symm)]
      exact ⟨_, rfl, rfl, rfl, rfl⟩
    · rw [if_neg hK] at h
      simp only [hK, if_false]
      rw [if_pos (fun hh => h hh.symm)]
      exact ⟨_, rfl, rfl, rfl, rfl⟩
  · rw [if_neg ht] at h ⊢
    by_cases he : tmp.eqbg ≠ 0
    · rw [if_pos he]
      exact ⟨_, rfl, rfl, rfl, rfl⟩
    · rw [if_neg he]
      by_cases hK : 0 < tmp.parameterized_k_value
      · rw [if_pos hK] at h
        simp only [hK, if_true]
        rw [if_pos (fun hh => h hh.symm)]
        exact ⟨_, rfl, rfl, rfl, rfl⟩
      · rw [if_neg hK] at h
        simp only [hK, if_false]
        rw [if_pos (fun hh => h hh.symm)]
        exact ⟨_, rfl, rfl, rfl, rfl⟩

/-- C8 (amended). In the set arm of `cafe_cmd_lambda_mu`, when the total number
of values supplied with `-l`, `-m` and `-p` differs from the parameter count
required by the collected mode, the command returns -1 and the parameter
vector, the weight buffer and the nodes of the main tree are as they were:
nothing is copied, no decoder and no optimiser runs. -/
theorem C8_total_count_mismatch_returns_minus_one (fresh : ℚ)
    (fminsearch : CafeParam → Option CafeParam) (sh : Shell) (tree : CafeTree)
    (pargs : List Argument) (st : Parsed)
    (hfam : sh.cafe_param.pfamily.isSome = true)
    (hpc : sh.cafe_param.pcafe = some tree)
    (hloop : lambda_mu_options (lambda_mu_start sh) pargs = some (.next st))
    (hdone : st.bdone = 0) (hsearch : st.bsearch = 0)
    (hmis : supplied pargs ≠ required_num_params st.tmp) :
    ∃ sh', cafe_cmd_lambda_mu fresh fminsearch sh pargs = some (-1, sh') ∧
      same_parameters sh sh' := by
  have hfam' : sh.cafe_param.pfamily.isNone = false := by
    cases hp : sh.cafe_param.pfamily with
    | none => rw [hp] at hfam; simp at hfam
    | some n => rfl
  have hpc' : sh.cafe_param.pcafe.isNone = false := by rw [hpc]; rfl
  have hstart : (lambda_mu_start sh).sh.cafe_param.pcafe = some tree := hpc
  rcases lambda_mu_options_inv pargs (lambda_mu_start sh) tree hstart with
    ⟨sh', h, -⟩ | ⟨st1, h, hs, hn⟩
  · rw [hloop] at h; cases h
  · rw [hloop] at h
    obtain rfl : st = st1 := by
      injection h with h; injection h
    have hnum : st.tmp.num_params ≠ required_num_params st.tmp := by
      rw [hn]
      simpa [lambda_mu_start, tmp_param_init] using hmis
    obtain ⟨cp', hfail, h1, h2, h3⟩ := set_setup_failed fresh
      { st.sh.cafe_param with posterior := st.tmp.posterior } st.tmp hnum
    refine ⟨{ st.sh with cafe_param := cp' }, ?_, ?_⟩
    · simp only [cafe_cmd_lambda_mu, hfam', hpc', Bool.false_eq_true, if_false, hloop, hdone,
        hsearch, ne_eq, not_true_eq_false, hfail]
    · refine same_parameters_trans _ _ _ (same_parameters_start sh)
        (same_parameters_trans _ _ _ hs ?_)
      exact ⟨h1, h2, by rw [h3]⟩

/-- Witness for C8: two classes, no clusters (four parameters required), five
values supplied. -/
theorem C8_total_count_mismatch_returns_minus_one_witness :
    ∃ sh', cafe_cmd_lambda_mu 0 some shell_example
        [Argument.t 1 rate_tree_example, Argument.l [1/2, 1/3, 1/4], Argument.m [1/5, 1/6]]
        = some (-1, sh') ∧
      same_parameters shell_example sh' :=
  C8_total_count_mismatch_returns_minus_one 0 some shell_example
    { nlist := [cafe_node_example, cafe_node_example, cafe_node_example],
      k := 0, branch_params_cnt := 0, size_of_factor := 1 }
    [Argument.t 1 rate_tree_example, Argument.l [1/2, 1/3, 1/4], Argument.m [1/5, 1/6]]
    _ rfl rfl rfl rfl rfl (by decide)

/-- C8, counterexample. Two classes, no clusters: the lambda region and the mu
region hold two values each. With three values after `-l` and one after `-m`
both counts are wrong but the total is the required four: the command passes
the count check and does not return -1 (it goes on to copy two mu values out
of the one-value array, where the program has no defined result). -/
theorem C8_counterexample :
    (Argument.l [1/10, 1/5, 3/10]).supplied ≠ region_lambda 2 0 0 ∧
    (Argument.m [2/5]).supplied ≠ region_mu 2 0 0 0 ∧
    ∀ sh', cafe_cmd_lambda_mu 0 some shell_example
        [Argument.t 1 rate_tree_example, Argument.l [1/10, 1/5, 3/10], Argument.m [2/5]]
      ≠ some (-1, sh') := by
  have h : cafe_cmd_lambda_mu 0 some shell_example
      [Argument.t 1 rate_tree_example, Argument.l [1/10, 1/5, 3/10], Argument.m [2/5]]
      = none := by decide!
  refine ⟨by decide, by decide, fun sh' hh => ?_⟩
  rw [h] at hh
  cases hh

/-! ## Labels of a rate tree -/

theorem all_labeled_iff (t : List PhylogenyNode) :
    (∀ j : Nat, (t[j]?).map PhylogenyNode.labeled ≠ some false) ↔
      ∀ x ∈ t, x.labeled = true := by
  constructor
  · intro h x hx
    obtain ⟨j, hj, rfl⟩ := List.getElem_of_mem hx
    have := h j
    rw [List.getElem?_eq_getElem hj] at this
    cases hl : t[j].labeled with
    | true => rfl
    | false => rw [Option.map_some', hl] at this; exact absurd rfl this
  · intro h j hj
    cases hg : t[j]? with
    | none => rw [hg] at hj; cases hj
    | some x =>
      rw [hg, Option.map_some'] at hj
      have hx : x ∈ t := List.getElem?_mem hg
      rw [h x hx] at hj
      cases hj

theorem countP_lt_of_unlabeled (t : List PhylogenyNode) (r : Nat)
    (h : (t[r]?).map PhylogenyNode.labeled = some false) :
    t.countP PhylogenyNode.labeled < t.length := by
  have hle := List.countP_le_length PhylogenyNode.labeled (l := t)
  have hne : t.countP PhylogenyNode.labeled ≠ t.length := by
    intro heq
    have hall := (all_labeled_iff t).mpr (List.countP_eq_length.mp heq) r
    exact hall h
  omega

/-- When the root has no name, the number of named nodes is the number of
branches exactly when every other node is named. -/
theorem countP_labeled_eq_branches (l : List PhylogenyNode) :
    ∀ r : Nat, (l[r]?).map PhylogenyNode.labeled = some false →
      (l.countP PhylogenyNode.labeled = l.length - 1 ↔
        ∀ i : Nat, i ≠ r → (l[i]?).map PhylogenyNode.labeled ≠ some false) := by
  induction l with
  | nil => intro r h; simp at h
  | cons a t ih =>
    intro r h
    cases r with
    | zero =>
      have ha : a.labeled = false := by simpa using h
      rw [List.countP_cons_of_neg _ _ (by simp [ha])]
      simp only [List.length_cons, Nat.add_sub_cancel]
      rw [List.countP_eq_length, ← all_labeled_iff]
      constructor
      · intro hall i hi
        obtain ⟨j, rfl⟩ : ∃ j, i = j + 1 := ⟨i - 1, by omega⟩
        simpa using hall j
      · intro hall j
        simpa using hall (j + 1) (by omega)
    | succ r' =>
      have ht : (t[r']?).map PhylogenyNode.labeled = some false := by simpa using h
      have hlt := countP_lt_of_unlabeled t r' ht
      simp only [List.length_cons, Nat.add_sub_cancel]
      cases ha : a.labeled with
      | true =>
        rw [List.countP_cons_of_pos _ _ ha]
        have hiff : (t.countP PhylogenyNode.labeled + 1 = t.length) ↔
            (t.countP PhylogenyNode.labeled = t.length - 1) := by omega
        rw [hiff, ih r' ht]
        constructor
        · intro hall i hi
          cases i with
          | zero => simp [ha]
          | succ j => simpa using hall j (by omega)
        · intro hall j hj
          simpa using hall (j + 1) (by omega)
      | false =>
        rw [List.countP_cons_of_neg _ _ (by simp [ha])]
        constructor
        · intro heq; omega
        · intro hall
          have := hall 0 (by omega)
          simp [ha] at this

/-- C10 (amended). For a rate tree with as many nodes as the main tree and a
root without a name, `__cafe_cmd_lambda_tree` returns -1 exactly when some
non-root node carries no label; otherwise it installs the tree (as the primary
rate tree, or as the secondary one for index 2). -/
theorem C10_unlabeled_branch_refused_when_root_unnamed (sh : Shell) (idx : Int)
    (raw : RateTree) (tree : CafeTree)
    (hpc : sh.cafe_param.pcafe = some tree)
    (hlen : raw.nlist.length = tree.nlist.length)
    (hroot : (raw.nlist[raw.root]?).map PhylogenyNode.labeled = some false) :
    ∃ code sh', __cafe_cmd_lambda_tree sh idx raw = some (code, sh') ∧
      (code = -1 ↔
        ∃ i : Nat, i ≠ raw.root ∧ (raw.nlist[i]?).map PhylogenyNode.labeled = some false) ∧
      (code = -1 → sh'.cafe_param.lambda_tree = sh.cafe_param.lambda_tree ∧
        sh'.tmp_lambda_tree = sh.tmp_lambda_tree) ∧
      (code ≠ -1 →
        (idx = 2 → sh'.tmp_lambda_tree = some (load_lambda_tree 0 raw).2) ∧
        (idx ≠ 2 → sh'.cafe_param.lambda_tree = some (load_lambda_tree 0 raw).2)) := by
  obtain ⟨code, sh', h, -, hcode, hkeep, hinst⟩ := lambda_tree_cases sh idx raw tree hpc
  have hpos : 1 ≤ raw.nlist.length := by
    cases hl : raw.nlist with
    | nil => rw [hl] at hroot; simp at hroot
    | cons a t => simp
  have hcount := countP_labeled_eq_branches raw.nlist raw.root hroot
  refine ⟨code, sh', h, ?_, fun hc => ⟨(hkeep hc).1, (hkeep hc).2.1⟩,
    fun hc => ⟨fun h2 => ((hinst hc).1 h2).2, fun h2 => ((hinst hc).2 h2).2⟩⟩
  rw [hcode]
  constructor
  · rintro (h1 | h2)
    · exact absurd hlen h1
    · by_contra hno
      apply h2
      have hall : ∀ i : Nat, i ≠ raw.root →
          (raw.nlist[i]?).map PhylogenyNode.labeled ≠ some false := by
        intro i hi hfalse
        exact hno ⟨i, hi, hfalse⟩
      have := hcount.mpr hall
      rw [this, ← hlen]
      omega
  · rintro ⟨i, hi, hfalse⟩
    right
    intro heq
    have hc : raw.nlist.countP PhylogenyNode.labeled = raw.nlist.length - 1 := by
      rw [← hlen] at heq
      omega
    exact hcount.mp hc i hi hfalse

/-- Witness for C10: the sample rate tree (two labelled leaves, unnamed root)
against the three-node sample tree. -/
theorem C10_unlabeled_branch_refused_when_root_unnamed_witness :
    ∃ code sh', __cafe_cmd_lambda_tree shell_example 1 rate_tree_example = some (code, sh') ∧
      (code = -1 ↔
        ∃ i : Nat, i ≠ rate_tree_example.root ∧
          (rate_tree_example.nlist[i]?).map PhylogenyNode.labeled = some false) ∧
      (code = -1 → sh'.cafe_param.lambda_tree = shell_example.cafe_param.lambda_tree ∧
        sh'.tmp_lambda_tree = shell_example.tmp_lambda_tree) ∧
      (code ≠ -1 →
        ((1 : Int) = 2 → sh'.tmp_lambda_tree = some (load_lambda_tree 0 rate_tree_example).2) ∧
        ((1 : Int) ≠ 2 →
          sh'.cafe_param.lambda_tree = some (load_lambda_tree 0 rate_tree_example).2)) :=
  C10_unlabeled_branch_refused_when_root_unnamed shell_example 1 rate_tree_example
    { nlist := [cafe_node_example, cafe_node_example, cafe_node_example],
      k := 0, branch_params_cnt := 0, size_of_factor := 1 }
    rfl rfl rfl

/-- C10, counterexample. A three-node rate tree whose root is named and whose
last leaf is not: the leaf (node 2, not the root) carries no label, yet two
nodes are named, as many as there are branches, so `__cafe_cmd_lambda_tree`
returns 0 and installs the tree. -/
theorem C10_counterexample :
    rate_tree_named_root.nlist.length = 3 ∧
    (2 : Nat) ≠ rate_tree_named_root.root ∧
    (rate_tree_named_root.nlist[2]?).map PhylogenyNode.labeled = some false ∧
    (__cafe_cmd_lambda_tree shell_example 1 rate_tree_named_root).map
        (fun r => (r.1, r.2.cafe_param.lambda_tree.isSome, r.2.cafe_param.num_lambdas))
      = some (0, true, 1) := by
  refine ⟨rfl, by decide, rfl, by decide⟩


/-! ## Loops of the error model -/

theorem for_loop_nil {σ : Type} (lo hi : Int) (body : Int → σ → σ) (s : σ)
    (h : hi ≤ lo) : for_loop lo hi body s = s := by
  have : (hi - lo).toNat = 0 := by omega
  simp [for_loop, this]

theorem for_loop_succ {σ : Type} (lo hi : Int) (body : Int → σ → σ) (s : σ)
    (h : lo ≤ hi) : for_loop lo (hi + 1) body s = body hi (for_loop lo hi body s) := by
  have h1 : (hi + 1 - lo).toNat = (hi - lo).toNat + 1 := by omega
  have h2 : lo + (((hi - lo).toNat : Nat) : Int) = hi := by omega
  simp only [for_loop, h1, List.range_succ, List.foldl_append, List.foldl_cons,
    List.foldl_nil, h2]

/-- Invariant rule for a `for` loop. -/
theorem for_loop_induction {σ : Type} (lo hi : Int) (body : Int → σ → σ) (s : σ)
    (P : Int → σ → Prop) (hle : lo ≤ hi) (h0 : P lo s)
    (hstep : ∀ i t, lo ≤ i → i < hi → P i t → P (i + 1) (body i t)) :
    P hi (for_loop lo hi body s) := by
  have key : ∀ n, lo ≤ n → n ≤ hi → P n (for_loop lo n body s) := by
    intro n hn
    refine @Int.le_induction (fun n => n ≤ hi → P n (for_loop lo n body s)) lo ?_ ?_ n hn
    · intro _; rw [for_loop_nil _ _ _ _ (le_refl _)]; exact h0
    · intro n hn ih h
      rw [for_loop_succ _ _ _ _ hn]
      exact hstep n _ hn (by omega) (ih (by omega))
  exact key hi hle (le_refl _)

/-- A summing loop is the sum over its index range. -/
theorem for_loop_sum (lo hi : Int) (g : Int → ℚ) (c : ℚ) :
    for_loop lo hi (fun i s => s + g i) c = c + ∑ i in Finset.Ico lo hi, g i := by
  rcases le_or_lt lo hi with h | h
  · refine for_loop_induction lo hi _ c
      (fun n t => t = c + ∑ i in Finset.Ico lo n, g i) h (by simp) ?_
    intro i t h1 _ ht
    have : Finset.Ico lo (i + 1) = insert i (Finset.Ico lo i) := by
      ext x; simp only [Finset.mem_Ico, Finset.mem_insert]; omega
    rw [this, Finset.sum_insert (by simp), ht]; ring
  · rw [for_loop_nil _ _ _ _ (le_of_lt h), Finset.Ico_eq_empty (by omega)]; simp

/-- A loop that writes cells of column `j` row by row. -/
theorem for_loop_column (lo hi j : Int) (c : Int → Prop) [DecidablePred c] (v : Int → ℚ)
    (m : Int → Int → ℚ) (a b : Int) :
    for_loop lo hi (fun i m => if c i then set2 m i j (v i) else m) m a b
      = if b = j ∧ lo ≤ a ∧ a < hi ∧ c a then v a else m a b := by
  rcases le_or_lt lo hi with h | h
  · refine for_loop_induction lo hi _ m
      (fun n t => t a b = if b = j ∧ lo ≤ a ∧ a < n ∧ c a then v a else m a b) h ?_ ?_
    · have : ¬ (b = j ∧ lo ≤ a ∧ a < lo ∧ c a) := by omega
      show m a b = _
      rw [if_neg this]
    · intro i t h1 _ ht
      by_cases hc : c i
      · simp only [if_pos hc, set2]
        by_cases hab : a = i ∧ b = j
        · obtain ⟨rfl, rfl⟩ := hab
          rw [if_pos ⟨rfl, rfl⟩, if_pos ⟨rfl, h1, by omega, hc⟩]
        · rw [if_neg hab, ht]
          by_cases h2 : b = j ∧ lo ≤ a ∧ a < i ∧ c a
          · rw [if_pos h2, if_pos ⟨h2.1, h2.2.1, by omega, h2.2.2.2⟩]
          · rw [if_neg h2, if_neg]
            rintro ⟨hb, h3, h4, h5⟩
            have : a ≠ i := fun e => hab ⟨e, hb⟩
            exact h2 ⟨hb, h3, by omega, h5⟩
      · simp only [if_neg hc]
        rw [ht]
        by_cases h2 : b = j ∧ lo ≤ a ∧ a < i ∧ c a
        · rw [if_pos h2, if_pos ⟨h2.1, h2.2.1, by omega, h2.2.2.2⟩]
        · rw [if_neg h2, if_neg]
          rintro ⟨hb, h3, h4, h5⟩
          have : a ≠ i := fun e => hc (e ▸ h5)
          exact h2 ⟨hb, h3, by omega, h5⟩
  · rw [for_loop_nil _ _ _ _ (le_of_lt h)]
    have : ¬ (b = j ∧ lo ≤ a ∧ a < hi ∧ c a) := by omega
    rw [if_neg this]


/-! ## `total_params` in closed form -/

theorem sum_Ico_split (f : Int → ℚ) (a b c : Int) (h1 : a ≤ b) (h2 : b ≤ c) :
    ∑ i in Finset.Ico a c, f i = ∑ i in Finset.Ico a b, f i + ∑ i in Finset.Ico b c, f i := by
  rw [← Finset.sum_union]
  · congr 1; ext x; simp only [Finset.mem_Ico, Finset.mem_union]; omega
  · rw [Finset.disjoint_left]; intro x; simp only [Finset.mem_Ico]; omega

theorem sum_Ico_shift (f : Int → ℚ) (a b c : Int) :
    ∑ i in Finset.Ico a b, f (i + c) = ∑ k in Finset.Ico (a + c) (b + c), f k := by
  refine Finset.sum_nbij' (fun i => i + c) (fun k => k - c) ?_ ?_ ?_ ?_ ?_
  · intro x; simp only [Finset.mem_Ico]; omega
  · intro x; simp only [Finset.mem_Ico]; omega
  · intro x _; simp only []; omega
  · intro x _; simp only []; omega
  · intro x _; rfl

theorem sum_Ico_reflect (f : Int → ℚ) (a b c : Int) :
    ∑ i in Finset.Ico a b, f (c - i) = ∑ k in Finset.Ico (c - b + 1) (c - a + 1), f k := by
  refine Finset.sum_nbij' (fun i => c - i) (fun k => c - k) ?_ ?_ ?_ ?_ ?_
  · intro x; simp only [Finset.mem_Ico]; omega
  · intro x; simp only [Finset.mem_Ico]; omega
  · intro x _; simp only []; omega
  · intro x _; simp only []; omega
  · intro x _; rfl

theorem sum_Ico_const (v : ℚ) (a b : Int) (h : a ≤ b) :
    ∑ _i in Finset.Ico a b, v = ((b - a : Int) : ℚ) * v := by
  rw [Finset.sum_const, Int.card_Ico, nsmul_eq_mul]
  congr 1
  have : (((b - a).toNat : Nat) : Int) = b - a := by omega
  exact_mod_cast this

/-- The pair loop of the symmetric branch: cells `D + 1 .. D + n - 1` and the
running sum. -/
theorem total_params_sym_loop (est t1 : Int → ℚ) (D n : Int) (hn : 1 ≤ n) :
    (for_loop 1 n (fun i (s : (Int → ℚ) × ℚ) =>
        (set1 s.1 (D + i) (est i), s.2 + 2 * est i)) (t1, est 0)).2
      = est 0 + ∑ i in Finset.Ico 1 n, 2 * est i ∧
    ∀ k, (for_loop 1 n (fun i (s : (Int → ℚ) × ℚ) =>
        (set1 s.1 (D + i) (est i), s.2 + 2 * est i)) (t1, est 0)).1 k
      = if D + 1 ≤ k ∧ k < D + n then est (k - D) else t1 k := by
  refine for_loop_induction 1 n _ (t1, est 0)
    (fun n s => s.2 = est 0 + ∑ i in Finset.Ico 1 n, 2 * est i ∧
      ∀ k, s.1 k = if D + 1 ≤ k ∧ k < D + n then est (k - D) else t1 k) hn ?_ ?_
  · refine ⟨by simp, fun k => ?_⟩
    rw [if_neg (by omega)]
  · intro i t h1 _ ht
    refine ⟨?_, fun k => ?_⟩
    · have : Finset.Ico 1 (i + 1) = insert i (Finset.Ico 1 i) := by
        ext x; simp only [Finset.mem_Ico, Finset.mem_insert]; omega
      simp only [this, Finset.sum_insert (show i ∉ Finset.Ico 1 i by simp), ht.1]; ring
    · simp only [set1]
      by_cases hk : k = D + i
      · subst hk
        rw [if_pos rfl, if_pos (by omega)]; congr 1; omega
      · rw [if_neg hk, ht.2 k]
        by_cases h : D + 1 ≤ k ∧ k < D + i
        · rw [if_pos h, if_pos (by omega)]
        · rw [if_neg h, if_neg (by omega)]

/-- The pair loop of the asymmetric branch. -/
theorem total_params_asym_loop (est t0 : Int → ℚ) (n : Int) (hn : 0 ≤ n) :
    (for_loop 0 n (fun i (s : (Int → ℚ) × ℚ) =>
        (set1 s.1 i (est i), s.2 + est i)) (t0, 0)).2
      = ∑ i in Finset.Ico 0 n, est i ∧
    ∀ k, (for_loop 0 n (fun i (s : (Int → ℚ) × ℚ) =>
        (set1 s.1 i (est i), s.2 + est i)) (t0, 0)).1 k
      = if 0 ≤ k ∧ k < n then est k else t0 k := by
  refine for_loop_induction 0 n _ (t0, 0)
    (fun n s => s.2 = ∑ i in Finset.Ico 0 n, est i ∧
      ∀ k, s.1 k = if 0 ≤ k ∧ k < n then est k else t0 k) hn ?_ ?_
  · refine ⟨by simp, fun k => ?_⟩
    rw [if_neg (by omega)]
  · intro i t h1 _ ht
    refine ⟨?_, fun k => ?_⟩
    · have : Finset.Ico 0 (i + 1) = insert i (Finset.Ico 0 i) := by
        ext x; simp only [Finset.mem_Ico, Finset.mem_insert]; omega
      simp only [this, Finset.sum_insert (show i ∉ Finset.Ico 0 i by simp), ht.1]; ring
    · simp only [set1]
      by_cases hk : k = i
      · subst hk
        rw [if_pos rfl, if_pos (by omega)]
      · rw [if_neg hk, ht.2 k]
        by_cases h : 0 ≤ k ∧ k < i
        · rw [if_pos h, if_pos (by omega)]
        · rw [if_neg h, if_neg (by omega)]

/-- The loop that mirrors the right half of the band into the left half. -/
theorem total_params_mirror_loop (t2 : Int → ℚ) (D N n : Int) (hn : 0 ≤ n) (hnD : n ≤ D)
    (hN : N = 2 * D + 2) (k : Int) :
    for_loop 0 n (fun i t => set1 t i (t (c_abs (N - 1 - 1 - i)))) t2 k
      = if 0 ≤ k ∧ k < n then t2 (2 * D - k) else t2 k := by
  have key : ∀ k, for_loop 0 n (fun i t => set1 t i (t (c_abs (N - 1 - 1 - i)))) t2 k
      = if 0 ≤ k ∧ k < n then t2 (2 * D - k) else t2 k := by
    refine for_loop_induction 0 n _ t2
      (fun n t => n ≤ D → ∀ k, t k = if 0 ≤ k ∧ k < n then t2 (2 * D - k) else t2 k)
      hn ?_ ?_ hnD
    · intro _ k; rw [if_neg (by omega)]
    · intro i t h1 _ ht hi k
      have ht' := ht (by omega)
      simp only [set1]
      have hc : c_abs (N - 1 - 1 - i) = 2 * D - i := by
        unfold c_abs; rw [if_neg (by omega)]; omega
      by_cases hk : k = i
      · subst hk
        rw [if_pos rfl, if_pos (by omega), hc, ht', if_neg (by omega)]
      · rw [if_neg hk, ht' k]
        by_cases h : 0 ≤ k ∧ k < i
        · rw [if_pos h, if_pos (by omega)]
        · rw [if_neg h, if_neg (by omega)]
  exact key k

/-- Closed form of `total_params`: `2 * D + 2` cells, the band values at
`0 .. 2 * D` and the marginal epsilon in the last cell. -/
theorem total_params_closed (fresh : ℚ) (em : ErrorMeasure) (hwf : em.well_formed) :
    (total_params fresh em).1 = 2 * em.model_parameter_diff + 2 ∧
    (∀ k, 0 ≤ k → k ≤ 2 * em.model_parameter_diff →
      (total_params fresh em).2 k = offset_parameter em (k - em.model_parameter_diff)) ∧
    (total_params fresh em).2 (2 * em.model_parameter_diff + 1) = epsilon em em.estimates := by
  obtain ⟨hD, hnum⟩ := hwf
  cases hs : em.b_symmetric
  · -- asymmetric
    rw [hs] at hnum
    simp only [Bool.false_eq_true, if_false] at hnum
    have hloop := total_params_asym_loop em.estimates (fun _ => fresh)
      (2 * em.model_parameter_diff + 1) (by omega)
    simp only [total_params, hs, Bool.false_eq_true, if_false, hnum]
    refine ⟨by omega, fun k h0 h1 => ?_, ?_⟩
    · simp only [set1]
      rw [if_neg (by omega), hloop.2 k, if_pos (by omega)]
      simp only [offset_parameter, hs, Bool.false_eq_true, if_false]
      congr 1; omega
    · simp only [set1]
      rw [if_pos (by omega), hloop.1]
      simp only [epsilon, band_total, hs, Bool.false_eq_true, if_false]
      congr 2; ring
  · -- symmetric
    rw [hs] at hnum
    simp only [if_true] at hnum
    have hloop := total_params_sym_loop em.estimates
      (set1 (fun _ => fresh) em.model_parameter_diff (em.estimates 0))
      em.model_parameter_diff (em.model_parameter_diff + 1) (by omega)
    simp only [total_params, hs, if_true, hnum]
    refine ⟨by omega, fun k h0 h1 => ?_, ?_⟩
    · rw [total_params_mirror_loop _ em.model_parameter_diff _ _ hD (le_refl _) (by omega)]
      simp only [offset_parameter, hs, if_true]
      by_cases hk : k < em.model_parameter_diff
      · rw [if_pos ⟨h0, hk⟩]
        simp only [set1]
        rw [if_neg (by omega), hloop.2, if_pos (by omega)]
        congr 1
        rw [abs_of_nonpos (by omega)]; omega
      · rw [if_neg (by omega)]
        simp only [set1]
        rw [if_neg (by omega), hloop.2]
        by_cases hk2 : k = em.model_parameter_diff
        · rw [if_neg (by omega)]; simp [set1, hk2]
        · rw [if_pos (by omega), abs_of_nonneg (by omega)]
    · rw [total_params_mirror_loop _ em.model_parameter_diff _ _ hD (le_refl _) (by omega)]
      rw [if_neg (by omega)]
      simp only [set1]
      rw [if_pos (by omega), hloop.1]
      simp only [epsilon, band_total, hs, if_true, Finset.mul_sum]
      congr 2; ring


/-! ## The filled matrix in closed form -/

/-- The band loop of `fill_column`: `k` counts the iterations and the rows of
the band that exist receive `total_params[k]`. -/
theorem fill_band_loop (M j lo hi : Int) (tp : Int → ℚ) (m1 : Int → Int → ℚ)
    (h : lo ≤ hi) :
    (for_loop lo hi (fun i (s : (Int → Int → ℚ) × Int) =>
        (if 0 ≤ i ∧ i ≤ M then set2 s.1 i j (tp s.2) else s.1, s.2 + 1)) (m1, 0)).2
      = hi - lo ∧
    ∀ a b, (for_loop lo hi (fun i (s : (Int → Int → ℚ) × Int) =>
        (if 0 ≤ i ∧ i ≤ M then set2 s.1 i j (tp s.2) else s.1, s.2 + 1)) (m1, 0)).1 a b
      = if b = j ∧ lo ≤ a ∧ a < hi ∧ 0 ≤ a ∧ a ≤ M then tp (a - lo) else m1 a b := by
  refine for_loop_induction lo hi _ (m1, 0)
    (fun n s => s.2 = n - lo ∧ ∀ a b, s.1 a b
      = if b = j ∧ lo ≤ a ∧ a < n ∧ 0 ≤ a ∧ a ≤ M then tp (a - lo) else m1 a b) h ?_ ?_
  · refine ⟨by simp, fun a b => ?_⟩
    rw [if_neg (by omega)]
  · intro i s h1 _ hs
    refine ⟨by simp only [hs.1]; omega, fun a b => ?_⟩
    by_cases hc : 0 ≤ i ∧ i ≤ M
    · simp only [if_pos hc, set2]
      by_cases hab : a = i ∧ b = j
      · obtain ⟨rfl, rfl⟩ := hab
        rw [if_pos ⟨rfl, rfl⟩, if_pos ⟨rfl, h1, by omega, hc.1, hc.2⟩, hs.1]
      · rw [if_neg hab, hs.2]
        by_cases h2 : b = j ∧ lo ≤ a ∧ a < i ∧ 0 ≤ a ∧ a ≤ M
        · rw [if_pos h2, if_pos ⟨h2.1, h2.2.1, by omega, h2.2.2.2⟩]
        · rw [if_neg h2, if_neg]
          rintro ⟨hb, h3, h4, h5⟩
          have : a ≠ i := fun e => hab ⟨e, hb⟩
          exact h2 ⟨hb, h3, by omega, h5⟩
    · simp only [if_neg hc]
      rw [hs.2]
      by_cases h2 : b = j ∧ lo ≤ a ∧ a < i ∧ 0 ≤ a ∧ a ≤ M
      · rw [if_pos h2, if_pos ⟨h2.1, h2.2.1, by omega, h2.2.2.2⟩]
      · rw [if_neg h2, if_neg]
        rintro ⟨hb, h3, h4, h5⟩
        have : a ≠ i := fun e => hc (e ▸ h5)
        exact h2 ⟨hb, h3, by omega, h5⟩

/-- Column `j` after `fill_column`: every row `0 .. maxfamilysize` is written,
with the band value inside the band and the last cell of `total_params`
outside; the other columns are untouched. -/
theorem fill_column_closed (M D N j : Int) (tp : Int → ℚ) (m : Int → Int → ℚ)
    (hD : 0 ≤ D) (a b : Int) :
    fill_column M (-D) D N tp j m a b
      = if b = j ∧ 0 ≤ a ∧ a ≤ M then
          (if j - D ≤ a ∧ a ≤ j + D then tp (a - j + D) else tp (N - 1))
        else m a b := by
  simp only [fill_column]
  rw [for_loop_column (D + j + 1) (M + 1) j (fun i => 0 ≤ i) (fun _ => tp (N - 1))]
  rw [(fill_band_loop M j (-D + j) (D + j + 1) tp _ (by omega)).2]
  rw [for_loop_column 0 (-D + j) j (fun i => i ≤ M) (fun _ => tp (N - 1))]
  split_ifs <;> first | rfl | (exfalso; omega) | (congr 1; omega)


/-! ## Column-wise loops and the column-sum correction -/

/-- A loop over columns whose step `upd j` changes column `j` only and reads
column `j` only acts on every column of its range separately. -/
theorem for_loop_columns {α : Type} (lo hi : Int)
    (upd : Int → (Int → Int → α) → Int → Int → α) (m : Int → Int → α)
    (h1 : ∀ j t a b, b ≠ j → upd j t a b = t a b)
    (h2 : ∀ j t t', (∀ a, t a j = t' a j) → ∀ a, upd j t a j = upd j t' a j)
    (a b : Int) :
    for_loop lo hi upd m a b = if lo ≤ b ∧ b < hi then upd b m a b else m a b := by
  rcases le_or_lt lo hi with h | h
  · have key : ∀ a b, for_loop lo hi upd m a b
        = if lo ≤ b ∧ b < hi then upd b m a b else m a b := by
      refine for_loop_induction lo hi upd m
        (fun n t => ∀ a b, t a b = if lo ≤ b ∧ b < n then upd b m a b else m a b) h ?_ ?_
      · intro a b; rw [if_neg (by omega)]
      · intro i t hi1 _ ht a b
        by_cases hb : b = i
        · subst hb
          rw [if_pos (by omega)]
          refine h2 b t m (fun a => ?_) a
          rw [ht, if_neg (by omega)]
        · rw [h1 i t a b hb, ht]
          by_cases h3 : lo ≤ b ∧ b < i
          · rw [if_pos h3, if_pos (by omega)]
          · rw [if_neg h3, if_neg (by omega)]
    exact key a b
  · rw [for_loop_nil _ _ _ _ (le_of_lt h), if_neg (by omega)]

theorem columnsum_eq (M : Int) (m : Int → Int → ℚ) (j : Int) :
    columnsum M m j = ∑ i in Finset.Ico 0 (M + 1), m i j := by
  unfold columnsum
  rw [for_loop_sum 0 (M + 1) (fun i => m i j) 0, zero_add]

theorem columnsum_congr (M : Int) (t t' : Int → Int → ℚ) (j : Int)
    (h : ∀ a, t a j = t' a j) : columnsum M t j = columnsum M t' j := by
  rw [columnsum_eq, columnsum_eq]
  exact Finset.sum_congr rfl (fun i _ => h i)

/-- The rescaling loop divides the rows `0 .. maxfamilysize` of column `j`. -/
theorem rescale_column_closed (M j : Int) (c : ℚ) (m : Int → Int → ℚ) (a b : Int) :
    rescale_column M j c m a b
      = if b = j ∧ 0 ≤ a ∧ a ≤ M then m a b / c else m a b := by
  unfold rescale_column
  rcases le_or_lt 0 (M + 1) with h | h
  · have key : ∀ a b, for_loop 0 (M + 1) (fun i t => set2 t i j (t i j / c)) m a b
        = if b = j ∧ 0 ≤ a ∧ a < M + 1 then m a b / c else m a b := by
      refine for_loop_induction 0 (M + 1) _ m
        (fun n t => ∀ a b, t a b = if b = j ∧ 0 ≤ a ∧ a < n then m a b / c else m a b)
        h ?_ ?_
      · intro a b; rw [if_neg (by omega)]
      · intro i t hi1 _ ht a b
        simp only [set2]
        by_cases hab : a = i ∧ b = j
        · obtain ⟨rfl, rfl⟩ := hab
          rw [if_pos ⟨rfl, rfl⟩, if_pos ⟨rfl, hi1, by omega⟩, ht, if_neg (by omega)]
        · rw [if_neg hab, ht]
          by_cases h3 : b = j ∧ 0 ≤ a ∧ a < i
          · rw [if_pos h3, if_pos ⟨h3.1, h3.2.1, by omega⟩]
          · rw [if_neg h3, if_neg]
            rintro ⟨hb, h4, h5⟩
            have : a ≠ i := fun e => hab ⟨e, hb⟩
            exact h3 ⟨hb, h4, by omega⟩
    rw [key]
    by_cases h3 : b = j ∧ 0 ≤ a ∧ a ≤ M
    · rw [if_pos h3, if_pos ⟨h3.1, h3.2.1, by omega⟩]
    · rw [if_neg h3, if_neg]
      rintro ⟨hb, h4, h5⟩
      exact h3 ⟨hb, h4, by omega⟩
  · rw [for_loop_nil _ _ _ _ (le_of_lt h), if_neg (by omega)]

theorem absorb_step_other (M row j : Int) (t : Int → Int → ℚ) (a b : Int) (h : b ≠ j) :
    absorb_step M row j t a b = t a b := by
  simp only [absorb_step, set2]
  rw [if_neg (fun e => h e.2)]

theorem absorb_step_congr (M row j : Int) (t t' : Int → Int → ℚ)
    (h : ∀ a, t a j = t' a j) (a : Int) :
    absorb_step M row j t a j = absorb_step M row j t' a j := by
  simp only [absorb_step, set2, columnsum_congr M t t' j h, h]

theorem rescale_step_other (M j : Int) (t : Int → Int → ℚ) (a b : Int) (h : b ≠ j) :
    rescale_step M j t a b = t a b := by
  unfold rescale_step
  split_ifs
  · rw [rescale_column_closed, if_neg (fun e => h e.1)]
  · rfl

theorem rescale_step_congr (M j : Int) (t t' : Int → Int → ℚ)
    (h : ∀ a, t a j = t' a j) (a : Int) :
    rescale_step M j t a j = rescale_step M j t' a j := by
  unfold rescale_step
  rw [columnsum_congr M t t' j h]
  split_ifs
  · rw [rescale_column_closed, rescale_column_closed, h]
  · exact h a

/-- The three loops of `__check_error_model_columnsums`, column by column. -/
theorem check_columnsums_eq (e : ErrorStruct) (a b : Int) :
    (__check_error_model_columnsums e).errormatrix a b
      = (for_loop (e.maxfamilysize - e.todiff + 1) (e.maxfamilysize + 1)
          (absorb_step e.maxfamilysize e.maxfamilysize)
          (for_loop e.todiff (e.maxfamilysize - e.todiff + 1)
            (rescale_step e.maxfamilysize)
            (for_loop 0 e.todiff (absorb_step e.maxfamilysize 0) e.errormatrix))) a b := rfl


/-! ## Column sums of the filled matrix -/

theorem sum_Ico_one (f : Int → ℚ) (a : Int) :
    ∑ i in Finset.Ico a (a + 1), f i = f a := by
  have : Finset.Ico a (a + 1) = {a} := by
    ext x; simp only [Finset.mem_Ico, Finset.mem_singleton]; omega
  rw [this, Finset.sum_singleton]

/-- The band values of all offsets `-D .. D` add up to `S`. -/
theorem offset_parameter_sum (em : ErrorMeasure) (hD : 0 ≤ em.model_parameter_diff) :
    ∑ k in Finset.Ico (-em.model_parameter_diff) (em.model_parameter_diff + 1),
        offset_parameter em k
      = band_total em em.estimates := by
  cases hs : em.b_symmetric
  · simp only [offset_parameter, band_total, hs, Bool.false_eq_true, if_false]
    rw [sum_Ico_shift em.estimates]
    congr 2
    · omega
    · omega
  · simp only [offset_parameter, band_total, hs, if_true]
    rw [sum_Ico_split _ (-em.model_parameter_diff) 0 _ (by omega) (by omega),
      sum_Ico_split _ 0 1 _ (by omega) (by omega)]
    have e1 : ∑ i in Finset.Ico (-em.model_parameter_diff) 0, em.estimates |i|
        = ∑ i in Finset.Ico 1 (em.model_parameter_diff + 1), em.estimates i := by
      have := sum_Ico_reflect em.estimates (-em.model_parameter_diff) 0 0
      have e2 : ∑ i in Finset.Ico (-em.model_parameter_diff) 0, em.estimates |i|
          = ∑ i in Finset.Ico (-em.model_parameter_diff) 0, em.estimates (0 - i) := by
        refine Finset.sum_congr rfl (fun i hi => ?_)
        rw [Finset.mem_Ico] at hi
        rw [abs_of_nonpos (by omega)]; congr 1; omega
      rw [e2, this]; congr 2; omega
    have e3 : ∑ i in Finset.Ico 1 (em.model_parameter_diff + 1), em.estimates |i|
        = ∑ i in Finset.Ico 1 (em.model_parameter_diff + 1), em.estimates i := by
      refine Finset.sum_congr rfl (fun i hi => ?_)
      rw [Finset.mem_Ico] at hi
      rw [abs_of_nonneg (by omega)]
    have e4 := sum_Ico_one (fun i => em.estimates |i|) 0
    simp only [zero_add, abs_zero] at e4
    rw [e1, e3, e4]; ring

theorem band_entry_inside (em : ErrorMeasure) (i j : Int)
    (h1 : j - em.model_parameter_diff ≤ i) (h2 : i ≤ j + em.model_parameter_diff) :
    band_entry em i j = offset_parameter em (i - j) := by
  unfold band_entry
  rw [if_pos (abs_le.mpr ⟨by omega, by omega⟩)]

theorem band_entry_outside (em : ErrorMeasure) (i j : Int)
    (h : i < j - em.model_parameter_diff ∨ j + em.model_parameter_diff < i) :
    band_entry em i j = epsilon em em.estimates := by
  unfold band_entry
  rw [if_neg]
  rw [abs_le]; omega

/-- Over `maxFamilySize + 1` consecutive rows that contain the whole band of
column `j`, the band values and the marginal epsilon add up to 1. -/
theorem band_window_sum (em : ErrorMeasure) (hD : 0 ≤ em.model_parameter_diff)
    (hM : 2 * em.model_parameter_diff < em.maxFamilySize) (j w : Int)
    (hw1 : w ≤ j - em.model_parameter_diff)
    (hw2 : j + em.model_parameter_diff ≤ w + em.maxFamilySize) :
    ∑ i in Finset.Ico w (w + em.maxFamilySize + 1), band_entry em i j = 1 := by
  rw [sum_Ico_split _ w (j - em.model_parameter_diff) _ hw1 (by omega),
    sum_Ico_split _ (j - em.model_parameter_diff) (j + em.model_parameter_diff + 1) _
      (by omega) (by omega)]
  have e1 : ∑ i in Finset.Ico w (j - em.model_parameter_diff), band_entry em i j
      = ((j - em.model_parameter_diff - w : Int) : ℚ) * epsilon em em.estimates := by
    rw [← sum_Ico_const _ _ _ hw1]
    refine Finset.sum_congr rfl (fun i hi => ?_)
    rw [Finset.mem_Ico] at hi
    exact band_entry_outside em i j (Or.inl hi.2)
  have e2 : ∑ i in Finset.Ico (j + em.model_parameter_diff + 1) (w + em.maxFamilySize + 1),
        band_entry em i j
      = ((w + em.maxFamilySize + 1 - (j + em.model_parameter_diff + 1) : Int) : ℚ)
        * epsilon em em.estimates := by
    rw [← sum_Ico_const _ _ _ (by omega)]
    refine Finset.sum_congr rfl (fun i hi => ?_)
    rw [Finset.mem_Ico] at hi
    exact band_entry_outside em i j (Or.inr (by omega))
  have e3 : ∑ i in Finset.Ico (j - em.model_parameter_diff) (j + em.model_parameter_diff + 1),
        band_entry em i j = band_total em em.estimates := by
    rw [← offset_parameter_sum em hD]
    have := sum_Ico_shift (fun k => offset_parameter em k)
      (j - em.model_parameter_diff) (j + em.model_parameter_diff + 1) (-j)
    have e4 : ∑ i in Finset.Ico (j - em.model_parameter_diff) (j + em.model_parameter_diff + 1),
        band_entry em i j
        = ∑ i in Finset.Ico (j - em.model_parameter_diff) (j + em.model_parameter_diff + 1),
          offset_parameter em (i + -j) := by
      refine Finset.sum_congr rfl (fun i hi => ?_)
      rw [Finset.mem_Ico] at hi
      rw [band_entry_inside em i j hi.1 (by omega)]; congr 1
    rw [e4, this]; congr 2 <;> omega
  rw [e1, e2, e3]
  have hne : (((em.maxFamilySize + 1) - (2 * em.model_parameter_diff + 1) : Int) : ℚ) ≠ 0 := by
    have : (em.maxFamilySize + 1) - (2 * em.model_parameter_diff + 1) ≠ 0 := by omega
    exact_mod_cast this
  have he : epsilon em em.estimates
      * (((em.maxFamilySize + 1) - (2 * em.model_parameter_diff + 1) : Int) : ℚ)
      = 1 - band_total em em.estimates := by
    unfold epsilon
    exact div_mul_cancel₀ _ hne
  push_cast at he ⊢
  linear_combination he


/-! ## The error matrix in closed form -/

/-- The filled matrix holds `band_entry` in every cell of the square. -/
theorem fill_matrix_closed (fresh : ℚ) (em : ErrorMeasure) (hwf : em.well_formed)
    (a b : Int) :
    fill_matrix fresh em a b
      = if 0 ≤ b ∧ b ≤ em.maxFamilySize ∧ 0 ≤ a ∧ a ≤ em.maxFamilySize then
          band_entry em a b
        else fresh := by
  obtain ⟨h1, h2, h3⟩ := total_params_closed fresh em hwf
  have hD := hwf.1
  simp only [fill_matrix]
  rw [for_loop_columns 0 (em.maxFamilySize + 1)
    (fun j m => fill_column em.maxFamilySize (-em.model_parameter_diff)
      em.model_parameter_diff (total_params fresh em).1 (total_params fresh em).2 j m)]
  · by_cases hb : 0 ≤ b ∧ b < em.maxFamilySize + 1
    · rw [if_pos hb]
      simp only [fill_column_closed _ _ _ _ _ _ hD, true_and]
      by_cases ha : 0 ≤ a ∧ a ≤ em.maxFamilySize
      · have hc : 0 ≤ b ∧ b ≤ em.maxFamilySize ∧ 0 ≤ a ∧ a ≤ em.maxFamilySize :=
          ⟨hb.1, by omega, ha⟩
        rw [if_pos ha, if_pos hc]
        by_cases hin : b - em.model_parameter_diff ≤ a ∧ a ≤ b + em.model_parameter_diff
        · rw [if_pos hin, band_entry_inside em a b hin.1 hin.2, h2 _ (by omega) (by omega)]
          congr 1; omega
        · have e : 2 * em.model_parameter_diff + 2 - 1 = 2 * em.model_parameter_diff + 1 := by
            omega
          have ho : a < b - em.model_parameter_diff ∨ b + em.model_parameter_diff < a := by
            by_contra hcon
            exact hin ⟨by omega, by omega⟩
          rw [if_neg hin, band_entry_outside em a b ho, h1, e, h3]
      · have hc : ¬ (0 ≤ b ∧ b ≤ em.maxFamilySize ∧ 0 ≤ a ∧ a ≤ em.maxFamilySize) :=
          fun e => ha e.2.2
        rw [if_neg ha, if_neg hc]
    · have hc : ¬ (0 ≤ b ∧ b ≤ em.maxFamilySize ∧ 0 ≤ a ∧ a ≤ em.maxFamilySize) := by omega
      rw [if_neg hb, if_neg hc]
  · intro j t a b hb
    simp only [fill_column_closed _ _ _ _ _ _ hD]
    rw [if_neg (by omega)]
  · intro j t t' h a
    simp only [fill_column_closed _ _ _ _ _ _ hD]
    split_ifs <;> first | rfl | exact h a

/-- Column sum of the filled matrix. -/
theorem fill_matrix_columnsum (fresh : ℚ) (em : ErrorMeasure) (hwf : em.well_formed)
    (b : Int) (hb : 0 ≤ b ∧ b ≤ em.maxFamilySize) :
    columnsum em.maxFamilySize (fill_matrix fresh em) b = 1 - shortfall em b := by
  rw [columnsum_eq]
  unfold shortfall
  rw [sub_sub_cancel]
  refine Finset.sum_congr rfl (fun i hi => ?_)
  rw [Finset.mem_Ico] at hi
  rw [fill_matrix_closed fresh em hwf, if_pos ⟨hb.1, hb.2, hi.1, by omega⟩]

/-- An interior column of the filled matrix has no shortfall. -/
theorem shortfall_interior (em : ErrorMeasure) (hwf : em.well_formed)
    (hM : 2 * em.model_parameter_diff < em.maxFamilySize) (b : Int)
    (h1 : em.model_parameter_diff ≤ b) (h2 : b ≤ em.maxFamilySize - em.model_parameter_diff) :
    shortfall em b = 0 := by
  unfold shortfall
  have := band_window_sum em hwf.1 hM b 0 (by omega) (by omega)
  rw [zero_add] at this
  rw [this, sub_self]

theorem rescale_step_unit (M j : Int) (m : Int → Int → ℚ) (h : columnsum M m j = 1) :
    rescale_step M j m = m := by
  unfold rescale_step
  simp only [h, sub_self]
  rw [if_neg]
  norm_num [double_to_int, c_abs]

/-- Every cell of the matrix returned by
`cafe_shell_create_error_matrix_from_estimate`: the filled value, plus the
shortfall of the column in the two absorbing rows. -/
theorem create_error_matrix_closed (fresh : ℚ) (em : ErrorMeasure) (hwf : em.well_formed)
    (hM : 2 * em.model_parameter_diff < em.maxFamilySize) (a b : Int)
    (ha : 0 ≤ a ∧ a ≤ em.maxFamilySize) (hb : 0 ≤ b ∧ b ≤ em.maxFamilySize) :
    (cafe_shell_create_error_matrix_from_estimate fresh em).errormatrix a b
      = band_entry em a b
        + (if (b < em.model_parameter_diff ∧ a = 0)
              ∨ (em.maxFamilySize - em.model_parameter_diff < b ∧ a = em.maxFamilySize)
           then shortfall em b else 0) := by
  have hD := hwf.1
  unfold cafe_shell_create_error_matrix_from_estimate
  rw [check_columnsums_eq]
  simp only []
  have hfill : ∀ x, fill_matrix fresh em x b = band_entry em x b ∨ ¬ (0 ≤ x ∧ x ≤ em.maxFamilySize) := by
    intro x
    by_cases hx : 0 ≤ x ∧ x ≤ em.maxFamilySize
    · left; rw [fill_matrix_closed fresh em hwf, if_pos ⟨hb.1, hb.2, hx⟩]
    · right; exact hx
  have hab : fill_matrix fresh em a b = band_entry em a b := by
    rw [fill_matrix_closed fresh em hwf, if_pos ⟨hb.1, hb.2, ha⟩]
  rw [for_loop_columns _ _ _ _ (absorb_step_other _ _) (absorb_step_congr _ _)]
  by_cases h3 : em.maxFamilySize - em.model_parameter_diff + 1 ≤ b ∧ b < em.maxFamilySize + 1
  · -- right boundary column
    rw [if_pos h3]
    rw [absorb_step_congr _ _ _ _ (fill_matrix fresh em)]
    · simp only [absorb_step, set2, fill_matrix_columnsum fresh em hwf b hb, sub_sub_cancel]
      by_cases ham : a = em.maxFamilySize
      · rw [if_pos ⟨ham, trivial⟩, if_pos (Or.inr ⟨by omega, ham⟩), ← ham, hab]
      · rw [if_neg (fun e => ham e.1), if_neg (by omega), hab, add_zero]
    · intro x
      rw [for_loop_columns _ _ _ _ (rescale_step_other _) (rescale_step_congr _),
        if_neg (by omega),
        for_loop_columns _ _ _ _ (absorb_step_other _ _) (absorb_step_congr _ _),
        if_neg (by omega)]
  · rw [if_neg h3]
    rw [for_loop_columns _ _ _ _ (rescale_step_other _) (rescale_step_congr _)]
    by_cases h2 : em.model_parameter_diff ≤ b ∧ b < em.maxFamilySize - em.model_parameter_diff + 1
    · -- interior column
      rw [if_pos h2]
      rw [rescale_step_congr _ _ _ (fill_matrix fresh em)]
      · rw [rescale_step_unit, hab, if_neg (by omega), add_zero]
        rw [fill_matrix_columnsum fresh em hwf b hb,
          shortfall_interior em hwf hM b h2.1 (by omega), sub_zero]
      · intro x
        rw [for_loop_columns _ _ _ _ (absorb_step_other _ _) (absorb_step_congr _ _),
          if_neg (by omega)]
    · -- left boundary column
      rw [if_neg h2]
      rw [for_loop_columns _ _ _ _ (absorb_step_other _ _) (absorb_step_congr _ _)]
      rw [if_pos (by omega)]
      simp only [absorb_step, set2, fill_matrix_columnsum fresh em hwf b hb, sub_sub_cancel]
      by_cases ha0 : a = 0
      · rw [if_pos ⟨ha0, trivial⟩, if_pos (Or.inl ⟨by omega, ha0⟩), ← ha0, hab]
      · rw [if_neg (fun e => ha0 e.1), if_neg (by omega), hab, add_zero]


/-! ## Claims on the error matrix -/

/-- Exactly one row of a boundary column takes the shortfall. -/
theorem absorb_sum (M D j : Int) (sh : ℚ) (hD : 0 ≤ D) (hM : 2 * D < M) :
    ∑ i in Finset.Ico 0 (M + 1),
        (if (j < D ∧ i = 0) ∨ (M - D < j ∧ i = M) then sh else 0)
      = if j < D ∨ M - D < j then sh else 0 := by
  by_cases h1 : j < D
  · have : ∀ i ∈ Finset.Ico 0 (M + 1),
        (if (j < D ∧ i = 0) ∨ (M - D < j ∧ i = M) then sh else 0)
          = if i = 0 then sh else 0 := by
      intro i _
      by_cases hi : i = 0
      · rw [if_pos (Or.inl ⟨h1, hi⟩), if_pos hi]
      · rw [if_neg (by omega), if_neg hi]
    rw [Finset.sum_congr rfl this, Finset.sum_ite_eq', if_pos (Or.inl h1),
      if_pos (by rw [Finset.mem_Ico]; omega)]
  · by_cases h2 : M - D < j
    · have : ∀ i ∈ Finset.Ico 0 (M + 1),
          (if (j < D ∧ i = 0) ∨ (M - D < j ∧ i = M) then sh else 0)
            = if i = M then sh else 0 := by
        intro i _
        by_cases hi : i = M
        · rw [if_pos (Or.inr ⟨h2, hi⟩), if_pos hi]
        · rw [if_neg (by omega), if_neg hi]
      rw [Finset.sum_congr rfl this, Finset.sum_ite_eq', if_pos (Or.inr h2),
        if_pos (by rw [Finset.mem_Ico]; omega)]
    · have : ∀ i ∈ Finset.Ico 0 (M + 1),
          (if (j < D ∧ i = 0) ∨ (M - D < j ∧ i = M) then sh else 0) = 0 := by
        intro i _
        rw [if_neg (by omega)]
      rw [Finset.sum_congr rfl this, Finset.sum_const_zero, if_neg (by omega)]

/-- Column sum of the returned matrix, from the closed form. -/
theorem create_error_matrix_columnsum (fresh : ℚ) (em : ErrorMeasure) (hwf : em.well_formed)
    (hM : 2 * em.model_parameter_diff < em.maxFamilySize) (j : Int)
    (hj : 0 ≤ j ∧ j ≤ em.maxFamilySize) :
    ∑ i in Finset.Ico 0 (em.maxFamilySize + 1),
        (cafe_shell_create_error_matrix_from_estimate fresh em).errormatrix i j = 1 := by
  have hD := hwf.1
  have e1 : ∀ i ∈ Finset.Ico 0 (em.maxFamilySize + 1),
      (cafe_shell_create_error_matrix_from_estimate fresh em).errormatrix i j
        = band_entry em i j
          + (if (j < em.model_parameter_diff ∧ i = 0)
                ∨ (em.maxFamilySize - em.model_parameter_diff < j ∧ i = em.maxFamilySize)
             then shortfall em j else 0) := by
    intro i hi
    rw [Finset.mem_Ico] at hi
    exact create_error_matrix_closed fresh em hwf hM i j ⟨hi.1, by omega⟩ hj
  rw [Finset.sum_congr rfl e1, Finset.sum_add_distrib, absorb_sum _ _ _ _ hD hM]
  by_cases hb : j < em.model_parameter_diff ∨ em.maxFamilySize - em.model_parameter_diff < j
  · rw [if_pos hb]
    unfold shortfall
    ring
  · rw [if_neg hb, add_zero]
    have := shortfall_interior em hwf hM j (by omega) (by omega)
    unfold shortfall at this
    linarith

/-- C11: for `maxFamilySize > 2 * D`, every column of the matrix returned by
`cafe_shell_create_error_matrix_from_estimate` sums to exactly 1, in the
symmetric and in the asymmetric mode, boundary and interior columns alike
(for every parameter vector, feasible or not). -/
theorem C11_every_column_sums_to_one (fresh : ℚ) (em : ErrorMeasure) (hwf : em.well_formed)
    (hM : 2 * em.model_parameter_diff < em.maxFamilySize) (j : Int)
    (hj : 0 ≤ j ∧ j ≤ em.maxFamilySize) :
    columnsum em.maxFamilySize
      (cafe_shell_create_error_matrix_from_estimate fresh em).errormatrix j = 1 := by
  rw [columnsum_eq]
  exact create_error_matrix_columnsum fresh em hwf hM j hj

theorem C11_every_column_sums_to_one_witness :
    error_measure_asymmetric.well_formed ∧
    2 * error_measure_asymmetric.model_parameter_diff < error_measure_asymmetric.maxFamilySize ∧
    columnsum error_measure_asymmetric.maxFamilySize
      (cafe_shell_create_error_matrix_from_estimate 0 error_measure_asymmetric).errormatrix 1
      = 1 :=
  ⟨by decide, by decide,
    C11_every_column_sums_to_one 0 error_measure_asymmetric (by decide) (by decide) 1
      (by decide)⟩

/-- C12: for `maxFamilySize > 2 * D`, entry `(i, j)` of the returned matrix is
the marginal epsilon `(1 - S) / ((maxFamilySize + 1) - (2 * D + 1))` when
`|i - j| > D` and the free parameter of the offset `i - j` when `|i - j| <= D`
(`estimates[i - j + D]` asymmetric, `estimates[|i - j|]` symmetric); row 0 of the
columns `j < D` and row `maxFamilySize` of the columns `j > maxFamilySize - D`
hold that value plus the shortfall of the column from 1. -/
theorem C12_entries_of_the_error_matrix (fresh : ℚ) (em : ErrorMeasure) (hwf : em.well_formed)
    (hM : 2 * em.model_parameter_diff < em.maxFamilySize) (i j : Int)
    (hi : 0 ≤ i ∧ i ≤ em.maxFamilySize) (hj : 0 ≤ j ∧ j ≤ em.maxFamilySize) :
    (cafe_shell_create_error_matrix_from_estimate fresh em).errormatrix i j
      = (if |i - j| ≤ em.model_parameter_diff then
           (if em.b_symmetric then em.estimates |i - j|
            else em.estimates (i - j + em.model_parameter_diff))
         else (1 - band_total em em.estimates)
           / ((((em.maxFamilySize + 1) - (2 * em.model_parameter_diff + 1) : Int)) : ℚ))
        + (if (j < em.model_parameter_diff ∧ i = 0)
              ∨ (em.maxFamilySize - em.model_parameter_diff < j ∧ i = em.maxFamilySize)
           then 1 - ∑ r in Finset.Ico 0 (em.maxFamilySize + 1), band_entry em r j
           else 0) :=
  create_error_matrix_closed fresh em hwf hM i j hi hj

theorem C12_entries_of_the_error_matrix_witness :
    error_measure_symmetric.well_formed ∧
    2 * error_measure_symmetric.model_parameter_diff < error_measure_symmetric.maxFamilySize ∧
    (cafe_shell_create_error_matrix_from_estimate 0 error_measure_symmetric).errormatrix 0 1
      = (if |(0 : Int) - 1| ≤ error_measure_symmetric.model_parameter_diff then
           (if error_measure_symmetric.b_symmetric then
              error_measure_symmetric.estimates |(0 : Int) - 1|
            else error_measure_symmetric.estimates
              (0 - 1 + error_measure_symmetric.model_parameter_diff))
         else (1 - band_total error_measure_symmetric error_measure_symmetric.estimates)
           / ((((error_measure_symmetric.maxFamilySize + 1)
              - (2 * error_measure_symmetric.model_parameter_diff + 1) : Int)) : ℚ))
        + (if ((1 : Int) < error_measure_symmetric.model_parameter_diff ∧ (0 : Int) = 0)
              ∨ (error_measure_symmetric.maxFamilySize
                    - error_measure_symmetric.model_parameter_diff < 1
                  ∧ (0 : Int) = error_measure_symmetric.maxFamilySize)
           then 1 - ∑ r in Finset.Ico 0 (error_measure_symmetric.maxFamilySize + 1),
                  band_entry error_measure_symmetric r 1
           else 0) :=
  ⟨by decide, by decide,
    C12_entries_of_the_error_matrix 0 error_measure_symmetric (by decide) (by decide) 0 1
      (by decide) (by decide)⟩

/-- C13, as stated, fails: in the symmetric sample (`D = 2`) column 1 has
`errormatrix[2][1] = 3/20` but `errormatrix[0][1] = 1/5`, because row 0 of a
left boundary column also holds the shortfall of the column. -/
theorem C13_counterexample :
    ¬ (∀ j d : Int, 1 ≤ d → d ≤ error_measure_symmetric.model_parameter_diff →
        0 ≤ j - d → j + d ≤ error_measure_symmetric.maxFamilySize →
        (cafe_shell_create_error_matrix_from_estimate 0 error_measure_symmetric).errormatrix
            (j + d) j
          = (cafe_shell_create_error_matrix_from_estimate 0 error_measure_symmetric).errormatrix
            (j - d) j) := by
  intro h
  have h1 := h 1 1 (by decide) (by decide) (by decide) (by decide)
  revert h1
  decide!

/-- C13, amended: in symmetric mode with `maxFamilySize > 2 * D`, for every
column `j` and offset `d` in `1 .. D` with `j - d >= 0` and
`j + d <= maxFamilySize`, `errormatrix[j+d][j] = errormatrix[j-d][j]` provided
neither row is the absorbing row of the column: not (`j < D` and `j - d = 0`)
and not (`j > maxFamilySize - D` and `j + d = maxFamilySize`). -/
theorem C13_mirror_symmetric_off_absorbing_rows (fresh : ℚ) (em : ErrorMeasure)
    (hwf : em.well_formed) (hsym : em.b_symmetric = true)
    (hM : 2 * em.model_parameter_diff < em.maxFamilySize) (j d : Int)
    (hd : 1 ≤ d ∧ d ≤ em.model_parameter_diff)
    (h1 : 0 ≤ j - d) (h2 : j + d ≤ em.maxFamilySize)
    (hleft : ¬ (j < em.model_parameter_diff ∧ j - d = 0))
    (hright : ¬ (em.maxFamilySize - em.model_parameter_diff < j
      ∧ j + d = em.maxFamilySize)) :
    (cafe_shell_create_error_matrix_from_estimate fresh em).errormatrix (j + d) j
      = (cafe_shell_create_error_matrix_from_estimate fresh em).errormatrix (j - d) j := by
  rw [create_error_matrix_closed fresh em hwf hM (j + d) j (by omega) (by omega),
    create_error_matrix_closed fresh em hwf hM (j - d) j (by omega) (by omega)]
  rw [if_neg (by omega), if_neg (by omega)]
  rw [band_entry_inside em (j + d) j (by omega) (by omega),
    band_entry_inside em (j - d) j (by omega) (by omega)]
  simp only [offset_parameter, hsym, if_true]
  have e1 : j + d - j = d := by omega
  have e2 : j - d - j = -d := by omega
  rw [e1, e2, abs_neg]

theorem C13_mirror_symmetric_off_absorbing_rows_witness :
    (cafe_shell_create_error_matrix_from_estimate 0 error_measure_symmetric).errormatrix
        (3 + 2) 3
      = (cafe_shell_create_error_matrix_from_estimate 0 error_measure_symmetric).errormatrix
        (3 - 2) 3 :=
  C13_mirror_symmetric_off_absorbing_rows 0 error_measure_symmetric (by decide) rfl
    (by decide) 3 2 (by decide) (by decide) (by decide) (by decide) (by decide)


/-! ## Sign of the entries -/

theorem band_entry_ge_epsilon (em : ErrorMeasure) (hwf : em.well_formed)
    (hf : feasible em em.estimates) (i j : Int) :
    epsilon em em.estimates ≤ band_entry em i j := by
  obtain ⟨hD, hnum⟩ := hwf
  unfold band_entry
  split_ifs with h
  · rw [abs_le] at h
    unfold offset_parameter
    cases hs : em.b_symmetric
    · rw [hs] at hnum
      simp only [Bool.false_eq_true, if_false] at hnum ⊢
      exact (hf.2 _ (by rw [Finset.mem_Ico]; omega)).2
    · rw [hs] at hnum
      simp only [if_true] at hnum ⊢
      refine (hf.2 _ ?_).2
      rw [Finset.mem_Ico, hnum]
      constructor
      · exact abs_nonneg _
      · have : |i - j| ≤ em.model_parameter_diff := abs_le.mpr h
        omega
  · exact le_refl _

/-- The shortfall of a column of the filled matrix is not negative when the
estimates are feasible. -/
theorem shortfall_nonneg (em : ErrorMeasure) (hwf : em.well_formed)
    (hM : 2 * em.model_parameter_diff < em.maxFamilySize)
    (hf : feasible em em.estimates) (j : Int) (hj : 0 ≤ j ∧ j ≤ em.maxFamilySize) :
    0 ≤ shortfall em j := by
  have hD := hwf.1
  by_cases hl : j < em.model_parameter_diff
  · -- left boundary column
    have hW := band_window_sum em hD hM j (j - em.model_parameter_diff) (le_refl _) (by omega)
    rw [sum_Ico_split _ (j - em.model_parameter_diff) 0 _ (by omega) (by omega)] at hW
    have hC := sum_Ico_split (fun i => band_entry em i j) 0
      (j - em.model_parameter_diff + em.maxFamilySize + 1) (em.maxFamilySize + 1)
      (by omega) (by omega)
    have e1 : ∑ i in Finset.Ico (j - em.model_parameter_diff + em.maxFamilySize + 1)
          (em.maxFamilySize + 1), band_entry em i j
        = ((em.maxFamilySize + 1 - (j - em.model_parameter_diff + em.maxFamilySize + 1) : Int) : ℚ)
          * epsilon em em.estimates := by
      rw [← sum_Ico_const _ _ _ (by omega)]
      refine Finset.sum_congr rfl (fun i hi => ?_)
      rw [Finset.mem_Ico] at hi
      exact band_entry_outside em i j (Or.inr (by omega))
    have e2 : ((0 - (j - em.model_parameter_diff) : Int) : ℚ) * epsilon em em.estimates
        ≤ ∑ i in Finset.Ico (j - em.model_parameter_diff) 0, band_entry em i j := by
      rw [← sum_Ico_const _ _ _ (by omega)]
      exact Finset.sum_le_sum (fun i _ => band_entry_ge_epsilon em hwf hf i j)
    unfold shortfall
    simp only [] at hC
    rw [hC, e1]
    push_cast at e2 ⊢
    linarith
  · by_cases hr : em.maxFamilySize - em.model_parameter_diff < j
    · -- right boundary column
      have hW := band_window_sum em hD hM j (j + em.model_parameter_diff - em.maxFamilySize)
        (by omega) (by omega)
      rw [sum_Ico_split _ (j + em.model_parameter_diff - em.maxFamilySize)
        (em.maxFamilySize + 1) _ (by omega) (by omega)] at hW
      have hC := sum_Ico_split (fun i => band_entry em i j) 0
        (j + em.model_parameter_diff - em.maxFamilySize) (em.maxFamilySize + 1)
        (by omega) (by omega)
      have e1 : ∑ i in Finset.Ico 0 (j + em.model_parameter_diff - em.maxFamilySize),
            band_entry em i j
          = ((j + em.model_parameter_diff - em.maxFamilySize - 0 : Int) : ℚ)
            * epsilon em em.estimates := by
        rw [← sum_Ico_const _ _ _ (by omega)]
        refine Finset.sum_congr rfl (fun i hi => ?_)
        rw [Finset.mem_Ico] at hi
        exact band_entry_outside em i j (Or.inl (by omega))
      have e2 : ((j + em.model_parameter_diff - em.maxFamilySize + em.maxFamilySize + 1
            - (em.maxFamilySize + 1) : Int) : ℚ) * epsilon em em.estimates
          ≤ ∑ i in Finset.Ico (em.maxFamilySize + 1)
              (j + em.model_parameter_diff - em.maxFamilySize + em.maxFamilySize + 1),
            band_entry em i j := by
        rw [← sum_Ico_const _ _ _ (by omega)]
        exact Finset.sum_le_sum (fun i _ => band_entry_ge_epsilon em hwf hf i j)
      unfold shortfall
      simp only [] at hC
      rw [hC, e1]
      push_cast at e2 ⊢
      linarith
    · rw [shortfall_interior em hwf hM j (by omega) (by omega)]

theorem create_error_matrix_nonneg (fresh : ℚ) (em : ErrorMeasure) (hwf : em.well_formed)
    (hM : 2 * em.model_parameter_diff < em.maxFamilySize)
    (hf : feasible em em.estimates) (i j : Int)
    (hi : 0 ≤ i ∧ i ≤ em.maxFamilySize) (hj : 0 ≤ j ∧ j ≤ em.maxFamilySize) :
    0 ≤ (cafe_shell_create_error_matrix_from_estimate fresh em).errormatrix i j := by
  rw [create_error_matrix_closed fresh em hwf hM i j hi hj]
  have h1 := band_entry_ge_epsilon em hwf hf i j
  have h2 := hf.1
  have h3 := shortfall_nonneg em hwf hM hf j hj
  split_ifs <;> linarith

/-- C27: for `maxFamilySize > 2 * D` and estimates that pass the feasibility
check (every `p[i] >= 0`, `epsilon >= 0`, `epsilon <= p[i]`), every entry of the
matrix returned by `cafe_shell_create_error_matrix_from_estimate` lies in
`[0, 1]`, the absorbing boundary entries included. -/
theorem C27_entries_between_zero_and_one (fresh : ℚ) (em : ErrorMeasure)
    (hwf : em.well_formed) (hM : 2 * em.model_parameter_diff < em.maxFamilySize)
    (hf : feasible em em.estimates) (i j : Int)
    (hi : 0 ≤ i ∧ i ≤ em.maxFamilySize) (hj : 0 ≤ j ∧ j ≤ em.maxFamilySize) :
    0 ≤ (cafe_shell_create_error_matrix_from_estimate fresh em).errormatrix i j ∧
    (cafe_shell_create_error_matrix_from_estimate fresh em).errormatrix i j ≤ 1 := by
  refine ⟨create_error_matrix_nonneg fresh em hwf hM hf i j hi hj, ?_⟩
  rw [← create_error_matrix_columnsum fresh em hwf hM j hj]
  refine Finset.single_le_sum
    (f := fun r => (cafe_shell_create_error_matrix_from_estimate fresh em).errormatrix r j)
    (fun r hr => ?_) (by rw [Finset.mem_Ico]; omega)
  rw [Finset.mem_Ico] at hr
  exact create_error_matrix_nonneg fresh em hwf hM hf r j ⟨hr.1, by omega⟩ hj

theorem C27_entries_between_zero_and_one_witness :
    feasible error_measure_symmetric error_measure_symmetric.estimates ∧
    0 ≤ (cafe_shell_create_error_matrix_from_estimate 0 error_measure_symmetric).errormatrix 0 1 ∧
    (cafe_shell_create_error_matrix_from_estimate 0 error_measure_symmetric).errormatrix 0 1
      ≤ 1 :=
  ⟨by decide!,
    C27_entries_between_zero_and_one 0 error_measure_symmetric (by decide) (by decide)
      (by decide!) 0 1 (by decide) (by decide)⟩


/-! ## The interior rescale and the discordance models -/

/-- C24, at a failing input: the interior column 1 of `error_struct_half` sums
to `c = 1/2`, so `|1 - c| = 1/2 > 1e-14`; the code computes
`abs(1 - columnsum)` with the integer `abs`, gets 0, and leaves the column as
it is: its entries are not divided by `c` and it still sums to `1/2`. -/
theorem C24_half_column_is_not_rescaled :
    columnsum error_struct_half.maxfamilysize error_struct_half.errormatrix 1 = 1 / 2 ∧
    |1 - columnsum error_struct_half.maxfamilysize error_struct_half.errormatrix 1|
      > 1 / 100000000000000 ∧
    (__check_error_model_columnsums error_struct_half).errormatrix 0 1 = 1 / 4 ∧
    columnsum error_struct_half.maxfamilysize
      (__check_error_model_columnsums error_struct_half).errormatrix 1 = 1 / 2 := by
  decide!

/-- A loop over rows whose step `upd i` changes row `i` only and reads row `i`
only acts on every row of its range separately. -/
theorem for_loop_rows {α : Type} (lo hi : Int)
    (upd : Int → (Int → Int → α) → Int → Int → α) (m : Int → Int → α)
    (h1 : ∀ i t a b, a ≠ i → upd i t a b = t a b)
    (h2 : ∀ i t t', (∀ b, t i b = t' i b) → ∀ b, upd i t i b = upd i t' i b)
    (a b : Int) :
    for_loop lo hi upd m a b = if lo ≤ a ∧ a < hi then upd a m a b else m a b := by
  rcases le_or_lt lo hi with h | h
  · have key : ∀ a b, for_loop lo hi upd m a b
        = if lo ≤ a ∧ a < hi then upd a m a b else m a b := by
      refine for_loop_induction lo hi upd m
        (fun n t => ∀ a b, t a b = if lo ≤ a ∧ a < n then upd a m a b else m a b) h ?_ ?_
      · intro a b; rw [if_neg (by omega)]
      · intro i t hi1 _ ht a b
        by_cases ha : a = i
        · subst ha
          rw [if_pos (by omega)]
          refine h2 a t m (fun b => ?_) b
          rw [ht, if_neg (by omega)]
        · rw [h1 i t a b ha, ht]
          by_cases h3 : lo ≤ a ∧ a < i
          · rw [if_pos h3, if_pos (by omega)]
          · rw [if_neg h3, if_neg (by omega)]
    exact key a b
  · rw [for_loop_nil _ _ _ _ (le_of_lt h), if_neg (by omega)]

/-- A loop that accumulates into one cell. -/
theorem for_loop_accumulate (lo hi i j : Int) (g : Int → ℚ) (d : Int → Int → ℚ)
    (a b : Int) :
    for_loop lo hi (fun k t => set2 t i j (t i j + g k)) d a b
      = if a = i ∧ b = j then d i j + ∑ k in Finset.Ico lo hi, g k else d a b := by
  rcases le_or_lt lo hi with h | h
  · have key : ∀ a b, for_loop lo hi (fun k t => set2 t i j (t i j + g k)) d a b
        = if a = i ∧ b = j then d i j + ∑ k in Finset.Ico lo hi, g k else d a b := by
      refine for_loop_induction lo hi _ d
        (fun n t => ∀ a b, t a b
          = if a = i ∧ b = j then d i j + ∑ k in Finset.Ico lo n, g k else d a b) h ?_ ?_
      · intro a b
        rw [Finset.Ico_self, Finset.sum_empty, add_zero]
        split_ifs with hab
        · rw [hab.1, hab.2]
        · rfl
      · intro n t hn _ ht a b
        have e : Finset.Ico lo (n + 1) = insert n (Finset.Ico lo n) := by
          ext x; simp only [Finset.mem_Ico, Finset.mem_insert]; omega
        simp only [set2]
        by_cases hab : a = i ∧ b = j
        · rw [if_pos hab, if_pos hab, ht i j, if_pos ⟨rfl, rfl⟩, e,
            Finset.sum_insert (by simp)]
          ring
        · rw [if_neg hab, if_neg hab, ht a b, if_neg hab]
    exact key a b
  · rw [for_loop_nil _ _ _ _ (le_of_lt h), Finset.Ico_eq_empty (by omega),
      Finset.sum_empty, add_zero]
    split_ifs with hab
    · rw [hab.1, hab.2]
    · rfl


/-! ## The discordance models in closed form -/

/-- Cell `(i, j)` of the double-measure model after the triple loop. -/
theorem discord_double_closed (fresh : ℚ) (em : ErrorMeasure) (e : Int → Int → ℚ)
    (a b : Int) :
    discord_double fresh em e a b
      = if 0 ≤ a ∧ a ≤ b ∧ b ≤ em.maxFamilySize then
          fresh + ∑ k in Finset.Ico 0 (em.maxFamilySize + 1),
            (if a = b then em.sizeDist k * e a k * e b k
             else 2 * em.sizeDist k * e a k * e b k)
        else fresh := by
  have inner : ∀ i j (d : Int → Int → ℚ) a b,
      for_loop 0 (em.maxFamilySize + 1)
        (fun k d =>
          if i = j then set2 d i j (d i j + em.sizeDist k * e i k * e j k)
          else set2 d i j (d i j + 2 * em.sizeDist k * e i k * e j k)) d a b
      = if a = i ∧ b = j then
          d i j + ∑ k in Finset.Ico 0 (em.maxFamilySize + 1),
            (if i = j then em.sizeDist k * e i k * e j k
             else 2 * em.sizeDist k * e i k * e j k)
        else d a b := by
    intro i j d a b
    by_cases hij : i = j
    · simp only [if_pos hij]
      exact for_loop_accumulate 0 _ i j _ d a b
    · simp only [if_neg hij]
      exact for_loop_accumulate 0 _ i j _ d a b
  have mid : ∀ i (d : Int → Int → ℚ) a b,
      for_loop i (em.maxFamilySize + 1)
        (fun j d => for_loop 0 (em.maxFamilySize + 1)
          (fun k d =>
            if i = j then set2 d i j (d i j + em.sizeDist k * e i k * e j k)
            else set2 d i j (d i j + 2 * em.sizeDist k * e i k * e j k)) d) d a b
      = if a = i ∧ i ≤ b ∧ b ≤ em.maxFamilySize then
          d i b + ∑ k in Finset.Ico 0 (em.maxFamilySize + 1),
            (if i = b then em.sizeDist k * e i k * e b k
             else 2 * em.sizeDist k * e i k * e b k)
        else d a b := by
    intro i d a b
    rw [for_loop_columns i (em.maxFamilySize + 1)
      (fun j d => for_loop 0 (em.maxFamilySize + 1)
          (fun k d =>
            if i = j then set2 d i j (d i j + em.sizeDist k * e i k * e j k)
            else set2 d i j (d i j + 2 * em.sizeDist k * e i k * e j k)) d)]
    · simp only [inner]
      by_cases hb : i ≤ b ∧ b < em.maxFamilySize + 1
      · rw [if_pos hb]
        by_cases ha : a = i
        · rw [if_pos ⟨ha, trivial⟩, if_pos ⟨ha, hb.1, by omega⟩]
        · rw [if_neg (fun h => ha h.1), if_neg (fun h => ha h.1)]
      · rw [if_neg hb, if_neg (by omega)]
    · intro j t a b hb
      simp only [inner]
      rw [if_neg (fun h => hb h.2)]
    · intro j t t' h a
      simp only [inner]
      split_ifs <;> first | exact h _ | rw [h]
  simp only [discord_double]
  rw [for_loop_rows 0 (em.maxFamilySize + 1)
    (fun i d => for_loop i (em.maxFamilySize + 1)
      (fun j d => for_loop 0 (em.maxFamilySize + 1)
        (fun k d =>
          if i = j then set2 d i j (d i j + em.sizeDist k * e i k * e j k)
          else set2 d i j (d i j + 2 * em.sizeDist k * e i k * e j k)) d) d)]
  · simp only [mid]
    by_cases ha : 0 ≤ a ∧ a < em.maxFamilySize + 1
    · rw [if_pos ha]
      by_cases hb : a ≤ b ∧ b ≤ em.maxFamilySize
      · rw [if_pos ⟨trivial, hb⟩, if_pos ⟨ha.1, hb⟩]
      · rw [if_neg (fun h => hb h.2), if_neg (fun h => hb h.2)]
    · rw [if_neg ha, if_neg (by omega)]
  · intro i t a b ha
    simp only [mid]
    rw [if_neg (fun h => ha h.1)]
  · intro i t t' h b
    simp only [mid]
    split_ifs <;> first | exact h _ | rw [h]

/-- Cell `(i, j)` of the true-measure model after the double loop. -/
theorem discord_true_closed (fresh : ℚ) (em : ErrorMeasure) (e : Int → Int → ℚ)
    (a b : Int) :
    discord_true fresh em e a b
      = if 0 ≤ a ∧ a ≤ em.maxFamilySize ∧ 0 ≤ b ∧ b ≤ em.maxFamilySize then
          em.sizeDist b * e a b
        else fresh := by
  have mid : ∀ i (d : Int → Int → ℚ) a b,
      for_loop 0 (em.maxFamilySize + 1)
        (fun j d => set2 d i j (em.sizeDist j * e i j)) d a b
      = if a = i ∧ 0 ≤ b ∧ b ≤ em.maxFamilySize then em.sizeDist b * e i b else d a b := by
    intro i d a b
    rw [for_loop_columns 0 (em.maxFamilySize + 1)
      (fun j d => set2 d i j (em.sizeDist j * e i j))]
    · simp only [set2]
      by_cases hb : 0 ≤ b ∧ b < em.maxFamilySize + 1
      · rw [if_pos hb]
        by_cases ha : a = i
        · rw [if_pos ⟨ha, trivial⟩, if_pos ⟨ha, hb.1, by omega⟩]
        · rw [if_neg (fun h => ha h.1), if_neg (fun h => ha h.1)]
      · rw [if_neg hb, if_neg (by omega)]
    · intro j t a b hb
      simp only [set2]
      rw [if_neg (fun h => hb h.2)]
    · intro j t t' h a
      simp only [set2]
      split_ifs <;> first | rfl | exact h _
  simp only [discord_true]
  rw [for_loop_rows 0 (em.maxFamilySize + 1)
    (fun i d => for_loop 0 (em.maxFamilySize + 1)
      (fun j d => set2 d i j (em.sizeDist j * e i j)) d)]
  · simp only [mid]
    by_cases ha : 0 ≤ a ∧ a < em.maxFamilySize + 1
    · rw [if_pos ha]
      by_cases hb : 0 ≤ b ∧ b ≤ em.maxFamilySize
      · rw [if_pos ⟨trivial, hb⟩, if_pos ⟨ha.1, by omega, hb⟩]
      · rw [if_neg (fun h => hb h.2), if_neg (by omega)]
    · rw [if_neg ha, if_neg (by omega)]
  · intro i t a b ha
    simp only [mid]
    rw [if_neg (fun h => ha h.1)]
  · intro i t t' h b
    simp only [mid]
    split_ifs <;> first | rfl | exact h _


/-! ## The discordance models are probability distributions -/

/-- Squares on the diagonal and doubled products above it add up to the
square of the sum. -/
theorem upper_triangle_square (x : Int → ℚ) (n : Int) (hn : 0 ≤ n) :
    ∑ i in Finset.Ico 0 n, ∑ j in Finset.Ico i n,
        (if i = j then x i * x j else 2 * x i * x j)
      = (∑ i in Finset.Ico 0 n, x i) ^ 2 := by
  refine @Int.le_induction
    (fun n => ∑ i in Finset.Ico 0 n, ∑ j in Finset.Ico i n,
        (if i = j then x i * x j else 2 * x i * x j)
      = (∑ i in Finset.Ico 0 n, x i) ^ 2) 0 ?_ ?_ n hn
  · simp
  · intro n hn ih
    simp only [] at ih ⊢
    have e0 : Finset.Ico 0 (n + 1) = insert n (Finset.Ico 0 n) := by
      ext y; simp only [Finset.mem_Ico, Finset.mem_insert]; omega
    rw [e0, Finset.sum_insert (by simp), Finset.sum_insert (by simp)]
    have e1 : ∑ j in Finset.Ico n (n + 1), (if n = j then x n * x j else 2 * x n * x j)
        = x n * x n := by
      rw [sum_Ico_one, if_pos rfl]
    have e2 : ∀ i ∈ Finset.Ico 0 n,
        ∑ j in Finset.Ico i (n + 1), (if i = j then x i * x j else 2 * x i * x j)
          = 2 * x i * x n
            + ∑ j in Finset.Ico i n, (if i = j then x i * x j else 2 * x i * x j) := by
      intro i hi
      rw [Finset.mem_Ico] at hi
      have e3 : Finset.Ico i (n + 1) = insert n (Finset.Ico i n) := by
        ext y; simp only [Finset.mem_Ico, Finset.mem_insert]; omega
      rw [e3, Finset.sum_insert (by simp), if_neg (by omega)]
    rw [e1, Finset.sum_congr rfl e2, Finset.sum_add_distrib, ih, ← Finset.sum_mul,
      ← Finset.mul_sum]
    ring

/-- C28: whenever every column of the error matrix sums to 1 and `sizeDist`
sums to 1, the double-measure discordance model (accumulated into a zeroed
block) sums to exactly 1 over the upper triangle `i <= j`, and the
true-measure model sums to exactly 1 over the full grid. -/
theorem C28_discordance_models_sum_to_one (fresh : ℚ) (em : ErrorMeasure)
    (e : Int → Int → ℚ)
    (hcol : ∀ k ∈ Finset.Ico 0 (em.maxFamilySize + 1), columnsum em.maxFamilySize e k = 1)
    (hsize : ∑ k in Finset.Ico 0 (em.maxFamilySize + 1), em.sizeDist k = 1) :
    ∑ i in Finset.Ico 0 (em.maxFamilySize + 1), ∑ j in Finset.Ico i (em.maxFamilySize + 1),
        discord_double 0 em e i j = 1 ∧
    ∑ i in Finset.Ico 0 (em.maxFamilySize + 1), ∑ j in Finset.Ico 0 (em.maxFamilySize + 1),
        discord_true fresh em e i j = 1 := by
  have hM : 0 ≤ em.maxFamilySize + 1 := by
    by_contra hneg
    rw [Finset.Ico_eq_empty (by omega), Finset.sum_empty] at hsize
    exact zero_ne_one hsize
  constructor
  · have e1 : ∀ i ∈ Finset.Ico 0 (em.maxFamilySize + 1),
        ∀ j ∈ Finset.Ico i (em.maxFamilySize + 1),
        discord_double 0 em e i j
          = ∑ k in Finset.Ico 0 (em.maxFamilySize + 1),
              em.sizeDist k * (if i = j then e i k * e j k else 2 * e i k * e j k) := by
      intro i hi j hj
      rw [Finset.mem_Ico] at hi hj
      rw [discord_double_closed, if_pos ⟨hi.1, hj.1, by omega⟩, zero_add]
      refine Finset.sum_congr rfl (fun k _ => ?_)
      split_ifs <;> ring
    rw [Finset.sum_congr rfl (fun i hi => Finset.sum_congr rfl (e1 i hi))]
    have e2 : ∀ i ∈ Finset.Ico 0 (em.maxFamilySize + 1),
        ∑ j in Finset.Ico i (em.maxFamilySize + 1),
          ∑ k in Finset.Ico 0 (em.maxFamilySize + 1),
            em.sizeDist k * (if i = j then e i k * e j k else 2 * e i k * e j k)
        = ∑ k in Finset.Ico 0 (em.maxFamilySize + 1),
          ∑ j in Finset.Ico i (em.maxFamilySize + 1),
            em.sizeDist k * (if i = j then e i k * e j k else 2 * e i k * e j k) :=
      fun i _ => Finset.sum_comm
    rw [Finset.sum_congr rfl e2, Finset.sum_comm]
    have e3 : ∀ k ∈ Finset.Ico 0 (em.maxFamilySize + 1),
        ∑ i in Finset.Ico 0 (em.maxFamilySize + 1),
          ∑ j in Finset.Ico i (em.maxFamilySize + 1),
            em.sizeDist k * (if i = j then e i k * e j k else 2 * e i k * e j k)
        = em.sizeDist k := by
      intro k hk
      have h1 := upper_triangle_square (fun i => e i k) (em.maxFamilySize + 1) hM
      have h2 := hcol k hk
      rw [columnsum_eq] at h2
      rw [h2] at h1
      simp only [← Finset.mul_sum]
      simp only [] at h1
      rw [h1]; ring
    rw [Finset.sum_congr rfl e3, hsize]
  · have e1 : ∀ i ∈ Finset.Ico 0 (em.maxFamilySize + 1),
        ∀ j ∈ Finset.Ico 0 (em.maxFamilySize + 1),
        discord_true fresh em e i j = em.sizeDist j * e i j := by
      intro i hi j hj
      rw [Finset.mem_Ico] at hi hj
      rw [discord_true_closed, if_pos ⟨hi.1, by omega, hj.1, by omega⟩]
    rw [Finset.sum_congr rfl (fun i hi => Finset.sum_congr rfl (e1 i hi)), Finset.sum_comm]
    have e3 : ∀ j ∈ Finset.Ico 0 (em.maxFamilySize + 1),
        ∑ i in Finset.Ico 0 (em.maxFamilySize + 1), em.sizeDist j * e i j
          = em.sizeDist j := by
      intro j hj
      have h2 := hcol j hj
      rw [columnsum_eq] at h2
      rw [← Finset.mul_sum, h2, mul_one]
    rw [Finset.sum_congr rfl e3, hsize]

theorem C28_discordance_models_sum_to_one_witness :
    ∑ i in Finset.Ico 0 (error_measure_symmetric.maxFamilySize + 1),
        ∑ j in Finset.Ico i (error_measure_symmetric.maxFamilySize + 1),
          discord_double 0 error_measure_symmetric identity_matrix i j = 1 ∧
    ∑ i in Finset.Ico 0 (error_measure_symmetric.maxFamilySize + 1),
        ∑ j in Finset.Ico 0 (error_measure_symmetric.maxFamilySize + 1),
          discord_true 0 error_measure_symmetric identity_matrix i j = 1 :=
  C28_discordance_models_sum_to_one 0 error_measure_symmetric identity_matrix
    (by decide!) (by decide!)


/-! ## The checks of the objectives -/

/-- A loop that sets a flag at the first index satisfying `c` and then breaks. -/
theorem for_loop_any (lo hi : Int) (c : Int → Prop) [DecidablePred c] :
    for_loop lo hi (fun i (skip : Bool) => if skip then skip else if c i then true else false)
        false = true
      ↔ ∃ i, lo ≤ i ∧ i < hi ∧ c i := by
  rcases le_or_lt lo hi with h | h
  · refine for_loop_induction lo hi _ false
      (fun n s => s = true ↔ ∃ i, lo ≤ i ∧ i < n ∧ c i) h ?_ ?_
    · constructor
      · intro h0; exact absurd h0 (by decide)
      · rintro ⟨i, h1, h2, _⟩; omega
    · intro i s h1 _ hs
      cases hsv : s
      · simp only [Bool.false_eq_true, if_false]
        rw [hsv] at hs
        by_cases hc : c i
        · simp only [if_pos hc, true_iff]
          exact ⟨i, h1, by omega, hc⟩
        · simp only [if_neg hc, Bool.false_eq_true, false_iff]
          rintro ⟨k, hk1, hk2, hk3⟩
          by_cases hki : k = i
          · exact hc (hki ▸ hk3)
          · exact absurd (hs.mpr ⟨k, hk1, by omega, hk3⟩) (by decide)
      · simp only [if_true, true_iff]
        obtain ⟨k, hk1, hk2, hk3⟩ := hs.mp hsv
        exact ⟨k, hk1, by omega, hk3⟩
  · rw [for_loop_nil _ _ _ _ (le_of_lt h)]
    constructor
    · intro h0; exact absurd h0 (by decide)
    · rintro ⟨i, h1, h2, _⟩; omega

/-- Both objectives compute the marginal epsilon of the formula. -/
theorem marginal_error_probability_epsilon_eq (em : ErrorMeasure) (p : Int → ℚ)
    (hwf : em.well_formed) :
    marginal_error_probability_epsilon em p = double_epsilon em p := by
  obtain ⟨hD, hnum⟩ := hwf
  have hdiv : em.maxFamilySize + 1 - (em.model_parameter_diff * 2 + 1)
      = em.maxFamilySize + 1 - (2 * em.model_parameter_diff + 1) := by ring
  cases hs : em.b_symmetric
  · rw [hs] at hnum
    simp only [Bool.false_eq_true, if_false] at hnum
    simp only [marginal_error_probability_epsilon, double_epsilon, band_total, hs,
      Bool.false_eq_true, if_false, hnum, hdiv]
    rw [for_loop_sum 0 _ p 0, zero_add]
  · rw [hs] at hnum
    simp only [if_true] at hnum
    simp only [marginal_error_probability_epsilon, double_epsilon, band_total, hs, if_true,
      hnum, hdiv]
    rw [for_loop_sum 1 _ (fun i => 2 * p i) (p 0), Finset.mul_sum]

/-- The feasibility loop sets `skip` exactly on the infeasible vectors. -/
theorem feasibility_skip_iff (em : ErrorMeasure) (p : Int → ℚ) (hwf : em.well_formed) :
    feasibility_skip em p = true ↔ infeasible em p := by
  have hnum : 1 ≤ em.model_parameter_number := by
    obtain ⟨hD, hnum⟩ := hwf
    rw [hnum]; split_ifs <;> omega
  unfold feasibility_skip
  simp only [marginal_error_probability_epsilon_eq em p hwf]
  rw [for_loop_any 0 em.model_parameter_number
    (fun i => p i < 0 ∨ Score.lt (double_epsilon em p) (Score.fin 0) = true
      ∨ Score.lt (Score.fin (p i)) (double_epsilon em p) = true)]
  unfold infeasible
  constructor
  · rintro ⟨i, h1, h2, h3 | h3 | h3⟩
    · exact Or.inl ⟨i, by rw [Finset.mem_Ico]; exact ⟨h1, h2⟩, h3⟩
    · exact Or.inr (Or.inl h3)
    · exact Or.inr (Or.inr ⟨i, by rw [Finset.mem_Ico]; exact ⟨h1, h2⟩, h3⟩)
  · rintro (⟨i, hi, h3⟩ | h3 | ⟨i, hi, h3⟩)
    · rw [Finset.mem_Ico] at hi
      exact ⟨i, hi.1, hi.2, Or.inl h3⟩
    · exact ⟨0, le_refl _, by omega, Or.inr (Or.inl h3)⟩
    · rw [Finset.mem_Ico] at hi
      exact ⟨i, hi.1, hi.2, Or.inr (Or.inr h3)⟩

/-- One peak-at-zero loop sets `skip` exactly when some cell exceeds the cell
visited before it (`first` before the first one). -/
theorem peak_loop_skip (p : Int → ℚ) (lo hi : Int) (cell : Int → Int) (skip : Bool)
    (first : ℚ) :
    (peak_loop p lo hi cell skip first).skip = true
      ↔ skip = true
        ∨ ∃ i, lo ≤ i ∧ i < hi ∧ (if i = lo then first else p (cell (i - 1))) < p (cell i) := by
  rcases le_or_lt lo hi with h | h
  · have key := for_loop_induction lo hi
      (fun i (s : PeakState) =>
        if s.broke then s
        else if s.previous_param < p (cell i) then { s with skip := true, broke := true }
        else { s with previous_param := p (cell i) })
      { skip := skip, broke := false, previous_param := first }
      (fun n s =>
        (s.broke = true
          ↔ ∃ i, lo ≤ i ∧ i < n ∧ (if i = lo then first else p (cell (i - 1))) < p (cell i))
        ∧ (s.skip = (skip || s.broke))
        ∧ (s.broke = false
          → s.previous_param = if n = lo then first else p (cell (n - 1))))
      h ?_ ?_
    · unfold peak_loop
      obtain ⟨k1, k2, _⟩ := key
      rw [k2, Bool.or_eq_true, k1]
    · refine ⟨?_, ?_, fun _ => ?_⟩
      · constructor
        · intro h0; exact Bool.noConfusion h0
        · rintro ⟨i, h1, h2, _⟩; omega
      · show skip = (skip || false)
        rw [Bool.or_false]
      · show first = _
        rw [if_pos rfl]
    · intro i s h1 _ ⟨hs1, hs2, hs3⟩
      dsimp only
      cases hb : s.broke
      · have hprev := hs3 hb
        rw [hb] at hs1 hs2
        rw [if_neg (by decide)]
        by_cases hc : s.previous_param < p (cell i)
        · rw [if_pos hc]
          refine ⟨?_, ?_, fun h0 => Bool.noConfusion h0⟩
          · show true = true ↔ _
            simp only [true_iff]
            exact ⟨i, h1, by omega, by rw [← hprev]; exact hc⟩
          · show true = (skip || true)
            rw [Bool.or_true]
        · rw [if_neg hc]
          refine ⟨?_, ?_, fun _ => ?_⟩
          · show false = true ↔ _
            constructor
            · intro h0; exact Bool.noConfusion h0
            · rintro ⟨k, hk1, hk2, hk3⟩
              by_cases hki : k = i
              · subst hki; rw [← hprev] at hk3; exact absurd hk3 hc
              · exact hs1.mpr ⟨k, hk1, by omega, hk3⟩
          · show s.skip = (skip || false)
            rw [hs2]
          · show p (cell i) = _
            rw [if_neg (by omega)]; congr 2; omega
      · rw [if_pos rfl]
        refine ⟨?_, ?_, fun h0 => absurd (hb ▸ h0) (by decide)⟩
        · rw [hb] at hs1 ⊢
          simp only [true_iff] at hs1 ⊢
          obtain ⟨k, hk1, hk2, hk3⟩ := hs1
          exact ⟨k, hk1, by omega, hk3⟩
        · exact hs2
  · unfold peak_loop
    rw [for_loop_nil _ _ _ _ (le_of_lt h)]
    simp only []
    constructor
    · intro h0; exact Or.inl h0
    · rintro (h0 | ⟨i, h1, h2, _⟩)
      · exact h0
      · omega


/-! ## Claims on the checks of the objectives -/

/-- The peak-at-zero block sets `skip` exactly on a shape violation. -/
theorem peakzero_skip_iff (em : ErrorMeasure) (p : Int → ℚ) (hwf : em.well_formed) :
    peakzero_skip em p = true ↔ shape_violation em p := by
  obtain ⟨hD, hnum⟩ := hwf
  cases hs : em.b_symmetric
  · simp only [peakzero_skip, shape_violation, hs, Bool.false_eq_true, if_false]
    rw [peak_loop_skip, peak_loop_skip]
    constructor
    · rintro ((h0 | ⟨i, h1, h2, h3⟩) | ⟨i, h1, h2, h3⟩)
      · exact Bool.noConfusion h0
      · refine ⟨i, by rw [Finset.mem_Ico]; exact ⟨h1, h2⟩, Or.inl ?_⟩
        by_cases hi : i = 1
        · rw [if_pos hi] at h3; subst hi
          have e : em.model_parameter_diff - 1 + 1 = em.model_parameter_diff := by omega
          rw [e]; exact h3
        · rw [if_neg hi] at h3
          have e : em.model_parameter_diff - i + 1 = em.model_parameter_diff - (i - 1) := by
            omega
          rw [e]; exact h3
      · refine ⟨i, by rw [Finset.mem_Ico]; exact ⟨h1, h2⟩, Or.inr ?_⟩
        by_cases hi : i = 1
        · rw [if_pos hi] at h3; subst hi
          have e : em.model_parameter_diff + 1 - 1 = em.model_parameter_diff := by omega
          rw [e]; exact h3
        · rw [if_neg hi] at h3
          have e : em.model_parameter_diff + i - 1 = em.model_parameter_diff + (i - 1) := by
            omega
          rw [e]; exact h3
    · rintro ⟨i, hi, h3 | h3⟩
      · rw [Finset.mem_Ico] at hi
        refine Or.inl (Or.inr ⟨i, hi.1, hi.2, ?_⟩)
        by_cases hi1 : i = 1
        · rw [if_pos hi1]; subst hi1
          have e : em.model_parameter_diff - 1 + 1 = em.model_parameter_diff := by omega
          rw [e] at h3; exact h3
        · rw [if_neg hi1]
          have e : em.model_parameter_diff - i + 1 = em.model_parameter_diff - (i - 1) := by
            omega
          rw [e] at h3; exact h3
      · rw [Finset.mem_Ico] at hi
        refine Or.inr ⟨i, hi.1, hi.2, ?_⟩
        by_cases hi1 : i = 1
        · rw [if_pos hi1]; subst hi1
          have e : em.model_parameter_diff + 1 - 1 = em.model_parameter_diff := by omega
          rw [e] at h3; exact h3
        · rw [if_neg hi1]
          have e : em.model_parameter_diff + i - 1 = em.model_parameter_diff + (i - 1) := by
            omega
          rw [e] at h3; exact h3
  · rw [hs] at hnum
    simp only [if_true] at hnum
    simp only [peakzero_skip, shape_violation, hs, if_true, hnum]
    rw [peak_loop_skip]
    constructor
    · rintro (h0 | ⟨i, h1, h2, h3⟩)
      · exact Bool.noConfusion h0
      · refine ⟨i, by rw [Finset.mem_Ico]; exact ⟨h1, h2⟩, ?_⟩
        by_cases hi : i = 1
        · rw [if_pos hi] at h3; subst hi; exact h3
        · rw [if_neg hi] at h3; exact h3
    · rintro ⟨i, hi, h3⟩
      rw [Finset.mem_Ico] at hi
      refine Or.inr ⟨i, hi.1, hi.2, ?_⟩
      by_cases hi1 : i = 1
      · rw [if_pos hi1]; subst hi1; exact h3
      · rw [if_neg hi1]; exact h3

theorem double_measure_rejected_iff (fresh : ℚ) (p : Int → ℚ) (em : ErrorMeasure) :
    __loglikelihood_pairs_from_double_measure fresh p em = Objective.rejected
      ↔ objective_skip em p = true := by
  unfold __loglikelihood_pairs_from_double_measure
  cases h : objective_skip em p
  · simp only [Bool.false_eq_true, if_false]
    split_ifs <;> simp
  · simp

theorem true_measure_rejected_iff (fresh : ℚ) (p : Int → ℚ) (em : ErrorMeasure) :
    __loglikelihood_pairs_from_true_measure fresh p em = Objective.rejected
      ↔ objective_skip em p = true := by
  unfold __loglikelihood_pairs_from_true_measure
  cases h : objective_skip em p
  · simp only [Bool.false_eq_true, if_false]
    split_ifs <;> simp
  · simp

/-- C14: both objectives compute `epsilon = (1 - S) / ((maxFamilySize + 1) -
(2 * D + 1))` with `S = p[0] + 2 * (p[1] + ... + p[D])` (symmetric) or the sum
of all `2 * D + 1` parameters (asymmetric), as a division of doubles (a zero
divisor gives an infinity or NaN); they return the rejection value, without
building the error matrix, whenever some `p[i] < 0`, or `epsilon < 0`, or
`epsilon > p[i]` for some `i`; otherwise the feasibility loop does not set
`skip`. -/
theorem C14_feasibility_check (fresh : ℚ) (em : ErrorMeasure) (p : Int → ℚ)
    (hwf : em.well_formed) :
    marginal_error_probability_epsilon em p
      = double_div (1 - band_total em p)
          ((em.maxFamilySize + 1) - (2 * em.model_parameter_diff + 1)) ∧
    (infeasible em p →
      __loglikelihood_pairs_from_double_measure fresh p em = Objective.rejected ∧
      __loglikelihood_pairs_from_true_measure fresh p em = Objective.rejected) ∧
    (¬ infeasible em p → feasibility_skip em p = false) := by
  refine ⟨marginal_error_probability_epsilon_eq em p hwf, fun hin => ?_, fun hfe => ?_⟩
  · have hskip : objective_skip em p = true := by
      unfold objective_skip
      simp only [(feasibility_skip_iff em p hwf).mpr hin]
      rfl
    exact ⟨(double_measure_rejected_iff fresh p em).mpr hskip,
      (true_measure_rejected_iff fresh p em).mpr hskip⟩
  · cases h : feasibility_skip em p
    · rfl
    · exact absurd ((feasibility_skip_iff em p hwf).mp h) hfe

/-- Witness for C14 at a zero divisor: `D = 1`, sizes `0 .. 2` and the vector
`1/10, 1/2, 1/10`; epsilon is `+inf`, which exceeds every parameter, and both
objectives reject. -/
theorem C14_feasibility_check_witness :
    error_measure_zero_divisor.well_formed ∧
    marginal_error_probability_epsilon error_measure_zero_divisor
      error_measure_zero_divisor.estimates = Score.pos_inf ∧
    infeasible error_measure_zero_divisor error_measure_zero_divisor.estimates ∧
    __loglikelihood_pairs_from_double_measure 0 error_measure_zero_divisor.estimates
      error_measure_zero_divisor = Objective.rejected ∧
    __loglikelihood_pairs_from_true_measure 0 error_measure_zero_divisor.estimates
      error_measure_zero_divisor = Objective.rejected :=
  ⟨by decide,
    (C14_feasibility_check 0 error_measure_zero_divisor error_measure_zero_divisor.estimates
      (by decide)).1.trans (by decide!),
    by decide!,
    (C14_feasibility_check 0 error_measure_zero_divisor error_measure_zero_divisor.estimates
      (by decide)).2.1 (by decide!)⟩

/-- C15: for a vector that passes the feasibility loop, with `b_peakzero` set
both objectives return the rejection value if and only if the vector is not
non-increasing away from the zero offset (`shape_violation`); with the flag
clear neither objective rejects it. -/
theorem C15_peak_at_zero_check (fresh : ℚ) (em : ErrorMeasure) (p : Int → ℚ)
    (hwf : em.well_formed) (hfeas : feasibility_skip em p = false) :
    (em.b_peakzero = true →
      (__loglikelihood_pairs_from_double_measure fresh p em = Objective.rejected
        ↔ shape_violation em p) ∧
      (__loglikelihood_pairs_from_true_measure fresh p em = Objective.rejected
        ↔ shape_violation em p)) ∧
    (em.b_peakzero = false →
      __loglikelihood_pairs_from_double_measure fresh p em ≠ Objective.rejected ∧
      __loglikelihood_pairs_from_true_measure fresh p em ≠ Objective.rejected) := by
  constructor
  · intro hpz
    have hskip : objective_skip em p = peakzero_skip em p := by
      unfold objective_skip
      simp only [hfeas, hpz]
      rfl
    rw [double_measure_rejected_iff, true_measure_rejected_iff, hskip]
    exact ⟨peakzero_skip_iff em p hwf, peakzero_skip_iff em p hwf⟩
  · intro hpz
    have hskip : objective_skip em p = false := by
      unfold objective_skip
      simp only [hfeas, hpz]
      rfl
    rw [Ne, Ne, double_measure_rejected_iff, true_measure_rejected_iff, hskip]
    exact ⟨Bool.noConfusion, Bool.noConfusion⟩

theorem C15_peak_at_zero_check_witness :
    feasibility_skip error_measure_asymmetric error_measure_asymmetric.estimates = false ∧
    (__loglikelihood_pairs_from_double_measure 0 error_measure_asymmetric.estimates
        error_measure_asymmetric = Objective.rejected
      ↔ shape_violation error_measure_asymmetric error_measure_asymmetric.estimates) :=
  ⟨by decide!,
    ((C15_peak_at_zero_check 0 error_measure_asymmetric error_measure_asymmetric.estimates
      (by decide) (by decide!)).1 rfl).1⟩


/-! ## The multi-start loop -/

theorem accepted_count_succ (input : Nat → (Int → ℚ) × FMinSearch) (n : Nat) :
    accepted_count input (n + 1)
      = accepted_count input n + (if (input n).2.accepted then 1 else 0) := by
  unfold accepted_count
  rw [List.range_succ, List.filter_append, List.length_append]
  cases h : (input n).2.accepted
  · simp [h]
  · simp [h]

theorem accepted_count_pos (input : Nat → (Int → ℚ) × FMinSearch) (n : Nat)
    (h : 0 < accepted_count input n) : ∃ k < n, (input k).2.accepted = true := by
  induction n with
  | zero => simp [accepted_count] at h
  | succ n ih =>
    rw [accepted_count_succ] at h
    cases ha : (input n).2.accepted
    · rw [ha] at h
      simp only [Bool.false_eq_true, if_false, add_zero] at h
      obtain ⟨k, hk, hk2⟩ := ih h
      exact ⟨k, by omega, hk2⟩
    · exact ⟨n, by omega, ha⟩

/-- What one body execution does to `runs`, `minscore` and
`bestrun_parameters`. -/
theorem multi_start_body_spec (em : ErrorMeasure) (s s' : MultiStart)
    (sorted_params : Int → ℚ) (pfm : FMinSearch)
    (h : multi_start_body em s sorted_params pfm = some s') :
    s'.runs = s.runs + (if pfm.accepted then 1 else 0) ∧
    s'.minscore = (if pfm.accepted && pfm.fv.lt s.minscore then pfm.fv else s.minscore) ∧
    s'.bestrun_parameters
      = (if pfm.accepted && pfm.fv.lt s.minscore then
          memcpy_cells s.bestrun_parameters
            (for_loop 0 em.model_parameter_number (fun i a => set1 a i (pfm.minX i))
              (start_vector em sorted_params s.parameters)) em.model_parameter_number
         else s.bestrun_parameters) := by
  unfold multi_start_body at h
  simp only [Option.map_eq_some'] at h
  obtain ⟨c, _, hs⟩ := h
  subst hs
  unfold FMinSearch.accepted
  by_cases h1 : pfm.iters < pfm.maxiters
  · simp only [h1, if_true, decide_True, Bool.true_and]
    cases h2 : pfm.fv.lt s.minscore
    · simp
    · simp
  · simp only [h1, if_false, decide_False, Bool.false_and]
    simp

/-- The flag `converged` after one body execution. -/
theorem multi_start_body_converged (em : ErrorMeasure) (s s' : MultiStart)
    (sorted_params : Int → ℚ) (pfm : FMinSearch)
    (h : multi_start_body em s sorted_params pfm = some s')
    (h0 : s.converged = false) (h1 : s'.converged = true) :
    0 < s.runs ∧ convergence_test s.minscore pfm.fv = some true := by
  unfold multi_start_body at h
  simp only [Option.map_eq_some'] at h
  obtain ⟨c, hc, hs⟩ := h
  have hc' : s'.converged = c := by
    subst hs
    split_ifs <;> rfl
  rw [h1] at hc'
  subst hc'
  by_cases hr : s.runs > 0
  · rw [if_pos hr, Option.map_eq_some'] at hc
    obtain ⟨t, ht, ht2⟩ := hc
    refine ⟨hr, ?_⟩
    cases t
    · rw [h0] at ht2; exact Bool.noConfusion ht2
    · exact ht
  · rw [if_neg hr, h0] at hc
    exact Bool.noConfusion (Option.some.inj hc)


/-! ## Counting the runs -/

theorem multi_start_loop_succ (em : ErrorMeasure) (input : Nat → (Int → ℚ) × FMinSearch)
    (fuel k : Nat) (s : MultiStart) :
    multi_start_loop em input (fuel + 1) k s
      = match multi_start_body em s (input k).1 (input k).2 with
        | none => LoopResult.undefined
        | some s' =>
          if multi_start_continues s' then multi_start_loop em input fuel (k + 1) s'
          else LoopResult.exited (k + 1) s' := rfl

theorem multi_start_continues_iff (s : MultiStart) :
    multi_start_continues s = true ↔ s.converged = false ∧ s.runs < 100 := by
  unfold multi_start_continues
  cases s.converged <;> simp

/-- On exit `runs` is the number of accepted runs, at most 100. -/
theorem multi_start_loop_exit (em : ErrorMeasure) (input : Nat → (Int → ℚ) × FMinSearch) :
    ∀ (fuel k : Nat) (s : MultiStart) (n : Nat) (s' : MultiStart),
      s.runs = (accepted_count input k : Int) → s.runs < 100 →
      multi_start_loop em input fuel k s = LoopResult.exited n s' →
      s'.runs = (accepted_count input n : Int) ∧ s'.runs ≤ 100 ∧ k < n ∧ n ≤ k + fuel := by
  intro fuel
  induction fuel with
  | zero =>
    intro k s n s' _ _ h
    exact LoopResult.noConfusion h
  | succ fuel ih =>
    intro k s n s' hk h100 h
    rw [multi_start_loop_succ] at h
    cases hb : multi_start_body em s (input k).1 (input k).2 with
    | none => rw [hb] at h; exact LoopResult.noConfusion h
    | some t =>
      rw [hb] at h
      simp only [] at h
      have hruns := (multi_start_body_spec em s t _ _ hb).1
      have hcount := accepted_count_succ input k
      have ht : t.runs = (accepted_count input (k + 1) : Int) := by
        rw [hruns, hcount, hk]
        cases (input k).2.accepted <;> simp
      have ht100 : t.runs ≤ 100 := by
        rw [hruns]
        cases (input k).2.accepted <;> simp <;> omega
      by_cases hc : multi_start_continues t = true
      · rw [if_pos hc] at h
        obtain ⟨h1, h2, h3, h4⟩ :=
          ih (k + 1) t n s' ht ((multi_start_continues_iff t).mp hc).2 h
        exact ⟨h1, h2, by omega, by omega⟩
      · rw [if_neg hc] at h
        injection h with hn hs
        subst hn; subst hs
        exact ⟨ht, ht100, by omega, by omega⟩

/-- While the loop is running fewer than 100 runs have been accepted. -/
theorem multi_start_loop_running (em : ErrorMeasure)
    (input : Nat → (Int → ℚ) × FMinSearch) :
    ∀ (fuel k : Nat) (s : MultiStart),
      s.runs = (accepted_count input k : Int) → s.runs < 100 →
      multi_start_loop em input fuel k s = LoopResult.running →
      accepted_count input (k + fuel) < 100 := by
  intro fuel
  induction fuel with
  | zero =>
    intro k s hk h100 _
    rw [Nat.add_zero]; omega
  | succ fuel ih =>
    intro k s hk h100 h
    rw [multi_start_loop_succ] at h
    cases hb : multi_start_body em s (input k).1 (input k).2 with
    | none => rw [hb] at h; exact LoopResult.noConfusion h
    | some t =>
      rw [hb] at h
      simp only [] at h
      have hruns := (multi_start_body_spec em s t _ _ hb).1
      have hcount := accepted_count_succ input k
      have ht : t.runs = (accepted_count input (k + 1) : Int) := by
        rw [hruns, hcount, hk]
        cases (input k).2.accepted <;> simp
      by_cases hc : multi_start_continues t = true
      · rw [if_pos hc] at h
        have := ih (k + 1) t ht ((multi_start_continues_iff t).mp hc).2 h
        have e : k + (fuel + 1) = k + 1 + fuel := by omega
        rw [e]; exact this
      · rw [if_neg hc] at h
        exact LoopResult.noConfusion h

/-- The state on exit is the state of the trace. -/
theorem multi_start_loop_trace (em : ErrorMeasure) (fresh : ℚ)
    (input : Nat → (Int → ℚ) × FMinSearch) :
    ∀ (fuel k : Nat) (s : MultiStart) (n : Nat) (s' : MultiStart),
      multi_start_trace em fresh input k = some s →
      multi_start_loop em input fuel k s = LoopResult.exited n s' →
      multi_start_trace em fresh input n = some s' := by
  intro fuel
  induction fuel with
  | zero =>
    intro k s n s' _ h
    exact LoopResult.noConfusion h
  | succ fuel ih =>
    intro k s n s' hk h
    rw [multi_start_loop_succ] at h
    cases hb : multi_start_body em s (input k).1 (input k).2 with
    | none => rw [hb] at h; exact LoopResult.noConfusion h
    | some t =>
      rw [hb] at h
      simp only [] at h
      have ht : multi_start_trace em fresh input (k + 1) = some t := by
        show (multi_start_trace em fresh input k).bind _ = _
        rw [hk]; exact hb
      by_cases hc : multi_start_continues t = true
      · rw [if_pos hc] at h
        exact ih (k + 1) t n s' ht h
      · rw [if_neg hc] at h
        injection h with hn hs
        subst hn; subst hs
        exact ht

/-- Along the trace `runs` counts the accepted runs. -/
theorem multi_start_trace_runs (em : ErrorMeasure) (fresh : ℚ)
    (input : Nat → (Int → ℚ) × FMinSearch) :
    ∀ (n : Nat) (s : MultiStart), multi_start_trace em fresh input n = some s →
      s.runs = (accepted_count input n : Int) := by
  intro n
  induction n with
  | zero =>
    intro s h
    injection h with h
    subst h
    rfl
  | succ n ih =>
    intro s h
    have h' : (multi_start_trace em fresh input n).bind
        (fun s => multi_start_body em s (input n).1 (input n).2) = some s := h
    cases ht : multi_start_trace em fresh input n with
    | none => rw [ht] at h'; exact Option.noConfusion h'
    | some t =>
      rw [ht] at h'
      have hruns := (multi_start_body_spec em t s _ _ h').1
      rw [hruns, ih t ht, accepted_count_succ]
      cases (input n).2.accepted <;> simp


/-! ## Claims on the multi-start loop -/

theorem estimate_double_measure_loop (fresh : ℚ) (maxFamilySize : Int)
    (sizeFreq : Int → Int) (observed_pairs : Int → Int → Int)
    (b_symmetric : Bool) (max_diff : Int) (b_peakzero : Bool)
    (input : Nat → (Int → ℚ) × FMinSearch) (fuel : Nat) :
    (cafe_shell_estimate_error_double_measure fresh maxFamilySize sizeFreq observed_pairs
        b_symmetric max_diff b_peakzero input fuel).1
      = multi_start_loop
          (error_measure_new (sizeDist fresh maxFamilySize sizeFreq) maxFamilySize
            observed_pairs fresh b_symmetric max_diff b_peakzero)
          input fuel 0 (multi_start_init fresh) := by
  unfold cafe_shell_estimate_error_double_measure
  simp only []
  split <;> rfl

theorem estimate_true_measure_loop (fresh : ℚ) (maxFamilySize : Int)
    (sizeFreq : Int → Int) (observed_pairs : Int → Int → Int)
    (b_symmetric : Bool) (max_diff : Int) (b_peakzero : Bool)
    (input : Nat → (Int → ℚ) × FMinSearch) (fuel : Nat) :
    (cafe_shell_estimate_error_true_measure fresh maxFamilySize sizeFreq observed_pairs
        b_symmetric max_diff b_peakzero input fuel).1
      = multi_start_loop
          (error_measure_new (sizeDist fresh maxFamilySize sizeFreq) maxFamilySize
            observed_pairs fresh b_symmetric max_diff b_peakzero)
          input fuel 0 (multi_start_init fresh) := by
  unfold cafe_shell_estimate_error_true_measure
  simp only []
  split <;> rfl

/-- C16, as stated, fails: when every run uses up its iteration budget,
`runs` stays 0 and `converged` stays 0, so after 101 executions of the body
the loop of either estimator is still running. -/
theorem C16_counterexample :
    (cafe_shell_estimate_error_double_measure 0 6 (fun _ => 0) (fun _ _ => 0)
        true 2 true input_exhausted 101).1.is_running = true ∧
    (cafe_shell_estimate_error_true_measure 0 6 (fun _ => 0) (fun _ _ => 0)
        true 2 true input_exhausted 101).1.is_running = true := by
  decide!

/-- C16, amended: the loop of either estimator counts accepted runs only.  If
100 of the first `fuel` runs are accepted, the loop is no longer running after
`fuel` body executions, and whenever it exits `runs` is the number of accepted
runs among the executed ones and is at most 100. -/
theorem C16_at_most_100_accepted_runs (fresh : ℚ) (maxFamilySize : Int)
    (sizeFreq : Int → Int) (observed_pairs : Int → Int → Int)
    (b_symmetric : Bool) (max_diff : Int) (b_peakzero : Bool)
    (input : Nat → (Int → ℚ) × FMinSearch) (fuel : Nat)
    (h : 100 ≤ accepted_count input fuel) :
    ((cafe_shell_estimate_error_double_measure fresh maxFamilySize sizeFreq observed_pairs
        b_symmetric max_diff b_peakzero input fuel).1 ≠ LoopResult.running ∧
      ∀ n s, (cafe_shell_estimate_error_double_measure fresh maxFamilySize sizeFreq
          observed_pairs b_symmetric max_diff b_peakzero input fuel).1
            = LoopResult.exited n s →
        s.runs = (accepted_count input n : Int) ∧ s.runs ≤ 100 ∧ n ≤ fuel) ∧
    ((cafe_shell_estimate_error_true_measure fresh maxFamilySize sizeFreq observed_pairs
        b_symmetric max_diff b_peakzero input fuel).1 ≠ LoopResult.running ∧
      ∀ n s, (cafe_shell_estimate_error_true_measure fresh maxFamilySize sizeFreq
          observed_pairs b_symmetric max_diff b_peakzero input fuel).1
            = LoopResult.exited n s →
        s.runs = (accepted_count input n : Int) ∧ s.runs ≤ 100 ∧ n ≤ fuel) := by
  rw [estimate_double_measure_loop, estimate_true_measure_loop]
  have key : multi_start_loop
        (error_measure_new (sizeDist fresh maxFamilySize sizeFreq) maxFamilySize
          observed_pairs fresh b_symmetric max_diff b_peakzero)
        input fuel 0 (multi_start_init fresh) ≠ LoopResult.running ∧
      ∀ n s, multi_start_loop
        (error_measure_new (sizeDist fresh maxFamilySize sizeFreq) maxFamilySize
          observed_pairs fresh b_symmetric max_diff b_peakzero)
        input fuel 0 (multi_start_init fresh) = LoopResult.exited n s →
        s.runs = (accepted_count input n : Int) ∧ s.runs ≤ 100 ∧ n ≤ fuel := by
    constructor
    · intro hrun
      have := multi_start_loop_running _ input fuel 0 (multi_start_init fresh) rfl
        (show (0 : Int) < 100 by decide) hrun
      rw [Nat.zero_add] at this
      omega
    · intro n s hex
      obtain ⟨h1, h2, _, h4⟩ := multi_start_loop_exit _ input fuel 0
        (multi_start_init fresh) n s rfl (show (0 : Int) < 100 by decide) hex
      exact ⟨h1, h2, by omega⟩
  exact ⟨key, key⟩

theorem C16_at_most_100_accepted_runs_witness :
    100 ≤ accepted_count input_accepted 100 ∧
    (cafe_shell_estimate_error_double_measure 0 6 (fun _ => 0) (fun _ _ => 0)
        true 2 true input_accepted 100).1 ≠ LoopResult.running :=
  ⟨by decide!,
    (C16_at_most_100_accepted_runs 0 6 (fun _ => 0) (fun _ _ => 0) true 2 true
      input_accepted 100 (by decide!)).1.1⟩

theorem convergence_test_true (minscore fv : Score)
    (h : convergence_test minscore fv = some true) :
    fv.isnan = false ∧ fv.isinf = false := by
  unfold convergence_test at h
  cases h1 : fv.isnan
  · cases h2 : fv.isinf
    · exact ⟨rfl, rfl⟩
    · rw [h1, h2] at h
      simp at h
  · rw [h1] at h
    simp at h

/-- C17, as stated, fails: after an accepted run with score 10, a run that
used up its budget and scored `21/2` sets `converged`, although that run is
not accepted and the distance `|10 - 21/2| = 1/2` is not below `1e-9`. -/
theorem C17_counterexample :
    (multi_start_trace error_measure_symmetric 0 input_accepted_then_exhausted 1).map
        (fun s => (s.converged, s.minscore)) = some (false, Score.fin 10) ∧
    (input_accepted_then_exhausted 1).2.accepted = false ∧
    (input_accepted_then_exhausted 1).2.fv = Score.fin (21 / 2) ∧
    ¬ (|(10 : ℚ) - 21 / 2| < 1 / 1000000000) ∧
    (multi_start_trace error_measure_symmetric 0 input_accepted_then_exhausted 2).map
        (fun s => s.converged) = some true := by
  decide!

/-- C17, amended: the flag `converged` is set in an iteration only if at least
one earlier run was accepted and the score of the current run is neither NaN
nor infinite; the current run itself need not be accepted. -/
theorem C17_converged_needs_an_earlier_accepted_run (em : ErrorMeasure) (fresh : ℚ)
    (input : Nat → (Int → ℚ) × FMinSearch) (k : Nat)
    (h0 : (multi_start_trace em fresh input k).map (fun s => s.converged) = some false)
    (h1 : (multi_start_trace em fresh input (k + 1)).map (fun s => s.converged)
      = some true) :
    (∃ j < k, (input j).2.accepted = true) ∧
    (input k).2.fv.isnan = false ∧ (input k).2.fv.isinf = false := by
  cases ht : multi_start_trace em fresh input k with
  | none => rw [ht] at h0; exact Option.noConfusion h0
  | some s =>
    rw [ht] at h0
    have hs0 : s.converged = false := Option.some.inj h0
    have h1' : ((multi_start_trace em fresh input k).bind
        (fun s => multi_start_body em s (input k).1 (input k).2)).map
          (fun s => s.converged) = some true := h1
    rw [ht] at h1'
    cases hb : multi_start_body em s (input k).1 (input k).2 with
    | none =>
      rw [Option.some_bind, hb] at h1'
      exact Option.noConfusion h1'
    | some t =>
      rw [Option.some_bind, hb] at h1'
      have ht1 : t.converged = true := Option.some.inj h1'
      obtain ⟨hr, hc⟩ := multi_start_body_converged em s t _ _ hb hs0 ht1
      have hruns := multi_start_trace_runs em fresh input k s ht
      refine ⟨accepted_count_pos input k (by omega), convergence_test_true _ _ hc⟩

theorem C17_converged_needs_an_earlier_accepted_run_witness :
    (∃ j < 2, (input_accepted j).2.accepted = true) ∧
    (input_accepted 2).2.fv.isnan = false ∧ (input_accepted 2).2.fv.isinf = false :=
  C17_converged_needs_an_earlier_accepted_run error_measure_symmetric 0 input_accepted 2
    (by decide!) (by decide!)

/-- C18, as stated, fails: a first run that uses up its budget leaves
`runs = 0`; it is not counted. -/
theorem C18_counterexample :
    (exhausted_run 10).iters ≥ (exhausted_run 10).maxiters ∧
    (multi_start_body error_measure_symmetric (multi_start_init 0) draws_example
        (exhausted_run 10)).map (fun s => s.runs) = some 0 ∧
    (multi_start_body error_measure_symmetric (multi_start_init 0) draws_example
        (exhausted_run 10)).map (fun s => s.runs) ≠ some (0 + 1) := by
  decide!

/-- C18, amended: a run that uses up its iteration budget
(`iters >= maxiters`) leaves `runs`, `minscore` and `bestrun_parameters`
unchanged: it is not counted toward the limit of 100. -/
theorem C18_exhausted_run_changes_nothing (em : ErrorMeasure) (s s' : MultiStart)
    (sorted_params : Int → ℚ) (pfm : FMinSearch)
    (hex : pfm.iters ≥ pfm.maxiters)
    (h : multi_start_body em s sorted_params pfm = some s') :
    s'.runs = s.runs ∧ s'.minscore = s.minscore
      ∧ s'.bestrun_parameters = s.bestrun_parameters := by
  obtain ⟨h1, h2, h3⟩ := multi_start_body_spec em s s' sorted_params pfm h
  have ha : pfm.accepted = false := by
    unfold FMinSearch.accepted
    exact decide_eq_false (by omega)
  rw [ha] at h1 h2 h3
  simp only [Bool.false_eq_true, if_false, add_zero, Bool.false_and] at h1 h2 h3
  exact ⟨h1, h2, h3⟩

theorem C18_exhausted_run_changes_nothing_witness :
    (Option.get (multi_start_body error_measure_symmetric (multi_start_init 0)
        draws_example (exhausted_run 10)) (by decide!)).runs = (multi_start_init 0).runs ∧
    (Option.get (multi_start_body error_measure_symmetric (multi_start_init 0)
        draws_example (exhausted_run 10)) (by decide!)).minscore
      = (multi_start_init 0).minscore ∧
    (Option.get (multi_start_body error_measure_symmetric (multi_start_init 0)
        draws_example (exhausted_run 10)) (by decide!)).bestrun_parameters
      = (multi_start_init 0).bestrun_parameters :=
  C18_exhausted_run_changes_nothing error_measure_symmetric (multi_start_init 0) _
    draws_example (exhausted_run 10) (by decide) (Option.some_get _).symm


/-! ## Best-run tracking -/

theorem copy_loop_closed (n : Int) (src start : Int → ℚ) (hn : 0 ≤ n) (k : Int) :
    for_loop 0 n (fun i a => set1 a i (src i)) start k
      = if 0 ≤ k ∧ k < n then src k else start k := by
  have key : ∀ k, for_loop 0 n (fun i a => set1 a i (src i)) start k
      = if 0 ≤ k ∧ k < n then src k else start k := by
    refine for_loop_induction 0 n _ start
      (fun n t => ∀ k, t k = if 0 ≤ k ∧ k < n then src k else start k) hn ?_ ?_
    · intro k; rw [if_neg (by omega)]
    · intro i t h1 _ ht k
      simp only [set1]
      by_cases hk : k = i
      · subst hk; rw [if_pos rfl, if_pos (by omega)]
      · rw [if_neg hk, ht k]
        by_cases h : 0 ≤ k ∧ k < i
        · rw [if_pos h, if_pos (by omega)]
        · rw [if_neg h, if_neg (by omega)]
  exact key k

theorem start_vector_sym_loop (sorted parameters : Int → ℚ) (n m : Int) (hm : 0 ≤ m) :
    (for_loop 0 m (fun t (s : (Int → ℚ) × Int) =>
        (set1 s.1 s.2 (sorted (n - 1 - t)), s.2 + 1)) (parameters, 0)).2 = m ∧
    ∀ k, (for_loop 0 m (fun t (s : (Int → ℚ) × Int) =>
        (set1 s.1 s.2 (sorted (n - 1 - t)), s.2 + 1)) (parameters, 0)).1 k
      = if 0 ≤ k ∧ k < m then sorted (n - 1 - k) else parameters k := by
  refine for_loop_induction 0 m _ (parameters, 0)
    (fun m s => s.2 = m ∧
      ∀ k, s.1 k = if 0 ≤ k ∧ k < m then sorted (n - 1 - k) else parameters k) hm ?_ ?_
  · refine ⟨rfl, fun k => ?_⟩
    rw [if_neg (by omega)]
  · intro i s h1 _ ⟨hs1, hs2⟩
    refine ⟨by simp only [hs1], fun k => ?_⟩
    simp only [set1, hs1]
    by_cases hk : k = i
    · subst hk; rw [if_pos rfl, if_pos (by omega)]
    · rw [if_neg hk, hs2 k]
      by_cases h : 0 ≤ k ∧ k < i
      · rw [if_pos h, if_pos (by omega)]
      · rw [if_neg h, if_neg (by omega)]

theorem start_vector_asym_loop (sorted p0 : Int → ℚ) (D n m : Int) (hm : 1 ≤ m) :
    (for_loop 1 m (fun i (s : (Int → ℚ) × Int) =>
        (set1 (set1 s.1 (D - i) (sorted s.2)) (D + i) (sorted (s.2 - 1)), s.2 - 2))
        (p0, n - 1 - 1)).2 = n - 2 * m ∧
    ∀ k, (for_loop 1 m (fun i (s : (Int → ℚ) × Int) =>
        (set1 (set1 s.1 (D - i) (sorted s.2)) (D + i) (sorted (s.2 - 1)), s.2 - 2))
        (p0, n - 1 - 1)).1 k
      = if D - m < k ∧ k < D then sorted (n - 2 * (D - k))
        else if D < k ∧ k < D + m then sorted (n - 2 * (k - D) - 1)
        else p0 k := by
  refine for_loop_induction 1 m _ (p0, n - 1 - 1)
    (fun m s => s.2 = n - 2 * m ∧
      ∀ k, s.1 k = if D - m < k ∧ k < D then sorted (n - 2 * (D - k))
        else if D < k ∧ k < D + m then sorted (n - 2 * (k - D) - 1)
        else p0 k) hm ?_ ?_
  · refine ⟨by show n - 1 - 1 = _; omega, fun k => ?_⟩
    rw [if_neg (by omega), if_neg (by omega)]
  · intro i s h1 _ ⟨hs1, hs2⟩
    refine ⟨by simp only [hs1]; omega, fun k => ?_⟩
    simp only [set1, hs1]
    by_cases hk1 : k = D + i
    · subst hk1
      rw [if_pos rfl, if_neg (by omega), if_pos (by omega)]
      congr 1; omega
    · rw [if_neg hk1]
      by_cases hk2 : k = D - i
      · subst hk2
        rw [if_pos rfl, if_pos (by omega)]
        congr 1; omega
      · rw [if_neg hk2, hs2 k]
        split_ifs <;> first | rfl | (exfalso; omega)

/-- Cell `k` of the start vector holds the draw `start_index k`. -/
theorem start_vector_closed (em : ErrorMeasure) (sorted parameters : Int → ℚ)
    (hwf : em.well_formed) (k : Int) (hk : 0 ≤ k ∧ k < em.model_parameter_number) :
    start_vector em sorted parameters k = sorted (start_index em k) := by
  obtain ⟨hD, hnum⟩ := hwf
  cases hs : em.b_symmetric
  · rw [hs] at hnum
    simp only [Bool.false_eq_true, if_false] at hnum
    simp only [start_vector, start_index, hs, Bool.false_eq_true, if_false]
    rw [(start_vector_asym_loop sorted _ em.model_parameter_diff em.model_parameter_number
      (em.model_parameter_diff + 1) (by omega)).2 k]
    simp only [set1]
    split_ifs <;> first | rfl | (exfalso; omega) | (congr 1; omega)
  · rw [hs] at hnum
    simp only [if_true] at hnum
    simp only [start_vector, start_index, hs, if_true]
    rw [(start_vector_sym_loop sorted parameters em.model_parameter_number
      em.model_parameter_number (by omega)).2 k, if_pos hk]

theorem start_index_range (em : ErrorMeasure) (hwf : em.well_formed) (k : Int)
    (hk : 0 ≤ k ∧ k < em.model_parameter_number) :
    0 ≤ start_index em k ∧ start_index em k < em.model_parameter_number := by
  obtain ⟨hD, hnum⟩ := hwf
  unfold start_index
  cases hs : em.b_symmetric
  · rw [hs] at hnum
    simp only [Bool.false_eq_true, if_false] at hnum ⊢
    split_ifs <;> omega
  · rw [hs] at hnum
    simp only [if_true] at hnum ⊢
    omega

/-- The start vector is a rearrangement of the draws. -/
theorem start_vector_perm (em : ErrorMeasure) (sorted parameters : Int → ℚ)
    (hwf : em.well_formed) :
    List.Perm (cells_of (start_vector em sorted parameters) em.model_parameter_number)
      (cells_of sorted em.model_parameter_number) := by
  have hwf' := hwf
  obtain ⟨hD, hnum⟩ := hwf
  have hn : 0 ≤ em.model_parameter_number := by
    rw [hnum]; split_ifs <;> omega
  unfold cells_of
  have e1 : (List.range em.model_parameter_number.toNat).map
        (fun (k : Nat) => start_vector em sorted parameters (k : Int))
      = ((List.range em.model_parameter_number.toNat).map
          (fun (k : Nat) => (start_index em (k : Int)).toNat)).map
          (fun (m : Nat) => sorted (m : Int)) := by
    rw [List.map_map]
    refine List.map_congr_left (fun k hk => ?_)
    rw [List.mem_range] at hk
    have hk' : 0 ≤ (k : Int) ∧ (k : Int) < em.model_parameter_number := by omega
    have hr := start_index_range em hwf' k hk'
    simp only [Function.comp]
    rw [start_vector_closed em sorted parameters hwf' k hk']
    congr 1; omega
  rw [e1]
  refine List.Perm.map _ ?_
  rw [List.perm_ext_iff_of_nodup]
  · intro m
    rw [List.mem_map, List.mem_range]
    constructor
    · rintro ⟨k, hk, rfl⟩
      rw [List.mem_range] at hk
      have := start_index_range em hwf' k (by omega)
      omega
    · intro hm
      cases hs : em.b_symmetric
      · rw [hs] at hnum
        simp only [Bool.false_eq_true, if_false] at hnum
        by_cases hodd : m % 2 = 1
        · refine ⟨(m - 1) / 2, by rw [List.mem_range]; omega, ?_⟩
          simp only [start_index, hs, Bool.false_eq_true, if_false]
          rw [if_pos (by omega)]; omega
        · refine ⟨(2 * em.model_parameter_diff).toNat - m / 2,
            by rw [List.mem_range]; omega, ?_⟩
          simp only [start_index, hs, Bool.false_eq_true, if_false]
          rw [if_neg (by omega)]; omega
      · rw [hs] at hnum
        simp only [if_true] at hnum
        refine ⟨em.model_parameter_number.toNat - 1 - m, by rw [List.mem_range]; omega, ?_⟩
        simp only [start_index, hs, if_true]
        omega
  · refine List.Nodup.map_on ?_ (List.nodup_range _)
    intro a ha b hb hab
    rw [List.mem_range] at ha hb
    have ra := start_index_range em hwf' a (by omega)
    have rb := start_index_range em hwf' b (by omega)
    have hab' : start_index em a = start_index em b := by omega
    unfold start_index at hab'
    cases hs : em.b_symmetric
    · rw [hs] at hab'
      simp only [Bool.false_eq_true, if_false] at hab'
      split_ifs at hab' <;> omega
    · rw [hs] at hab'
      simp only [if_true] at hab'
      omega
  · exact List.nodup_range _


/-! ## Claim on the start vector -/

/-- C20: for draws sorted in ascending order, the start vector built by the
estimators is a permutation of the draws, it is non-increasing away from the
zero offset (symmetric: `parameters[0] >= ... >= parameters[D]`; asymmetric:
non-increasing from `D` toward 0 and toward `2 * D`), its zero-offset cell
holds the largest draw, and it passes the peak-at-zero check of the
objectives. -/
theorem C20_start_vector_is_peaked (em : ErrorMeasure) (sorted parameters : Int → ℚ)
    (hwf : em.well_formed) (hasc : ascending sorted em.model_parameter_number) :
    List.Perm (cells_of (start_vector em sorted parameters) em.model_parameter_number)
      (cells_of sorted em.model_parameter_number) ∧
    ¬ shape_violation em (start_vector em sorted parameters) ∧
    (∀ k ∈ Finset.Ico 0 em.model_parameter_number,
      sorted k ≤ start_vector em sorted parameters
        (if em.b_symmetric then 0 else em.model_parameter_diff)) ∧
    peakzero_skip em (start_vector em sorted parameters) = false := by
  have hwf' := hwf
  obtain ⟨hD, hnum⟩ := hwf
  have hle : ∀ a b, 0 ≤ a → a < em.model_parameter_number → 0 ≤ b →
      b < em.model_parameter_number → start_index em a ≤ start_index em b →
      start_vector em sorted parameters a ≤ start_vector em sorted parameters b := by
    intro a b ha0 ha1 hb0 hb1 hab
    rw [start_vector_closed em sorted parameters hwf' a ⟨ha0, ha1⟩,
      start_vector_closed em sorted parameters hwf' b ⟨hb0, hb1⟩]
    have ra := start_index_range em hwf' a ⟨ha0, ha1⟩
    have rb := start_index_range em hwf' b ⟨hb0, hb1⟩
    exact hasc _ (by rw [Finset.mem_Ico]; exact ra) _ (by rw [Finset.mem_Ico]; exact rb) hab
  have hviol : ¬ shape_violation em (start_vector em sorted parameters) := by
    unfold shape_violation
    cases hs : em.b_symmetric
    · rw [hs] at hnum
      simp only [Bool.false_eq_true, if_false] at hnum ⊢
      rintro ⟨i, hi, h | h⟩
      · rw [Finset.mem_Ico] at hi
        have := hle (em.model_parameter_diff - i) (em.model_parameter_diff - i + 1)
          (by omega) (by omega) (by omega) (by omega)
          (by simp only [start_index, hs, Bool.false_eq_true, if_false]
              split_ifs <;> omega)
        exact absurd h (not_lt.mpr this)
      · rw [Finset.mem_Ico] at hi
        have := hle (em.model_parameter_diff + i) (em.model_parameter_diff + i - 1)
          (by omega) (by omega) (by omega) (by omega)
          (by simp only [start_index, hs, Bool.false_eq_true, if_false]
              split_ifs <;> omega)
        exact absurd h (not_lt.mpr this)
    · rw [hs] at hnum
      simp only [if_true] at hnum ⊢
      rintro ⟨i, hi, h⟩
      rw [Finset.mem_Ico] at hi
      have := hle i (i - 1) (by omega) (by omega) (by omega) (by omega)
        (by simp only [start_index, hs, if_true]; omega)
      exact absurd h (not_lt.mpr this)
  refine ⟨start_vector_perm em sorted parameters hwf', hviol, fun k hk => ?_, ?_⟩
  · rw [Finset.mem_Ico] at hk
    have hc : 0 ≤ (if em.b_symmetric then (0 : Int) else em.model_parameter_diff)
        ∧ (if em.b_symmetric then (0 : Int) else em.model_parameter_diff)
          < em.model_parameter_number := by
      rw [hnum]; split_ifs <;> omega
    rw [start_vector_closed em sorted parameters hwf' _ hc]
    have rc := start_index_range em hwf' _ hc
    refine hasc k (by rw [Finset.mem_Ico]; exact hk) _ (by rw [Finset.mem_Ico]; exact rc) ?_
    unfold start_index
    cases hs : em.b_symmetric
    · rw [hs] at hnum
      simp only [Bool.false_eq_true, if_false] at hnum ⊢
      rw [if_neg (by omega)]; omega
    · simp only [if_true]; omega
  · cases hp : peakzero_skip em (start_vector em sorted parameters)
    · rfl
    · exact absurd ((peakzero_skip_iff em _ hwf').mp hp) hviol

theorem C20_start_vector_is_peaked_witness :
    ascending draws_five error_measure_asymmetric.model_parameter_number ∧
    List.Perm
      (cells_of (start_vector error_measure_asymmetric draws_five (fun _ => 0))
        error_measure_asymmetric.model_parameter_number)
      (cells_of draws_five error_measure_asymmetric.model_parameter_number) ∧
    peakzero_skip error_measure_asymmetric
      (start_vector error_measure_asymmetric draws_five (fun _ => 0)) = false :=
  ⟨by decide!,
    (C20_start_vector_is_peaked error_measure_asymmetric draws_five (fun _ => 0)
      (by decide) (by decide!)).1,
    (C20_start_vector_is_peaked error_measure_asymmetric draws_five (fun _ => 0)
      (by decide) (by decide!)).2.2.2⟩


/-! ## The size distribution -/

theorem sizeTotal_eq (M : Int) (sizeFreq : Int → Int) :
    sizeTotal M sizeFreq = ∑ i in Finset.Ico 0 (M + 1), (sizeFreq i + 1) := by
  unfold sizeTotal
  rcases le_or_lt 0 (M + 1) with h | h
  · refine for_loop_induction 0 (M + 1) _ 0
      (fun n t => t = ∑ i in Finset.Ico 0 n, (sizeFreq i + 1)) h (by simp) ?_
    intro i t h1 _ ht
    have : Finset.Ico 0 (i + 1) = insert i (Finset.Ico 0 i) := by
      ext x; simp only [Finset.mem_Ico, Finset.mem_insert]; omega
    rw [this, Finset.sum_insert (by simp), ht]; ring
  · rw [for_loop_nil _ _ _ _ (le_of_lt h), Finset.Ico_eq_empty (by omega)]; simp

/-- C21: for non-negative counts over `[0, maxFamilySize]` with
`maxFamilySize >= 0`, `sizeDist[i] = (sizeFreq[i] + 1) / sum_k (sizeFreq[k] + 1)`,
every entry is strictly positive and the entries sum to exactly 1. -/
theorem C21_size_distribution (fresh : ℚ) (M : Int) (sizeFreq : Int → Int)
    (hM : 0 ≤ M) (hnn : ∀ i ∈ Finset.Ico 0 (M + 1), 0 ≤ sizeFreq i) :
    (∀ i ∈ Finset.Ico 0 (M + 1),
      sizeDist fresh M sizeFreq i
        = ((sizeFreq i + 1 : Int) : ℚ)
          / ((∑ k in Finset.Ico 0 (M + 1), (sizeFreq k + 1) : Int) : ℚ)
      ∧ 0 < sizeDist fresh M sizeFreq i) ∧
    ∑ i in Finset.Ico 0 (M + 1), sizeDist fresh M sizeFreq i = 1 := by
  have hpos : (0 : Int) < ∑ k in Finset.Ico 0 (M + 1), (sizeFreq k + 1) := by
    refine Finset.sum_pos (fun i hi => ?_) ⟨0, by rw [Finset.mem_Ico]; omega⟩
    have := hnn i hi
    omega
  have hposq : (0 : ℚ) < ((∑ k in Finset.Ico 0 (M + 1), (sizeFreq k + 1) : Int) : ℚ) := by
    exact_mod_cast hpos
  have hcell : ∀ i ∈ Finset.Ico 0 (M + 1),
      sizeDist fresh M sizeFreq i
        = ((sizeFreq i + 1 : Int) : ℚ)
          / ((∑ k in Finset.Ico 0 (M + 1), (sizeFreq k + 1) : Int) : ℚ) := by
    intro i hi
    rw [Finset.mem_Ico] at hi
    unfold sizeDist
    rw [copy_loop_closed (M + 1)
      (fun i => ((sizeFreq i + 1 : Int) : ℚ) / ((sizeTotal M sizeFreq : Int) : ℚ))
      _ (by omega) i, if_pos hi, sizeTotal_eq]
  refine ⟨fun i hi => ⟨hcell i hi, ?_⟩, ?_⟩
  · rw [hcell i hi]
    refine div_pos ?_ hposq
    have := hnn i hi
    exact_mod_cast (by omega : (0 : Int) < sizeFreq i + 1)
  · rw [Finset.sum_congr rfl hcell, ← Finset.sum_div]
    have : ∑ i in Finset.Ico 0 (M + 1), ((sizeFreq i + 1 : Int) : ℚ)
        = ((∑ k in Finset.Ico 0 (M + 1), (sizeFreq k + 1) : Int) : ℚ) := by
      push_cast; rfl
    rw [this]
    exact div_self (ne_of_gt hposq)

theorem C21_size_distribution_witness :
    (∀ i ∈ Finset.Ico (0 : Int) (2 + 1),
      sizeDist 0 2 (fun i => if i = 1 then 3 else 0) i
        = (((fun i => if i = 1 then 3 else 0) i + 1 : Int) : ℚ)
          / ((∑ k in Finset.Ico (0 : Int) (2 + 1),
              ((fun i => if i = 1 then 3 else 0) k + 1) : Int) : ℚ)
      ∧ 0 < sizeDist 0 2 (fun i => if i = 1 then 3 else 0) i) ∧
    ∑ i in Finset.Ico (0 : Int) (2 + 1),
      sizeDist 0 2 (fun i => if i = 1 then 3 else 0) i = 1 :=
  C21_size_distribution 0 2 (fun i => if i = 1 then 3 else 0) (by decide) (by decide)


/-! ## Cross-validation, rate-tree labels and the weight buffer -/

/-- C23, at a failing input: one query family with true leaf sizes 3, 5 and
reconstructed leaf sizes 1, 5.  The mean squared leaf error is 2 and the mean
absolute leaf error is 1, but the code adds both `SSE/nodecnt` and
`SAE/nodecnt` to `MSE` and never touches `MAE`: it returns 3 for "MSE" and 0
for "MAE". -/
theorem C23_both_sums_go_to_MSE :
    mean_squared_leaf_error 3 cv_families_example = 2 ∧
    mean_absolute_leaf_error 3 cv_families_example = 1 ∧
    _cafe_cross_validate_by_family 3 cv_families_example "MSE" = 3 ∧
    _cafe_cross_validate_by_family 3 cv_families_example "MAE" = 0 := by
  decide!

/-- C26, at a failing input: `__cafe_cmd_lambda_tree` accepts the three-node
rate tree with two labelled leaves and an unnamed root and sets
`num_lambdas = 2`; the root is left with a negative label (-2 when a new node
holds -1, -1 when it holds 0), and `cafe_shell_set_lambda`, which decodes
every node, reads the parameter vector of two cells at that label: outside
the vector. -/
theorem C26_unnamed_root_is_decoded_outside_the_vector :
    (__cafe_cmd_lambda_tree shell_example 1 rate_tree_unset_root).map
        (fun r => (r.1, r.2.cafe_param.num_lambdas,
          r.2.cafe_param.lambda_tree.map RateTree.labels))
      = some (0, 2, some [0, -2, 1]) ∧
    (__cafe_cmd_lambda_tree shell_example 1 rate_tree_unset_root).bind
        (fun r => cafe_shell_set_lambda 0 (after_lambda_tree r) [1 / 100, 1 / 50]) = none ∧
    (__cafe_cmd_lambda_tree shell_example 1 rate_tree_example).map
        (fun r => (r.1, r.2.cafe_param.num_lambdas,
          r.2.cafe_param.lambda_tree.map RateTree.labels))
      = some (0, 2, some [0, -1, 1]) ∧
    (__cafe_cmd_lambda_tree shell_example 1 rate_tree_example).bind
        (fun r => cafe_shell_set_lambda 0 (after_lambda_tree r) [1 / 100, 1 / 50]) = none := by
  decide!

/-- C29, at a failing input: with `-k 2 -l .. -m .. -p ..` (set path) the
weight buffer is allocated with `K - 1 = 1` cell, so the write of
`k_weights[K-1]` by `cafe_shell_set_lambda_mu` leaves the buffer and the
command has no defined result; the search path (`-s -k 2`) allocates
`K = 2` cells. -/
theorem C29_set_path_buffer_is_one_short :
    ((options_state shell_example set_path_two_clusters).bind
        (fun st => set_setup 0 st.sh.cafe_param st.tmp)).bind Setup.k_weights_size
      = some 1 ∧
    cafe_cmd_lambda_mu 0 (fun cp => some cp) shell_example set_path_two_clusters = none ∧
    ((options_state shell_example search_path_two_clusters).bind
        (fun st => search_setup 0 st.sh.cafe_param st.tmp)).bind Setup.k_weights_size
      = some 2 := by
  decide!

/-- The collecting loop keeps a duplicate-free list whose members are the
members it started with and the non-negative labels it met. -/
theorem collect_fold (l : List PhylogenyNode) :
    ∀ seen : List Int, seen.Nodup →
      (l.foldl
        (fun (seen : List Int) pnode =>
          let lambda_idx := pnode.taxaid
          if lambda_idx < 0 then seen
          else if seen.contains lambda_idx then seen
          else seen ++ [lambda_idx]) seen).Nodup ∧
      ∀ x, x ∈ l.foldl
        (fun (seen : List Int) pnode =>
          let lambda_idx := pnode.taxaid
          if lambda_idx < 0 then seen
          else if seen.contains lambda_idx then seen
          else seen ++ [lambda_idx]) seen
        ↔ x ∈ seen ∨ (0 ≤ x ∧ x ∈ l.map (fun pnode => pnode.taxaid)) := by
  induction l with
  | nil =>
    intro seen hnd
    exact ⟨hnd, fun x => by simp⟩
  | cons p rest ih =>
    intro seen hnd
    simp only [List.foldl_cons, List.map_cons, List.mem_cons]
    by_cases hneg : p.taxaid < 0
    · simp only [if_pos hneg]
      obtain ⟨h1, h2⟩ := ih seen hnd
      refine ⟨h1, fun x => ?_⟩
      rw [h2 x]
      constructor
      · rintro (h | ⟨h0, h⟩)
        · exact Or.inl h
        · exact Or.inr ⟨h0, Or.inr h⟩
      · rintro (h | ⟨h0, h | h⟩)
        · exact Or.inl h
        · rw [h] at h0; omega
        · exact Or.inr ⟨h0, h⟩
    · simp only [if_neg hneg]
      by_cases hc : seen.contains p.taxaid = true
      · simp only [if_pos hc]
        obtain ⟨h1, h2⟩ := ih seen hnd
        refine ⟨h1, fun x => ?_⟩
        rw [h2 x]
        have hmem : p.taxaid ∈ seen := by simpa using hc
        constructor
        · rintro (h | ⟨h0, h⟩)
          · exact Or.inl h
          · exact Or.inr ⟨h0, Or.inr h⟩
        · rintro (h | ⟨h0, h | h⟩)
          · exact Or.inl h
          · rw [h]; exact Or.inl hmem
          · exact Or.inr ⟨h0, h⟩
      · simp only [if_neg hc]
        have hmem : p.taxaid ∉ seen := by simpa using hc
        have hnd' : (seen ++ [p.taxaid]).Nodup := by
          rw [List.nodup_append]
          refine ⟨hnd, List.nodup_singleton _, ?_⟩
          intro a ha hb
          rw [List.mem_singleton] at hb
          exact hmem (hb ▸ ha)
        obtain ⟨h1, h2⟩ := ih (seen ++ [p.taxaid]) hnd'
        refine ⟨h1, fun x => ?_⟩
        rw [h2 x, List.mem_append, List.mem_singleton]
        constructor
        · rintro ((h | h) | ⟨h0, h⟩)
          · exact Or.inl h
          · exact Or.inr ⟨by rw [h]; omega, Or.inl h⟩
          · exact Or.inr ⟨h0, Or.inr h⟩
        · rintro (h | ⟨h0, h | h⟩)
          · exact Or.inl (Or.inl h)
          · exact Or.inl (Or.inr h)
          · exact Or.inr ⟨h0, h⟩

theorem collect_lambda_idx_length (ptree : RateTree) :
    (collect_lambda_idx ptree.nlist).length = ptree.distinct_labels := by
  obtain ⟨h1, h2⟩ := collect_fold ptree.nlist [] List.nodup_nil
  have h1' : (collect_lambda_idx ptree.nlist).Nodup := h1
  have h2' : ∀ x, x ∈ collect_lambda_idx ptree.nlist
      ↔ x ∈ ([] : List Int) ∨ (0 ≤ x ∧ x ∈ ptree.nlist.map (fun pnode => pnode.taxaid)) := h2
  unfold RateTree.distinct_labels RateTree.labels
  rw [← List.toFinset_card_of_nodup h1']
  congr 1
  ext x
  rw [List.mem_toFinset, List.mem_toFinset, List.mem_filter, h2' x]
  simp only [List.not_mem_nil, false_or, decide_eq_true_eq]
  exact ⟨fun h => ⟨h.2, h.1⟩, fun h => ⟨h.2, h.1⟩⟩

/-- C25: after `__cafe_cmd_lambda_tree` accepts a rate tree as the primary
tree (return code 0), `num_lambdas` is the number of distinct non-negative
class labels among the nodes of that tree, however often and in whatever
order they occur. -/
theorem C25_num_lambdas_counts_distinct_labels (sh sh' : Shell) (idx : Int)
    (raw : RateTree) (h : __cafe_cmd_lambda_tree sh idx raw = some (0, sh')) :
    idx ≠ 2 ∧
    ∃ ptree, sh'.cafe_param.lambda_tree = some ptree ∧
      ptree = (load_lambda_tree 0 raw).2 ∧
      sh'.cafe_param.num_lambdas = (ptree.distinct_labels : Int) := by
  cases hpc : sh.cafe_param.pcafe with
  | none =>
    simp [__cafe_cmd_lambda_tree, hpc] at h
  | some tree =>
    rw [lambda_tree_eq sh idx raw tree hpc] at h
    have h' := Option.some.inj h
    split_ifs at h' with h1 h2 h3
    · exact absurd (congrArg Prod.fst h') (show ¬ ((-1 : Int) = 0) by decide)
    · exact absurd (congrArg Prod.fst h') (show ¬ ((-1 : Int) = 0) by decide)
    · exact absurd (congrArg Prod.fst h') (show ¬ ((1 : Int) = 0) by decide)
    · have hs := congrArg Prod.snd h'
      simp only [] at hs
      subst hs
      exact ⟨h3, (load_lambda_tree 0 raw).2, rfl, rfl,
        by rw [← collect_lambda_idx_length]⟩

theorem C25_num_lambdas_counts_distinct_labels_witness :
    (Option.get (__cafe_cmd_lambda_tree shell_example 1 rate_tree_example)
        (by decide!)).2.cafe_param.num_lambdas
      = (((load_lambda_tree 0 rate_tree_example).2.distinct_labels : Nat) : Int) := by
  obtain ⟨_, ptree, _, h2, h3⟩ :=
    C25_num_lambdas_counts_distinct_labels shell_example
      (Option.get (__cafe_cmd_lambda_tree shell_example 1 rate_tree_example)
        (by decide!)).2 1 rate_tree_example (by decide!)
  rw [h3, h2]


/-! ## Folding the pair counts -/

/-- The inner loop of the folding step for row `i`. -/
theorem fold_inner_closed (i : Int) (t : Int → Int → Int) (hi : 0 ≤ i) (a b : Int) :
    for_loop 0 i (fun j p => set2 (set2 p j i (p j i + p i j)) i j 0) t a b
      = if b = i ∧ 0 ≤ a ∧ a < i then t a i + t i a
        else if a = i ∧ 0 ≤ b ∧ b < i then 0
        else t a b := by
  have key : ∀ a b,
      for_loop 0 i (fun j p => set2 (set2 p j i (p j i + p i j)) i j 0) t a b
        = if b = i ∧ 0 ≤ a ∧ a < i then t a i + t i a
          else if a = i ∧ 0 ≤ b ∧ b < i then 0
          else t a b := by
    refine for_loop_induction 0 i _ t
      (fun n p => ∀ a b, p a b
        = if b = i ∧ 0 ≤ a ∧ a < n then t a i + t i a
          else if a = i ∧ 0 ≤ b ∧ b < n then 0
          else t a b) hi ?_ ?_
    · intro a b
      rw [if_neg (by omega), if_neg (by omega)]
    · intro j p hj0 hji hp a b
      have e1 : p j i = t j i := by
        rw [hp, if_neg (by omega), if_neg (by omega)]
      have e2 : p i j = t i j := by
        rw [hp, if_neg (by omega), if_neg (by omega)]
      simp only [set2, e1, e2]
      by_cases h1 : a = i ∧ b = j
      · obtain ⟨rfl, rfl⟩ := h1
        rw [if_pos ⟨rfl, rfl⟩, if_neg (by omega), if_pos ⟨rfl, hj0, by omega⟩]
      · rw [if_neg h1]
        by_cases h2 : a = j ∧ b = i
        · obtain ⟨rfl, rfl⟩ := h2
          rw [if_pos ⟨rfl, rfl⟩, if_pos ⟨rfl, hj0, by omega⟩]
        · rw [if_neg h2, hp a b]
          by_cases h3 : b = i ∧ 0 ≤ a ∧ a < j
          · rw [if_pos h3, if_pos ⟨h3.1, h3.2.1, by omega⟩]
          · have h3' : ¬ (b = i ∧ 0 ≤ a ∧ a < j + 1) := by
              rintro ⟨hb, ha0, ha1⟩
              have : a ≠ j := fun e => h2 ⟨e, hb⟩
              exact h3 ⟨hb, ha0, by omega⟩
            rw [if_neg h3, if_neg h3']
            by_cases h4 : a = i ∧ 0 ≤ b ∧ b < j
            · rw [if_pos h4, if_pos ⟨h4.1, h4.2.1, by omega⟩]
            · have h4' : ¬ (a = i ∧ 0 ≤ b ∧ b < j + 1) := by
                rintro ⟨ha, hb0, hb1⟩
                have : b ≠ j := fun e => h1 ⟨ha, e⟩
                exact h4 ⟨ha, hb0, by omega⟩
              rw [if_neg h4, if_neg h4']
  exact key a b

/-- Every cell after the folding step. -/
theorem fold_observed_pairs_closed (M : Int) (orig : Int → Int → Int) (a b : Int) :
    fold_observed_pairs M orig a b
      = if 0 ≤ a ∧ a < b ∧ b ≤ M then orig a b + orig b a
        else if 0 ≤ b ∧ b < a ∧ a ≤ M then 0
        else orig a b := by
  unfold fold_observed_pairs
  rcases le_or_lt 0 (M + 1) with h | h
  · have key : ∀ a b,
        for_loop 0 (M + 1)
          (fun i p => for_loop 0 i
            (fun j p => set2 (set2 p j i (p j i + p i j)) i j 0) p) orig a b
          = if 0 ≤ a ∧ a < b ∧ b < M + 1 then orig a b + orig b a
            else if 0 ≤ b ∧ b < a ∧ a < M + 1 then 0
            else orig a b := by
      refine for_loop_induction 0 (M + 1) _ orig
        (fun n p => ∀ a b, p a b
          = if 0 ≤ a ∧ a < b ∧ b < n then orig a b + orig b a
            else if 0 ≤ b ∧ b < a ∧ a < n then 0
            else orig a b) h ?_ ?_
      · intro a b
        rw [if_neg (by omega), if_neg (by omega)]
      · intro i p hi0 _ hp a b
        rw [fold_inner_closed i p hi0 a b]
        by_cases h1 : b = i ∧ 0 ≤ a ∧ a < i
        · obtain ⟨rfl, ha0, ha1⟩ := h1
          rw [if_pos ⟨rfl, ha0, ha1⟩, if_pos ⟨ha0, ha1, by omega⟩, hp a b, hp b a,
            if_neg (by omega), if_neg (by omega), if_neg (by omega), if_neg (by omega)]
        · rw [if_neg h1]
          by_cases h2 : a = i ∧ 0 ≤ b ∧ b < i
          · obtain ⟨rfl, hb0, hb1⟩ := h2
            rw [if_pos ⟨rfl, hb0, hb1⟩, if_neg (by omega), if_pos ⟨hb0, hb1, by omega⟩]
          · rw [if_neg h2, hp a b]
            by_cases h3 : 0 ≤ a ∧ a < b ∧ b < i
            · rw [if_pos h3, if_pos ⟨h3.1, h3.2.1, by omega⟩]
            · have h3' : ¬ (0 ≤ a ∧ a < b ∧ b < i + 1) := by
                rintro ⟨ha0, hab, hb⟩
                by_cases hbi : b = i
                · exact h1 ⟨hbi, ha0, by omega⟩
                · exact h3 ⟨ha0, hab, by omega⟩
              rw [if_neg h3, if_neg h3']
              by_cases h4 : 0 ≤ b ∧ b < a ∧ a < i
              · rw [if_pos h4, if_pos ⟨h4.1, h4.2.1, by omega⟩]
              · have h4' : ¬ (0 ≤ b ∧ b < a ∧ a < i + 1) := by
                  rintro ⟨hb0, hba, ha⟩
                  by_cases hai : a = i
                  · exact h2 ⟨hai, hb0, by omega⟩
                  · exact h4 ⟨hb0, hba, by omega⟩
                rw [if_neg h4, if_neg h4']
    rw [key]
    by_cases h3 : 0 ≤ a ∧ a < b ∧ b ≤ M
    · rw [if_pos h3, if_pos ⟨h3.1, h3.2.1, by omega⟩]
    · have h3' : ¬ (0 ≤ a ∧ a < b ∧ b < M + 1) := fun e => h3 ⟨e.1, e.2.1, by omega⟩
      rw [if_neg h3, if_neg h3']
      by_cases h4 : 0 ≤ b ∧ b < a ∧ a ≤ M
      · rw [if_pos h4, if_pos ⟨h4.1, h4.2.1, by omega⟩]
      · have h4' : ¬ (0 ≤ b ∧ b < a ∧ a < M + 1) := fun e => h4 ⟨e.1, e.2.1, by omega⟩
        rw [if_neg h4, if_neg h4']
  · rw [for_loop_nil _ _ _ _ (le_of_lt h), if_neg (by omega), if_neg (by omega)]

/-- C22: the folding step of `cafe_shell_read_error_double_measure` leaves
every entry below the diagonal 0, every entry `(j, i)` with `j < i` above the
diagonal `original[j][i] + original[i][j]`, the diagonal unchanged, and the
total of all entries of the square the same as before. -/
theorem C22_folding_to_upper_triangle (M : Int) (orig : Int → Int → Int) :
    (∀ i j, 0 ≤ j → j < i → i ≤ M →
      fold_observed_pairs M orig i j = 0 ∧
      fold_observed_pairs M orig j i = orig j i + orig i j) ∧
    (∀ i, 0 ≤ i → i ≤ M → fold_observed_pairs M orig i i = orig i i) ∧
    ∑ i in Finset.Ico 0 (M + 1), ∑ j in Finset.Ico 0 (M + 1), fold_observed_pairs M orig i j
      = ∑ i in Finset.Ico 0 (M + 1), ∑ j in Finset.Ico 0 (M + 1), orig i j := by
  refine ⟨fun i j hj hji hi => ⟨?_, ?_⟩, fun i hi0 hi1 => ?_, ?_⟩
  · rw [fold_observed_pairs_closed, if_neg (by omega), if_pos ⟨hj, hji, hi⟩]
  · rw [fold_observed_pairs_closed, if_pos ⟨hj, hji, hi⟩]
  · rw [fold_observed_pairs_closed, if_neg (by omega), if_neg (by omega)]
  · have e1 : ∀ i ∈ Finset.Ico 0 (M + 1), ∀ j ∈ Finset.Ico 0 (M + 1),
        fold_observed_pairs M orig i j
          = orig i j + ((if i < j then orig j i else 0) - (if j < i then orig i j else 0)) := by
      intro i hi j hj
      rw [Finset.mem_Ico] at hi hj
      rw [fold_observed_pairs_closed]
      by_cases h1 : i < j
      · rw [if_pos ⟨hi.1, h1, by omega⟩, if_pos h1, if_neg (by omega)]; ring
      · by_cases h2 : j < i
        · rw [if_neg (by omega), if_pos ⟨hj.1, h2, by omega⟩, if_neg h1, if_pos h2]; ring
        · rw [if_neg (by omega), if_neg (by omega), if_neg h1, if_neg h2]; ring
    rw [Finset.sum_congr rfl (fun i hi => Finset.sum_congr rfl (e1 i hi))]
    simp only [Finset.sum_add_distrib, Finset.sum_sub_distrib]
    have e2 : ∑ i in Finset.Ico 0 (M + 1), ∑ j in Finset.Ico 0 (M + 1),
          (if i < j then orig j i else 0)
        = ∑ i in Finset.Ico 0 (M + 1), ∑ j in Finset.Ico 0 (M + 1),
          (if j < i then orig i j else 0) := Finset.sum_comm
    rw [e2]; ring


/-! ## The argument list -/

theorem drop_cases {α : Type} (l : List α) :
    ∀ j : Nat, (l[j]? = none ∧ l.drop j = [])
      ∨ ∃ t, l[j]? = some t ∧ l.drop j = t :: l.drop (j + 1) := by
  induction l with
  | nil => intro j; left; simp
  | cons x xs ih =>
    intro j
    cases j with
    | zero => right; exact ⟨x, by simp, by simp⟩
    | succ j =>
      rcases ih j with h | ⟨t, h1, h2⟩
      · left; simpa using h
      · right; exact ⟨t, by simpa using h1, by simpa using h2⟩

/-- The inner loop stops after the values that follow position `j - 1`. -/
theorem scan_values_eq (argv : List String) :
    ∀ (fuel j : Nat), (argv.drop j).length ≤ fuel →
      scan_values argv fuel j = j + values_before_next_option (argv.drop j) := by
  intro fuel
  induction fuel with
  | zero =>
    intro j h
    have : argv.drop j = [] := List.length_eq_zero.mp (by omega)
    rw [this]
    rfl
  | succ fuel ih =>
    intro j h
    rcases drop_cases argv j with ⟨h1, h2⟩ | ⟨t, h1, h2⟩
    · rw [h2]
      simp only [scan_values, h1]
      rfl
    · rw [h2] at h ⊢
      simp only [scan_values, h1, values_before_next_option, List.takeWhile_cons]
      cases ht : option_token t
      · simp only [Bool.false_eq_true, if_false, Bool.not_false, if_true, List.length_cons]
        rw [ih (j + 1) (by simp only [List.length_cons] at h; omega)]
        unfold values_before_next_option
        omega
      · simp only [if_true, Bool.not_true, Bool.false_eq_true, if_false, List.length_nil]
        rfl

/-- Tokens that are not options add nothing to the description. -/
theorem described_from_skip (l : List String) :
    ∀ pos : Nat, described_from pos l
      = described_from (pos + values_before_next_option l)
          (l.dropWhile (fun tok => !option_token tok)) := by
  induction l with
  | nil => intro pos; rfl
  | cons t rest ih =>
    intro pos
    cases ht : option_token t
    · have e1 : values_before_next_option (t :: rest)
          = values_before_next_option rest + 1 := by
        simp [values_before_next_option, List.takeWhile_cons, ht]
      have e2 : (t :: rest).dropWhile (fun tok => !option_token tok)
          = rest.dropWhile (fun tok => !option_token tok) := by
        simp [List.dropWhile_cons, ht]
      rw [e1, e2]
      simp only [described_from, ht, Bool.false_eq_true, if_false]
      rw [ih (pos + 1)]
      congr 1
      omega
    · have e1 : values_before_next_option (t :: rest) = 0 := by
        simp [values_before_next_option, List.takeWhile_cons, ht]
      have e2 : (t :: rest).dropWhile (fun tok => !option_token tok) = t :: rest := by
        simp [List.dropWhile_cons, ht]
      rw [e1, e2]
      rfl

theorem drop_add_takeWhile (argv : List String) (k : Nat) :
    argv.drop (k + values_before_next_option (argv.drop k))
      = (argv.drop k).dropWhile (fun tok => !option_token tok) := by
  unfold values_before_next_option
  rw [← List.drop_drop]
  generalize argv.drop k = l
  induction l with
  | nil => rfl
  | cons t rest ih =>
    cases ht : option_token t
    · simp [List.takeWhile_cons, List.dropWhile_cons, ht, ih]
    · simp [List.takeWhile_cons, List.dropWhile_cons, ht]

/-- The outer loop from position `i` appends the description of `argv[i ..]`. -/
theorem build_argument_loop_eq (argv : List String) :
    ∀ (fuel i : Nat) (pal : List pArgument), (argv.drop i).length ≤ fuel →
      build_argument_loop argv fuel i pal = pal ++ described_from i (argv.drop i) := by
  intro fuel
  induction fuel with
  | zero =>
    intro i pal h
    have : argv.drop i = [] := List.length_eq_zero.mp (by omega)
    rw [this]
    simp [build_argument_loop, described_from]
  | succ fuel ih =>
    intro i pal h
    rcases drop_cases argv i with ⟨h1, h2⟩ | ⟨t, h1, h2⟩
    · rw [h2]
      simp [build_argument_loop, h1, described_from]
    · rw [h2] at h ⊢
      simp only [List.length_cons] at h
      simp only [build_argument_loop, h1]
      cases ht : option_token t
      · simp only [Bool.false_eq_true, if_false, described_from, ht]
        exact ih (i + 1) pal (by omega)
      · simp only [if_true, described_from, ht]
        have hs := scan_values_eq argv argv.length (i + 1)
          (by rw [List.length_drop]; omega)
        rw [hs]
        have hlen : ((argv.drop (i + 1)).dropWhile (fun tok => !option_token tok)).length
            ≤ fuel := by
          have := (List.dropWhile_sublist (fun tok => !option_token tok)
            (l := argv.drop (i + 1))).length_le
          omega
        rw [ih (i + 1 + values_before_next_option (argv.drop (i + 1))) _
          (by rw [drop_add_takeWhile]; exact hlen)]
        rw [drop_add_takeWhile, ← described_from_skip, List.append_assoc]
        congr 2
        simp only [List.singleton_append, List.cons.injEq, and_true]
        have e : ((i + 1 + values_before_next_option (argv.drop (i + 1)) : Nat) : Int)
            - ((i : Int) + 1) = (values_before_next_option (argv.drop (i + 1)) : Int) := by
          push_cast; ring
        rw [e]
        congr 1
        simp only [ne_eq, Nat.cast_eq_zero]

/-- C30: for every `argv`, `cafe_shell_build_argument` returns, in order,
exactly one entry for each token at a position `i >= 1` that starts with `-`
followed by a character that is not a digit; the entry's `argc` is the number
of tokens between it and the next such token (or the end) and its `argv`
points at the first of them (NULL when there are none).  A token such as `-5`
is not an option, so it counts as a value, and the tokens before the first
option give no entry. -/
theorem C30_build_argument_matches_description (argv : List String) :
    cafe_shell_build_argument argv = described_arguments argv ∧
    option_token "-5" = false := by
  refine ⟨?_, by decide⟩
  unfold cafe_shell_build_argument described_arguments
  rw [build_argument_loop_eq argv argv.length 1 [] (by rw [List.length_drop]; omega),
    List.nil_append]

end Cafe
